import Mathlib

/-!
# Sec-plus study-data pipeline: shallow embedding and verified properties

The four batch scripts of the repository (`scripts/generateConceptDictionary.mjs`,
`scripts/generateFlashcards.mjs`, `scripts/generateQuestionsFromFlashcards.mjs`,
`scripts/mergeStudyData.mjs`) are embedded as pure Lean functions.

Modelling conventions
* A JavaScript string is a list of code units, `Str := List Char`; `length`, `slice`,
  `startsWith`, `includes` work on that list.
* `Math.random()` is an explicit stream `Rng := Nat → Nat` of outcomes that is threaded
  through every function drawing random numbers; `Math.floor(Math.random() * k)` is the
  head of the stream reduced modulo `k`, so every value in `0 .. k-1` is a possible draw.
* A thrown `TypeError`/`Error` is an `Except.error`.
-/

/-- JavaScript string: a sequence of code units. -/
abbrev Str := List Char

/-- Outcomes of the successive calls of `Math.random()`. -/
abbrev Rng := Nat → Nat

namespace Js

/-- The regex class `\s`, which is also the set of code points that `trim` strips
(WhiteSpace and LineTerminator of ECMAScript). -/
def isSpace (c : Char) : Bool :=
  c.toNat = 0x09 || c.toNat = 0x0A || c.toNat = 0x0B || c.toNat = 0x0C || c.toNat = 0x0D ||
  c.toNat = 0x20 || c.toNat = 0xA0 || c.toNat = 0x1680 ||
  (0x2000 ≤ c.toNat && c.toNat ≤ 0x200A) ||
  c.toNat = 0x2028 || c.toNat = 0x2029 || c.toNat = 0x202F || c.toNat = 0x205F ||
  c.toNat = 0x3000 || c.toNat = 0xFEFF

/-- Line terminators: the code points the regex atom `.` does not match. -/
def isLineTerminator (c : Char) : Bool :=
  c.toNat = 0x0A || c.toNat = 0x0D || c.toNat = 0x2028 || c.toNat = 0x2029

/-- The regex class `\w`. -/
def isWordChar (c : Char) : Bool :=
  c.isAlphanum || c = '_'

/-- Leading whitespace removed (`trimStart`). -/
def trimStart (s : Str) : Str :=
  s.dropWhile isSpace

/-- Trailing whitespace removed (`trimEnd`). -/
def trimEnd (s : Str) : Str :=
  (s.reverse.dropWhile isSpace).reverse

/-- The method `String.prototype.trim`. -/
def trim (s : Str) : Str :=
  trimEnd (trimStart s)

/-- Worker of `replaceRuns`; the flag tells whether the previous code unit was in the class. -/
def replaceRunsAux (p : Char → Bool) (r : Str) : Bool → Str → Str
  | _, [] => []
  | inRun, c :: cs =>
    if p c then
      if inRun then replaceRunsAux p r true cs else r ++ replaceRunsAux p r true cs
    else c :: replaceRunsAux p r false cs

/-- The call `s.replace(/[class]+/g, r)`: every maximal run of code units of the class `p`
becomes `r`. -/
def replaceRuns (p : Char → Bool) (r : Str) (s : Str) : Str :=
  replaceRunsAux p r false s

/-- The call `s.replace(/\s+/g, r)`: every maximal run of whitespace becomes `r`. -/
def replaceSpaces (r : Str) (s : Str) : Str :=
  replaceRuns isSpace r s

/-- The method `toLowerCase`, on the ASCII letters (other code units are kept). -/
def toLowerCase (s : Str) : Str :=
  s.map Char.toLower

/-- The method `toUpperCase`, on the ASCII letters (other code units are kept). -/
def toUpperCase (s : Str) : Str :=
  s.map Char.toUpper

/-- The method `s.startsWith(p)`. -/
def startsWith (s p : Str) : Bool :=
  p.isPrefixOf s

/-- The method `s.includes(k)`: `k` occurs as a contiguous substring of `s`. -/
def includes : Str → Str → Bool
  | [], k => k.isEmpty
  | c :: cs, k => startsWith (c :: cs) k || includes cs k

/-- The value of `Math.floor(Math.random() * k)` for the next draw of the stream. -/
def randomBelow (g : Rng) (k : Nat) : Nat :=
  if k = 0 then 0 else g 0 % k

/-- The stream after one call of `Math.random()`. -/
def next (g : Rng) : Rng :=
  fun n => g (n + 1)

/-- The destructuring swap `[a[i], a[j]] = [a[j], a[i]]`. -/
def swap {α : Type} (a : List α) (i j : Nat) : List α :=
  match a[i]?, a[j]? with
  | some x, some y => (a.set i y).set j x
  | _, _ => a

/-- The assignment `a[i] = v` on an array, for `i ≤ a.length` (writing at `a.length` appends). -/
def arraySet {α : Type} (a : List α) (i : Nat) (v : α) : List α :=
  if i < a.length then a.set i v else a ++ [v]

/-- The method `findIndex`, with `none` for the result `-1`. -/
def findIndex {α : Type} (p : α → Bool) : List α → Option Nat
  | [] => none
  | x :: xs => if p x then some 0 else (findIndex p xs).map (· + 1)

/-- One alternative of a keyword regex, a sequence of atoms: a literal code unit, an optional
literal (`s?`), `.?` and `.*`. -/
inductive Atom where
  | lit (c : Char)
  | opt (c : Char)
  | anyOpt
  | anyStar
  deriving DecidableEq, Repr

/-- The atoms of a literal alternative such as `phishing`. -/
def lits (s : String) : List Atom :=
  s.toList.map Atom.lit

/-- The atoms of an alternative with an optional final `s`, such as `ensures?`. -/
def litsOptS (s : String) : List Atom :=
  s.toList.map Atom.lit ++ [Atom.opt 's']

/-- The regex assertion `\b` between the previous code unit and the rest of the input. -/
def wordBoundary (prev : Option Char) (rest : Str) : Bool :=
  (match prev with
    | some c => isWordChar c
    | none => false) !=
  (match rest with
    | c :: _ => isWordChar c
    | [] => false)

/-- All positions reachable from the current one by consuming code units matched by `.`
(zero or more), each with the code unit that precedes it. -/
def dotReach : Option Char → Str → List (Option Char × Str)
  | prev, [] => [(prev, [])]
  | prev, c :: cs =>
    (prev, c :: cs) :: (if isLineTerminator c then [] else dotReach (some c) cs)

/-- Some way of matching the alternative at the current position ends at a word boundary
(the alternative followed by `\b`, under the flag `i`). -/
def matchAlt : List Atom → Option Char → Str → Bool
  | [], prev, s => wordBoundary prev s
  | Atom.lit p :: ps, _, s =>
    match s with
    | c :: cs => c.toUpper == p.toUpper && matchAlt ps (some c) cs
    | [] => false
  | Atom.opt p :: ps, prev, s =>
    (match s with
      | c :: cs => c.toUpper == p.toUpper && matchAlt ps (some c) cs
      | [] => false) || matchAlt ps prev s
  | Atom.anyOpt :: ps, prev, s =>
    (match s with
      | c :: cs => !isLineTerminator c && matchAlt ps (some c) cs
      | [] => false) || matchAlt ps prev s
  | Atom.anyStar :: ps, prev, s =>
    (dotReach prev s).any (fun q => matchAlt ps q.1 q.2)

/-- The regex `\b(alt1|alt2|...)\b` with flag `i` matches at the current position. -/
def matchWordsAt (alts : List (List Atom)) (prev : Option Char) (s : Str) : Bool :=
  wordBoundary prev s && alts.any (fun a => matchAlt a prev s)

/-- Scan of the input for `testWords`. -/
def testWordsFrom (alts : List (List Atom)) : Option Char → Str → Bool
  | prev, [] => matchWordsAt alts prev []
  | prev, c :: cs => matchWordsAt alts prev (c :: cs) || testWordsFrom alts (some c) cs

/-- The call `/\b(alt1|alt2|...)\b/i.test(text)`. -/
def testWords (alts : List (List Atom)) (text : Str) : Bool :=
  testWordsFrom alts none text

/-- The property names that a plain object inherits from `Object.prototype`: for them `o[k]`
is not `undefined` although `o` has no such own property. -/
def objectPrototypeKeys : List Str :=
  [ "constructor".toList, "__defineGetter__".toList, "__defineSetter__".toList,
    "hasOwnProperty".toList, "__lookupGetter__".toList, "__lookupSetter__".toList,
    "isPrototypeOf".toList, "propertyIsEnumerable".toList, "toString".toList,
    "valueOf".toList, "__proto__".toList, "toLocaleString".toList ]

/-- A global `replace` by the string `r` for a regex that never matches the empty string:
`matchLen prev s` is the length of the match that starts at the current position (`prev` is
the code unit before it), if there is one; the second argument counts the code units of the
current match still to skip. -/
def replaceMatches (matchLen : Option Char → Str → Option Nat) (r : Str) :
    Option Char → Nat → Str → Str
  | _, _, [] => []
  | _, skip + 1, c :: cs => replaceMatches matchLen r (some c) skip cs
  | prev, 0, c :: cs =>
    match matchLen prev (c :: cs) with
    | some n => r ++ replaceMatches matchLen r (some c) (n - 1) cs
    | none => c :: replaceMatches matchLen r (some c) 0 cs

/-- Worker of `splitSpaces`; the flag tells whether the previous code unit was whitespace. -/
def splitSpacesAux : Bool → Str → List Str
  | _, [] => [[]]
  | inRun, c :: cs =>
    if isSpace c then
      if inRun then splitSpacesAux true cs else [] :: splitSpacesAux true cs
    else
      match splitSpacesAux false cs with
      | w :: ws => (c :: w) :: ws
      | [] => [[c]]

/-- The call `s.split(/\s+/)`. -/
def splitSpaces (s : Str) : List Str :=
  splitSpacesAux false s

/-- Worker of `splitCommas`; the flag tells whether the whitespace after a comma is still
being consumed by the separator. -/
def splitCommasAux : Bool → Str → List Str
  | _, [] => [[]]
  | afterComma, c :: cs =>
    if afterComma && isSpace c then splitCommasAux true cs
    else if c = ',' then [] :: splitCommasAux true cs
    else
      match splitCommasAux false cs with
      | w :: ws => (c :: w) :: ws
      | [] => [[c]]

/-- The call `s.split(/,\s*/)`. -/
def splitCommas (s : Str) : List Str :=
  splitCommasAux false s

/-- The prefix `p` matched under the flag `i`; returns the rest of the input. -/
def dropPrefixCI : Str → Str → Option Str
  | [], s => some s
  | _ :: _, [] => none
  | p :: ps, c :: cs => if c.toUpper = p.toUpper then dropPrefixCI ps cs else none

/-- A regex `/^(alt1|alt2|...)/i` of literal alternatives, tested on a string. -/
def startsWithAnyCI (alts : List String) (s : Str) : Bool :=
  alts.any (fun a => (dropPrefixCI a.toList s).isSome)

/-- A regex `/^(alt1|alt2|...)\b/i` of literal alternatives, tested on a string. -/
def startsWithWordCI (alts : List String) (s : Str) : Bool :=
  alts.any (fun a => matchAlt (lits a) none s)

/-- A regex `/^(alt1|alt2|...)\s/i` of literal alternatives, tested on a string. -/
def startsWithThenSpaceCI (alts : List String) (s : Str) : Bool :=
  alts.any (fun a =>
    match dropPrefixCI a.toList s with
    | some (c :: _) => isSpace c
    | _ => false)

end Js

/-- Loop of `shuffle`: `for (let i = n; i > 0; i--)` with one draw and one swap per round. -/
def shuffleLoop {α : Type} : Nat → List α → Rng → List α × Rng
  | 0, a, g => (a, g)
  | i + 1, a, g => shuffleLoop i (Js.swap a (i + 1) (Js.randomBelow g (i + 2))) (Js.next g)

/-- The Fisher–Yates `shuffle(arr)` that `generateFlashcards.mjs` and
`generateQuestionsFromFlashcards.mjs` both define, returning the shuffled copy and the
remaining random stream. -/
def shuffle {α : Type} (arr : List α) (g : Rng) : List α × Rng :=
  shuffleLoop (arr.length - 1) arr g

/-- The random stream whose every draw is the lowest outcome. -/
def zeroRng : Rng :=
  fun _ => 0

/-! ## `scripts/generateQuestionsFromFlashcards.mjs` -/

namespace Questions

/-- A flashcard as read by the question generator (`{ ...card, question, answer }`). -/
structure Card where
  id : Str
  question : Str
  answer : Str
  domain : Option Str
  tags : Option (List Str)
  deriving DecidableEq, Repr

/-- A generated multiple-choice item. -/
structure Mcq where
  id : Str
  sourceCardId : Str
  type : Str
  prompt : Str
  choices : List Str
  answerIndex : Nat
  explanation : Str
  domain : Str
  tags : List Str
  difficulty : Nat
  deriving DecidableEq, Repr

/-- The function `pickRandom(arr, n, exclude)`. -/
def pickRandom (arr : List Str) (n : Nat) (exclude : List Str) (g : Rng) : List Str × Rng :=
  let filtered := arr.filter (fun x => !decide (x ∈ exclude))
  ((shuffle filtered g).1.take n, (shuffle filtered g).2)

/-- The table `DISTRACTOR_BANK`, in the order of `Object.entries`. -/
def DISTRACTOR_BANK : List (Str × List Str) :=
  [ ("dmarc".toList, ["SPF".toList, "DKIM".toList, "S/MIME".toList]),
    ("spf".toList, ["DMARC".toList, "DKIM".toList, "BGP".toList]),
    ("dkim".toList, ["SPF".toList, "DMARC".toList, "DNSSEC".toList]),
    ("mtbf".toList, ["MTTR".toList, "RTO".toList, "RPO".toList]),
    ("mttr".toList, ["MTBF".toList, "RTO".toList, "RPO".toList]),
    ("rto".toList, ["RPO".toList, "MTBF".toList, "MTTR".toList]),
    ("rpo".toList, ["RTO".toList, "MTBF".toList, "MTTR".toList]),
    ("sle".toList, ["ALE".toList, "ARO".toList, "EF".toList]),
    ("ale".toList, ["SLE".toList, "ARO".toList, "EF".toList]),
    ("aro".toList, ["SLE".toList, "ALE".toList, "EF".toList]),
    ("phishing".toList, ["Spear phishing".toList, "Whaling".toList, "Vishing".toList]),
    ("spear phishing".toList, ["Phishing".toList, "Whaling".toList, "Vishing".toList]),
    ("whaling".toList, ["Phishing".toList, "Spear phishing".toList, "Vishing".toList]),
    ("vishing".toList, ["Phishing".toList, "Smishing".toList, "Spear phishing".toList]),
    ("smishing".toList, ["Phishing".toList, "Vishing".toList, "Spear phishing".toList]),
    ("ids".toList, ["IPS".toList, "SIEM".toList, "Firewall".toList]),
    ("ips".toList, ["IDS".toList, "SIEM".toList, "Firewall".toList]),
    ("hashing".toList, ["Encryption".toList, "Encoding".toList, "Obfuscation".toList]),
    ("encryption".toList, ["Hashing".toList, "Encoding".toList, "Obfuscation".toList]),
    ("symmetric".toList, ["Asymmetric".toList, "Hashing".toList, "PKI".toList]),
    ("asymmetric".toList, ["Symmetric".toList, "Hashing".toList, "PKI".toList]),
    ("tpm".toList, ["HSM".toList, "UEFI".toList, "Secure Boot".toList]),
    ("hsm".toList, ["TPM".toList, "UEFI".toList, "Secure Boot".toList]),
    ("reconnaissance".toList, ["Scanning".toList, "Enumeration".toList, "Exploitation".toList]),
    ("passive reconnaissance".toList,
      ["Active reconnaissance".toList, "Scanning".toList, "Enumeration".toList]),
    ("active reconnaissance".toList,
      ["Passive reconnaissance".toList, "Scanning".toList, "Exploitation".toList]),
    ("siem".toList, ["IDS".toList, "IPS".toList, "SOAR".toList]),
    ("soar".toList, ["SIEM".toList, "IDS".toList, "IPS".toList]),
    ("sso".toList, ["MFA".toList, "Federation".toList, "LDAP".toList]),
    ("mfa".toList, ["SSO".toList, "Federation".toList, "LDAP".toList]),
    ("ldap".toList, ["RADIUS".toList, "Kerberos".toList, "SAML".toList]),
    ("radius".toList, ["LDAP".toList, "Kerberos".toList, "TACACS+".toList]),
    ("kerberos".toList, ["LDAP".toList, "RADIUS".toList, "SAML".toList]),
    ("xss".toList, ["SQL injection".toList, "CSRF".toList, "Buffer overflow".toList]),
    ("sql injection".toList, ["XSS".toList, "CSRF".toList, "LDAP injection".toList]),
    ("csrf".toList, ["XSS".toList, "SQL injection".toList, "Clickjacking".toList]),
    ("ransomware".toList, ["Spyware".toList, "Trojan".toList, "Worm".toList]),
    ("trojan".toList, ["Ransomware".toList, "Worm".toList, "Spyware".toList]),
    ("worm".toList, ["Virus".toList, "Trojan".toList, "Ransomware".toList]),
    ("virus".toList, ["Worm".toList, "Trojan".toList, "Ransomware".toList]) ]

/-- The table `DOMAIN_KEYWORDS` of the question generator: each domain with the
alternatives of its regex `/\b(...)\b/i`, in table order. -/
def DOMAIN_KEYWORDS : List (Str × List (List Js.Atom)) :=
  [ ("2".toList,
      ["phishing", "ransomware", "malware", "trojan", "worm", "virus", "reconnaissance",
       "vulnerability", "exploit", "social engineering", "on-path", "SQL injection", "XSS",
       "CSRF", "threat actor", "organized crime", "nation-state", "brute force", "DDoS",
       "keylogger", "honeypot", "watering hole", "OSINT", "penetration test",
       "buffer overflow", "replay attack", "DNS poisoning", "smishing", "hacktivist",
       "enumeration", "rogue access point"].map Js.lits),
    ("3".toList,
      ["DMARC", "SPF", "DKIM", "firewall", "network security", "identity", "authentication",
       "federation", "LDAP", "RADIUS", "Kerberos", "MFA", "SSO", "SAML", "VPN", "NAT",
       "segmentation", "VLAN", "SASE", "802.1X", "IPsec", "WPA3", "WAF", "load balancer",
       "jump server", "containerization", "blockchain", "digital signature", "OCSP", "HSM",
       "secure enclave", "TPM", "biometric", "AAA"].map Js.lits),
    ("4".toList,
      ["incident response", "forensics", "SIEM", "SOAR", "monitoring", "recovery", "backup",
       "root cause", "MTBF", "MTTR", "RTO", "RPO", "BIA", "IOC", "containment", "escalation",
       "tabletop exercise", "chain of custody", "alert tuning", "NetFlow", "hardening",
       "remediation", "MDM", "file integrity", "FIM", "DLP"].map Js.lits),
    ("5".toList,
      ["policy", "compliance", "governance", "audit", "regulation", "risk management", "MOA",
       "SLA", "NDA", "regulated", "data owner", "data custodian", "due care", "risk appetite",
       "acceptance", "self-assessment", "responsibility matrix", "conflict of interest",
       "data sovereignty", "privacy", "user training", "shadow IT", "SLE", "ALE", "ARO", "EF",
       "exposure factor"].map Js.lits),
    ("1".toList,
      ["CIA", "confidentiality", "integrity", "availability", "security controls", "asset",
       "zero trust", "physical security", "obfuscation", "hashing", "encryption", "symmetric",
       "asymmetric", "PKI", "non-repudiation", "deterrent", "detective", "preventive",
       "corrective", "compensating", "masking", "tokenization", "salting", "least privilege",
       "discretionary", "access control", "change management", "gap analysis",
       "mitigate"].map Js.lits) ]

/-- The test `String(card.domain).match(/^[1-5]$/)`. -/
def isDomainDigit (d : Str) : Bool :=
  match d with
  | [c] => decide ('1' ≤ c ∧ c ≤ '5')
  | _ => false

/-- The function `inferDomain(card)` of the question generator. -/
def inferDomain (card : Card) : Str :=
  match card.domain with
  | some d =>
    if d ≠ [] ∧ isDomainDigit d then d
    else
      match DOMAIN_KEYWORDS.find?
        (fun e => Js.testWords e.2 (Js.toLowerCase (card.question ++ " ".toList ++ card.answer))) with
      | some e => e.1
      | none => "1".toList
  | none =>
    match DOMAIN_KEYWORDS.find?
      (fun e => Js.testWords e.2 (Js.toLowerCase (card.question ++ " ".toList ++ card.answer))) with
    | some e => e.1
    | none => "1".toList

/-- The table `SCENARIO_STEMS`. -/
def SCENARIO_STEMS : List Str :=
  [ "A security analyst needs to explain the concept to management. Which of the following best describes".toList,
    "During a security review, the team discusses a key concept. Which statement correctly defines".toList,
    "An incident response document requires clear definitions. Which of the following accurately describes".toList,
    "For the Security+ exam, a candidate must understand terminology. Which option best defines".toList,
    "In a compliance audit, the auditor asks about a security concept. Which of the following is the correct definition of".toList ]

/-- The rest of the input matches `\s*\??$`. -/
def matchTail (s : Str) : Bool :=
  let t := s.dropWhile Js.isSpace
  decide (t = []) || decide (t = ['?'])

/-- The lazy group `(.+?)` followed by `\s*\??$`: the shortest non-empty run of code units
other than line terminators after which the tail matches. -/
def lazyGroup : Str → Option Str
  | [] => none
  | c :: cs =>
    if Js.isLineTerminator c then none
    else if matchTail cs then some [c]
    else (lazyGroup cs).map (fun grp => c :: grp)

/-- The part `\s+(.+?)\s*\??$` once one whitespace code unit is consumed: the greedy `\s+`
tries to take one more whitespace code unit before it lets the group start. -/
def spacesThenGroup : Str → Option Str
  | [] => none
  | c :: cs =>
    if Js.isSpace c then
      match spacesThenGroup cs with
      | some grp => some grp
      | none => lazyGroup (c :: cs)
    else lazyGroup (c :: cs)

/-- The function `extractTerm(question)`: the trimmed group 1 of
`/^What is\s+(.+?)\s*\??$/i`, or `none` for `null`. -/
def extractTerm (question : Str) : Option Str :=
  match Js.dropPrefixCI "What is".toList question with
  | some (c :: cs) => if Js.isSpace c then (spacesThenGroup cs).map Js.trim else none
  | _ => none

/-- The expression `term || correctAnswer`. -/
def termOr (term : Option Str) (correctAnswer : Str) : Str :=
  match term with
  | some t => if t = [] then correctAnswer else t
  | none => correctAnswer

/-- The top-up loop of `getDistractors`: `for (const e of shuffle(extra))`. -/
def topUp : List Str → List Str → List Str
  | picked, [] => picked
  | picked, e :: es =>
    if picked.length ≥ 3 then picked
    else if e ≠ [] ∧ e ∉ picked then topUp (picked ++ [e]) es
    else topUp picked es

/-- The lookup key of `getDistractors`. -/
def bankKey (correctAnswer : Str) (term : Option Str) : Str :=
  (Js.replaceSpaces [' '] (Js.toLowerCase (termOr term correctAnswer))).take 50

/-- The value of `pool` in `getDistractors` before the random pick. -/
def distractorPool (correctAnswer : Str) (allAnswers : List Str) (term : Option Str) : List Str :=
  let key := bankKey correctAnswer term
  let bankEntry := DISTRACTOR_BANK.find?
    (fun e => Js.includes key e.1 || Js.includes key (Js.replaceSpaces [' '] e.1))
  let pool : List Str := match bankEntry with
    | some e => e.2
    | none => []
  if pool.length < 3 then
    allAnswers.filter (fun a =>
      decide (a ≠ correctAnswer.take 80) && !Js.startsWith correctAnswer a && decide (a.length > 15))
  else pool

/-- The function `getDistractors(correctAnswer, allAnswers, term)`. -/
def getDistractors (correctAnswer : Str) (allAnswers : List Str) (term : Option Str) (g : Rng) :
    List Str × Rng :=
  let pool := distractorPool correctAnswer allAnswers term
  let exclude := [correctAnswer]
  let picked := (pickRandom pool 3 exclude g).1
  let g1 := (pickRandom pool 3 exclude g).2
  if picked.length < 3 then
    let extra := allAnswers.filter (fun a =>
      !decide (a ∈ exclude) && !decide (a ∈ picked) && decide (a.length > 15))
    ((topUp picked (shuffle extra g1).1).take 3, (shuffle extra g1).2)
  else (picked.take 3, g1)

/-- The padding loop of `generateMcq`: `while (choices.length < 4)`; each round appends one
choice or stops, so four rounds always reach the end of the loop. -/
def padChoices (allAnswers : List Str) : Nat → List Str → List Str
  | 0, choices => choices
  | fuel + 1, choices =>
    if choices.length < 4 then
      match allAnswers.find? (fun a => !decide (a ∈ choices) && decide (a.length > 20)) with
      | some fallback => padChoices allAnswers fuel (choices ++ [fallback])
      | none => choices
    else choices

/-- The predicate of `shuffled.findIndex(...)` in `generateMcq`. -/
def isCorrectChoice (correctAnswer : Str) (c : Str) : Bool :=
  decide (c = correctAnswer) ||
    (decide (c ≠ []) && decide (correctAnswer ≠ []) && decide (Js.trim c = Js.trim correctAnswer))

/-- The choices before the shuffle: `[correctAnswer, ...distractors].filter(Boolean)` padded
by the `while` loop and cut to four. -/
def assembleChoices (correctAnswer : Str) (distractors : List Str) (allAnswers : List Str) :
    List Str :=
  (padChoices allAnswers 4 ((correctAnswer :: distractors).filter (fun c => decide (c ≠ [])))).take 4

/-- The pair `(shuffled, answerIndex)` and the random stream left, as `generateMcq` computes
them from the assembled choices. -/
def placeAnswer (correctAnswer : Str) (choices : List Str) (g : Rng) : List Str × Nat × Rng :=
  let shuffled := (shuffle choices g).1
  let g1 := (shuffle choices g).2
  match Js.findIndex (isCorrectChoice correctAnswer) shuffled with
  | some i => (shuffled, i, g1)
  | none =>
    let i := Js.randomBelow g1 (min 4 shuffled.length)
    (Js.arraySet shuffled i correctAnswer, i, Js.next g1)

/-- The default of `card.tags ?? [...]`. -/
def defaultTags : List Str :=
  ["security-plus".toList, "sy0-701".toList]

/-- The function `generateMcq(card, allAnswers, index)`, with the random stream left. -/
def generateMcq (card : Card) (allAnswers : List Str) (index : Nat) (g : Rng) : Mcq × Rng :=
  let correctAnswer := Js.trim (Js.replaceSpaces [' '] card.answer)
  let term := extractTerm card.question
  let distractors := (getDistractors correctAnswer allAnswers term g).1
  let g1 := (getDistractors correctAnswer allAnswers term g).2
  let stemIdx := index % SCENARIO_STEMS.length
  let stem :=
    match term with
    | some t =>
      if t ≠ [] then SCENARIO_STEMS.getD stemIdx [] ++ " ".toList ++ t ++ "?".toList
      else "Which of the following best describes the concept in this definition: \"".toList
        ++ card.answer.take 60 ++ "...\"?".toList
    | none => "Which of the following best describes the concept in this definition: \"".toList
        ++ card.answer.take 60 ++ "...\"?".toList
  let placed := placeAnswer correctAnswer (assembleChoices correctAnswer distractors allAnswers) g1
  let fullDefinition := Js.trim card.answer
  let explanation :=
    match term with
    | some t =>
      if t ≠ [] then t ++ " is the correct answer. ".toList ++ fullDefinition
      else "The correct answer is: ".toList ++ fullDefinition
    | none => "The correct answer is: ".toList ++ fullDefinition
  ({ id := "q-".toList ++ card.id ++ "-mcq".toList
     sourceCardId := card.id
     type := "mcq".toList
     prompt := stem
     choices := placed.1
     answerIndex := placed.2.1
     explanation := explanation
     domain := inferDomain card
     tags := card.tags.getD defaultTags
     difficulty := 1 + index % 3 },
   placed.2.2)

/-- A card whose question is not of the form "What is X?" and whose answer meets no key of
the distractor bank. -/
def digestCard : Card :=
  { id := "c1".toList
    question := "Define a hash".toList
    answer := "A one-way digest of data".toList
    domain := none
    tags := none }

/-- A corpus holding the answer of `digestCard` with a leading blank. -/
def untrimmedAnswers : List Str :=
  [" A one-way digest of data".toList]

/-- A corpus holding only the answer of `digestCard`. -/
def ownAnswerOnly : List Str :=
  ["A one-way digest of data".toList]

/-- A small corpus of normalised answers. -/
def smallCorpus : List Str :=
  [ "A one-way digest of data".toList,
    "A decoy system that attracts attackers".toList,
    "Proof that a sender cannot deny a message".toList ]

end Questions

/-- The loop shared by `dedupe` of `generateFlashcards.mjs` and `dedupeByFrontBack` of
`mergeStudyData.mjs`: a card is pushed to `out` unless its key is in the set `seen`. -/
def dedupeLoop {α : Type} (key : α → Str) : List Str → List α → List α
  | _, [] => []
  | seen, c :: cs =>
    if key c ∈ seen then dedupeLoop key seen cs
    else c :: dedupeLoop key (key c :: seen) cs

/-! ## `scripts/generateFlashcards.mjs` -/

namespace Flashcards

/-- A canonical flashcard (`section` of the source is the field `sectionName`). -/
structure Flashcard where
  id : Str
  question : Str
  answer : Str
  tags : List Str
  source : Str
  domain : Option Str
  sectionName : Option Str
  deriving DecidableEq, Repr

/-- The constant `MIN_BULLET_LEN`. -/
def MIN_BULLET_LEN : Nat := 20

/-- The function `normalizeWhitespace(s)` on a string. -/
def normalizeWhitespace (s : Str) : Str :=
  Js.trim (Js.replaceSpaces [' '] s)

/-- The lowercased, whitespace-normalised (question, answer) pair of a card. -/
def normalizedPair (c : Flashcard) : Str × Str :=
  (Js.toLowerCase (normalizeWhitespace c.question), Js.toLowerCase (normalizeWhitespace c.answer))

/-- The string `key` that `dedupe` stores in its set, for ASCII text (see `dedupeKeyOf` for
the `toLowerCase` of the host). -/
def dedupeKey (c : Flashcard) : Str :=
  Js.toLowerCase (normalizeWhitespace c.question) ++ "||".toList ++
    Js.toLowerCase (normalizeWhitespace c.answer)

/-- The function `dedupe(cards)`. -/
def dedupe (cards : List Flashcard) : List Flashcard :=
  dedupeLoop dedupeKey [] cards

end Flashcards

/-! ## `scripts/mergeStudyData.mjs` -/

namespace Merge

/-- A card record of the input (absent and `null` properties are `none`); `toCards` adds the
property `_domain`. -/
structure Card where
  front : Option Str := none
  question : Option Str := none
  back : Option Str := none
  answer : Option Str := none
  tags : Option (List Str) := none
  _domain : Option Str := none
  deriving DecidableEq, Repr

/-- A record of the merged output. -/
structure Merged where
  front : Str
  back : Str
  tags : List Str
  domain : Option Str
  deriving DecidableEq, Repr

/-- The value of a property of the root object: absent or `null`, an array of cards, a
non-array object (its entries in `Object.entries` order, with `none` for a value that is not
an array), or any other value. -/
inductive Field where
  | absent
  | array (cards : List Card)
  | object (entries : List (Str × Option (List Card)))
  | other
  deriving Repr

/-- The properties of a root object that `toCards` reads. -/
structure RootObject where
  cards : Field := Field.absent
  flashcards : Field := Field.absent
  deriving Repr

/-- The parsed JSON root: an array of cards, an object, or any other value. -/
inductive Root where
  | array (cards : List Card)
  | object (o : RootObject)
  | other
  deriving Repr

/-- The first digit of a domain name: `String(name ?? '').match(/(\d)/)`. -/
def domainNameToNum (name : Str) : Option Str :=
  (name.find? Char.isDigit).map (fun c => [c])

/-- The body of the loop over `Object.entries(data.flashcards)` in `toCards`. -/
def flashcardEntries : List (Str × Option (List Card)) → List Card
  | [] => []
  | (_, none) :: es => flashcardEntries es
  | (domainName, some arr) :: es =>
    arr.map (fun c => { c with _domain := domainNameToNum domainName }) ++ flashcardEntries es

/-- The function `toCards(data)`. -/
def toCards (data : Root) : Except Str (List Card) :=
  match data with
  | Root.array cards => Except.ok (cards.map (fun c => { c with _domain := none }))
  | Root.object o =>
    match o.cards with
    | Field.array cards => Except.ok (cards.map (fun c => { c with _domain := none }))
    | _ =>
      match o.flashcards with
      | Field.array cards => Except.ok (cards.map (fun c => { c with _domain := none }))
      | Field.object entries => Except.ok (flashcardEntries entries)
      | _ => Except.error
        "Input must be an array, \x7b cards \x7d, \x7b flashcards \x7d, or \x7b flashcards: \x7b \"Domain N\": [...] \x7d \x7d".toList
  | Root.other => Except.error
    "Input must be an array, \x7b cards \x7d, \x7b flashcards \x7d, or \x7b flashcards: \x7b \"Domain N\": [...] \x7d \x7d".toList

/-- The function `normalize(c)`, with `none` for `null`. -/
def normalize (c : Card) : Option Merged :=
  let front := Js.trim ((c.front.orElse (fun _ => c.question)).getD [])
  let back := Js.trim ((c.back.orElse (fun _ => c.answer)).getD [])
  if front = [] ∨ back = [] then none
  else
    let tags := c.tags.getD ["security-plus".toList, "sy0-701".toList]
    match c._domain with
    | some domain =>
      if domain ≠ [] then
        some { front := front
               back := back
               tags := if "domain-".toList ++ domain ∈ tags then tags
                       else tags ++ ["domain-".toList ++ domain]
               domain := some domain }
      else some { front := front, back := back, tags := tags, domain := none }
    | none => some { front := front, back := back, tags := tags, domain := none }

/-- The string `key` that `dedupeByFrontBack` stores in its set, for ASCII text (see
`frontBackKeyOf` for the `toLowerCase` of the host). -/
def frontBackKey (c : Merged) : Str :=
  Js.toLowerCase c.front ++ "||".toList ++ Js.toLowerCase c.back

/-- The function `dedupeByFrontBack(cards)`. -/
def dedupeByFrontBack (cards : List Merged) : List Merged :=
  dedupeLoop frontBackKey [] cards

/-- The expression `toCards(data).map(normalize).filter(Boolean)`. -/
def normalizedCards (data : Root) : Except Str (List Merged) :=
  match toCards data with
  | Except.ok cards => Except.ok (cards.filterMap normalize)
  | Except.error e => Except.error e

/-- The record list that `main` writes: the normalised new cards, then the normalised cards
of the existing file (`none` when that file does not exist), deduplicated unless
`--no-dedupe` is given. -/
def mergeMain (dedupe : Bool) (newData : Root) (existingData : Option Root) :
    Except Str (List Merged) :=
  match normalizedCards newData with
  | Except.error e => Except.error e
  | Except.ok newCards =>
    match existingData with
    | none => Except.ok (if dedupe then dedupeByFrontBack newCards else newCards)
    | some existing =>
      match normalizedCards existing with
      | Except.error e => Except.error e
      | Except.ok existingCards =>
        Except.ok (if dedupe then dedupeByFrontBack (newCards ++ existingCards)
                   else newCards ++ existingCards)

/-- The new batch of the merge scenario: one card with front "A" and back "B". -/
def batchAB : Root :=
  Root.array [{ front := some "A".toList, back := some "B".toList }]

/-- An existing corpus with one card, front "a" and back "b". -/
def batchLowerAB : Root :=
  Root.array [{ front := some "a".toList, back := some "b".toList }]

/-- An existing corpus with one card, front "C" and back "D". -/
def batchCD : Root :=
  Root.array [{ front := some "C".toList, back := some "D".toList }]

/-- A new batch of two cards whose (front, back) pairs differ and whose keys coincide:
("x||y", "z") and ("x", "y||z"). -/
def batchBars : Root :=
  Root.array [ { front := some "x||y".toList, back := some "z".toList },
               { front := some "x".toList, back := some "y||z".toList } ]

/-- An existing corpus holding the second card of `batchBars`. -/
def batchBarsExisting : Root :=
  Root.array [{ front := some "x".toList, back := some "y||z".toList }]

end Merge

namespace Flashcards

/-- The regex `MUST_CONTAIN_LETTER`, `/[A-Za-z]/`, tested on a string. -/
def MUST_CONTAIN_LETTER (s : Str) : Bool :=
  s.any Char.isAlpha

/-- The alternatives of `DENYLIST_REGEX`,
`/\b(continued|example|types|overview|many and varied|and much more)\b/i`. -/
def DENYLIST_REGEX : List (List Js.Atom) :=
  ["continued", "example", "types", "overview", "many and varied", "and much more"].map Js.lits

/-- The class `[a-z0-9]`. -/
def isSlugChar (c : Char) : Bool :=
  c.isLower || c.isDigit

/-- The call `s.replace(/^-+|-+$/g, "")`: the leading and the trailing run of hyphens go. -/
def stripHyphens (s : Str) : Str :=
  ((s.dropWhile (fun c => c = '-')).reverse.dropWhile (fun c => c = '-')).reverse

/-- The function `slug(s)`. -/
def slug (s : Str) : Str :=
  (stripHyphens (Js.replaceRuns (fun c => !isSlugChar c) ['-']
    (Js.toLowerCase (normalizeWhitespace s)))).take 60

/-- A section of the old input schema; `sectionAlt` is its property `section`. -/
structure RawSection where
  name : Option Str := none
  sectionAlt : Option Str := none
  bullets : List Str := []
  deriving DecidableEq, Repr

/-- A domain of the old input schema. -/
structure RawDomain where
  name : Option Str := none
  domain : Option Str := none
  sections : List RawSection := []
  deriving DecidableEq, Repr

/-- The old input schema `{ domains: [...] }`. -/
structure RawData where
  domains : List RawDomain
  deriving DecidableEq, Repr

/-- The expression `a || b || ""` on optional strings. -/
def firstTruthy (a b : Option Str) : Str :=
  match a with
  | some x => if x ≠ [] then x else
    match b with
    | some y => y
    | none => []
  | none =>
    match b with
    | some y => y
    | none => []

/-- The card that `fromDomainsSchema` pushes for a bullet that passes the filters; `sha1` is
the hex digest function of `node:crypto`. -/
def bulletCard (sha1 : Str → Str) (domainName sectionName bullet : Str) : Flashcard :=
  { id := "secplus-".toList ++
      (sha1 (domainName ++ "||".toList ++ sectionName ++ "||".toList ++ bullet)).take 12
    question := "What should you know about: ".toList ++ bullet ++ "?".toList
    answer := bullet
    tags := ["security-plus".toList, "sy0-701".toList] ++
      (if domainName ≠ [] then [slug domainName] else []) ++
      (if sectionName ≠ [] then [slug sectionName] else [])
    source := "secplus-notes".toList
    domain := if domainName ≠ [] then some domainName else none
    sectionName := if sectionName ≠ [] then some sectionName else none }

/-- The innermost loop of `fromDomainsSchema`, over the bullets of one section. -/
def bulletCards (sha1 : Str → Str) (domainName sectionName : Str) : List Str → List Flashcard
  | [] => []
  | rawBullet :: rest =>
    let bullet := normalizeWhitespace rawBullet
    if bullet.length < MIN_BULLET_LEN then bulletCards sha1 domainName sectionName rest
    else if !MUST_CONTAIN_LETTER bullet then bulletCards sha1 domainName sectionName rest
    else if Js.testWords DENYLIST_REGEX bullet then bulletCards sha1 domainName sectionName rest
    else bulletCard sha1 domainName sectionName bullet ::
      bulletCards sha1 domainName sectionName rest

/-- The loop of `fromDomainsSchema` over the sections of one domain. -/
def sectionCards (sha1 : Str → Str) (domainName : Str) : List RawSection → List Flashcard
  | [] => []
  | s :: rest =>
    bulletCards sha1 domainName (normalizeWhitespace (firstTruthy s.name s.sectionAlt)) s.bullets ++
      sectionCards sha1 domainName rest

/-- The outer loop of `fromDomainsSchema`. -/
def domainCards (sha1 : Str → Str) : List RawDomain → List Flashcard
  | [] => []
  | d :: rest =>
    sectionCards sha1 (normalizeWhitespace (firstTruthy d.name d.domain)) d.sections ++
      domainCards sha1 rest

/-- The function `fromDomainsSchema(data)`. -/
def fromDomainsSchema (sha1 : Str → Str) (data : RawData) : List Flashcard :=
  domainCards sha1 data.domains

/-- The constant `DOMAIN_TARGETS`. -/
def DOMAIN_TARGETS : List (Str × Nat) :=
  [("1".toList, 36), ("2".toList, 72), ("3".toList, 39), ("4".toList, 87), ("5".toList, 66)]

/-- The domains `["1", "2", "3", "4", "5"]` in the order of the quota loop. -/
def domainOrder : List Str :=
  ["1".toList, "2".toList, "3".toList, "4".toList, "5".toList]

/-- The constant `fillOrder`. -/
def fillOrder : List Str :=
  ["4".toList, "2".toList, "5".toList, "3".toList, "1".toList]

/-- The expression `targets[d] ?? 0`. -/
def targetOf (d : Str) : Nat :=
  match DOMAIN_TARGETS.find? (fun e => decide (e.1 = d)) with
  | some e => e.2
  | none => 0

/-- The expression `String(c.domain ?? "1")`. -/
def domainOf (c : Flashcard) : Str :=
  c.domain.getD "1".toList

/-- An object whose properties hold arrays of cards: its own properties in insertion order. -/
abbrev Buckets := List (Str × List Flashcard)

/-- The own property `o[d]`, if there is one. -/
def bucketOf (o : Buckets) (d : Str) : Option (List Flashcard) :=
  match o.find? (fun e => decide (e.1 = d)) with
  | some e => some e.2
  | none => none

/-- The call `o[d].push(c)` on an own property. -/
def pushTo (o : Buckets) (d : Str) (c : Flashcard) : Buckets :=
  o.map (fun e => if e.1 = d then (e.1, e.2 ++ [c]) else e)

/-- The first loop of `stratifiedSample`: `if (!byDomain[d]) byDomain[d] = []` followed by
`byDomain[d].push(c)`; the push throws when `d` names an inherited property. -/
def groupByDomain : List Flashcard → Buckets → Except Str Buckets
  | [], o => Except.ok o
  | c :: cs, o =>
    match bucketOf o (domainOf c) with
    | some _ => groupByDomain cs (pushTo o (domainOf c) c)
    | none =>
      if domainOf c ∈ Js.objectPrototypeKeys then
        Except.error "TypeError: byDomain[d].push is not a function".toList
      else groupByDomain cs (o ++ [(domainOf c, [c])])

/-- The quota loop of `stratifiedSample`, over the domains still to visit. -/
def quotaPass (byDomain : Buckets) : List Str → List Flashcard → Rng → List Flashcard × Rng
  | [], result, g => (result, g)
  | d :: ds, result, g =>
    quotaPass byDomain ds
      (result ++ (shuffle ((bucketOf byDomain d).getD []) g).1.take
        (min (targetOf d) (shuffle ((bucketOf byDomain d).getD []) g).1.length))
      (shuffle ((bucketOf byDomain d).getD []) g).2

/-- The object literal `{ "1": [], "2": [], "3": [], "4": [], "5": [] }`. -/
def emptyByDom : Buckets :=
  [("1".toList, []), ("2".toList, []), ("3".toList, []), ("4".toList, []), ("5".toList, [])]

/-- The loop that files the cards not yet in `result` under their domain:
`if (!result.some((r) => r.id === c.id)) byDom[d].push(c)`; the push throws when `byDom` has
no own property `d`. -/
def surplusBuckets (result : List Flashcard) : List Flashcard → Buckets → Except Str Buckets
  | [], o => Except.ok o
  | c :: cs, o =>
    if result.any (fun r => decide (r.id = c.id)) then surplusBuckets result cs o
    else
      match bucketOf o (domainOf c) with
      | some _ => surplusBuckets result cs (pushTo o (domainOf c) c)
      | none => Except.error "TypeError: cannot call push on byDom[d]".toList

/-- The top-up loop of `stratifiedSample` over `fillOrder`, with the running `need`. -/
def fillLoop (byDom : Buckets) : List Str → Int → List Flashcard → Rng → List Flashcard × Rng
  | [], _, result, g => (result, g)
  | d :: ds, need, result, g =>
    if need ≤ 0 then (result, g)
    else
      fillLoop byDom ds
        (need - ((shuffle ((bucketOf byDom d).getD []) g).1.take need.toNat).length)
        (result ++ (shuffle ((bucketOf byDom d).getD []) g).1.take need.toNat)
        (shuffle ((bucketOf byDom d).getD []) g).2

/-- The function `stratifiedSample(cards, totalTarget)`, with the random stream left. -/
def stratifiedSample (cards : List Flashcard) (totalTarget : Int) (g : Rng) :
    Except Str (List Flashcard × Rng) :=
  match groupByDomain cards [] with
  | Except.error e => Except.error e
  | Except.ok byDomain =>
    let quota := quotaPass byDomain domainOrder [] g
    let need : Int := totalTarget - quota.1.length
    if need > 0 then
      match surplusBuckets quota.1 cards emptyByDom with
      | Except.error e => Except.error e
      | Except.ok byDom =>
        let filled := fillLoop byDom fillOrder need quota.1 quota.2
        Except.ok (shuffle filled.1 filled.2)
    else Except.ok (shuffle quota.1 quota.2)

/-- The number of cards of domain `d` in a list. -/
def countDomain (d : Str) (l : List Flashcard) : Nat :=
  (l.filter (fun c => decide (domainOf c = d))).length

/-- The number of cards the quota loop takes: for each domain the smaller of its target and
the size of its bucket. -/
def quotaSize (cards : List Flashcard) : Nat :=
  (domainOrder.map (fun d => min (targetOf d) (countDomain d cards))).sum

/-- The list of `n` cards of domain "1" with pairwise distinct ids. -/
def domainOneCards : Nat → List Flashcard
  | 0 => []
  | n + 1 =>
    { id := List.replicate (n + 1) 'x'
      question := "What is integrity?".toList
      answer := List.replicate (n + 1) 'y'
      tags := []
      source := "messer-practice-exams".toList
      domain := some "1".toList
      sectionName := none } :: domainOneCards n

/-- An old-schema corpus with one named domain, one section and one bullet. -/
def threatsCorpus : RawData :=
  { domains :=
      [{ name := some "Threats".toList
         sections :=
           [{ name := some "Malware".toList
              bullets := ["Ransomware encrypts files until a ransom is paid".toList] }] }] }

end Flashcards

/-! ## `scripts/generateConceptDictionary.mjs` -/

namespace Concepts

/-- The length of the match of `\s*\([^)]*\)\s*` at the start of the input. -/
def parenMatchLength (s : Str) : Option Nat :=
  match s.dropWhile Js.isSpace with
  | c :: r =>
    if c = '(' ∧ ')' ∈ r then
      some ((s.takeWhile Js.isSpace).length + 1 + (r.takeWhile (fun x => x ≠ ')')).length + 1 +
        (((r.dropWhile (fun x => x ≠ ')')).drop 1).takeWhile Js.isSpace).length)
    else none
  | [] => none

/-- The call `s.replace(/^-|-$/g, '')`: one leading and one trailing hyphen go. -/
def dropEndHyphens (s : Str) : Str :=
  let t := match s with
    | c :: r => if c = '-' then r else s
    | [] => s
  match t.reverse with
  | c :: r => if c = '-' then r.reverse else t
  | [] => t

/-- The function `toKebab(str)`. -/
def toKebab (str : Str) : Str :=
  dropEndHyphens
    (Js.replaceRuns (fun c => c = '-') ['-']
      (Js.toLowerCase
        (Js.replaceSpaces ['-']
          (Js.trim
            ((Js.replaceMatches (fun _ s => parenMatchLength s) [' '] none 0 str).filter
              (fun c => Js.isWordChar c || Js.isSpace c || c = '-'))))))

/-- The list `acronyms` of `toTitleCase`. -/
def acronyms : List String :=
  ["IoT", "XSS", "SQL", "DNS", "IP", "VPN", "API", "MFA", "PKI", "AAA", "CIA", "NIST", "SCAP",
   "TOCTOU", "TPM", "DLP", "FIM", "IAM", "NGFW", "NAT", "SAST", "BIA", "AD", "SLA", "IOC"]

/-- The word `w.charAt(0).toUpperCase() + w.slice(1).toLowerCase()`. -/
def capitalize (w : Str) : Str :=
  match w with
  | [] => []
  | c :: cs => c.toUpper :: Js.toLowerCase cs

/-- The length of the match of `\bAC\b` (flag `i`) at the current position. -/
def acronymMatchLength (ac : String) (prev : Option Char) (s : Str) : Option Nat :=
  if Js.wordBoundary prev s && Js.matchAlt (Js.lits ac) prev s then some ac.toList.length
  else none

/-- The function `toTitleCase(str)`. -/
def toTitleCase (str : Str) : Str :=
  acronyms.foldl
    (fun result ac => Js.replaceMatches (acronymMatchLength ac) ac.toList none 0 result)
    (List.intercalate [' '] ((Js.splitSpaces str).map capitalize))

/-- The value of a lookup `CURATED_DEFINITIONS[key]`: a text of the table, or, for a key that
only `Object.prototype` knows, the inherited object. -/
inductive Definition where
  | text (s : Str)
  | inherited (key : Str)
  deriving DecidableEq, Repr

/-- The table `CURATED_DEFINITIONS`, in source order. -/
def CURATED_DEFINITIONS : List (Str × Str) :=
  [
    ("confidentiality".toList,
      "Confidentiality is the principle of preventing disclosure of information to unauthorized individuals or systems.".toList),
    ("integrity".toList,
      "Integrity ensures that data and messages cannot be modified without detection.".toList),
    ("availability".toList,
      "Availability ensures that systems and networks remain operational when needed.".toList),
    ("cia triad".toList,
      "The CIA triad comprises the three fundamental principles of security: Confidentiality, Integrity, and Availability.".toList),
    ("the-cia-triad".toList,
      "The CIA triad comprises the three fundamental principles of security: Confidentiality, Integrity, and Availability.".toList),
    ("non-repudiation".toList,
      "Non-repudiation is the assurance that a party cannot deny having sent or received a message or performed an action.".toList),
    ("aaa".toList,
      "AAA (Authentication, Authorization, and Accounting) is the framework for controlling access to network resources.".toList),
    ("authentication".toList,
      "Authentication is the process of verifying the identity of a user or system.".toList),
    ("authorization".toList,
      "Authorization determines what an authenticated user or system is permitted to do.".toList),
    ("accounting".toList,
      "Accounting involves tracking and logging user activities for audit and compliance purposes.".toList),
    ("zero trust".toList,
      "Zero trust is a security model that assumes no implicit trust; every device, process, and person must be verified regardless of network location.".toList),
    ("security controls".toList,
      "Security controls are safeguards or countermeasures designed to prevent, detect, or mitigate security risks to assets.".toList),
    ("technical controls".toList,
      "Technical controls are security measures implemented through hardware or software, such as firewalls, antivirus, and operating system settings.".toList),
    ("gap analysis".toList,
      "Gap analysis is an assessment that compares an organization's current security posture with its desired state to identify gaps requiring remediation.".toList),
    ("honeypot".toList,
      "A honeypot is a decoy system designed to attract and detect attackers.".toList),
    ("honeypots".toList,
      "Honeypots are decoy systems designed to attract and detect attackers.".toList),
    ("honeynet".toList,
      "A honeynet is a network of honeypots that mimics a real network to observe attacker behavior.".toList),
    ("out-of-band key exchange".toList,
      "Out-of-band key exchange involves exchanging encryption keys through a channel separate from the primary data channel, such as telephone, courier, or in-person.".toList),
    ("in-band key exchange".toList,
      "In-band key exchange involves exchanging encryption keys over the same network as the data, protected by additional encryption.".toList),
    ("tpm".toList,
      "A Trusted Platform Module (TPM) is hardware that provides secure cryptographic functions including key storage and attestation.".toList),
    ("pki".toList,
      "Public Key Infrastructure (PKI) is the framework of policies and technologies for managing digital certificates and public-key encryption.".toList),
    ("attack vector".toList,
      "An attack vector is a path or method used by an attacker to gain access to or infect a target system.".toList),
    ("phishing".toList,
      "Phishing is a social engineering attack delivered by email or text that uses spoofing to trick users into revealing credentials or installing malware.".toList),
    ("business email compromise".toList,
      "Business email compromise is an attack that exploits trust in email by spoofing sender addresses to initiate unauthorized transfers or disclose information.".toList),
    ("watering hole attack".toList,
      "A watering hole attack is when adversaries compromise a website frequented by a target group to infect visitors with malware.".toList),
    ("memory injection".toList,
      "Memory injection is a technique where malware injects code into the memory space of a legitimate process to evade detection.".toList),
    ("buffer overflow".toList,
      "A buffer overflow is a vulnerability where excess data overwrites adjacent memory, potentially allowing arbitrary code execution.".toList),
    ("race condition".toList,
      "A race condition occurs when concurrent operations produce unintended results based on unpredictable ordering.".toList),
    ("toctou".toList,
      "Time-of-check to time-of-use (TOCTOU) is an attack that exploits the delay between validating a resource and using it.".toList),
    ("sql injection".toList,
      "SQL injection is an attack that inserts malicious SQL statements into application input to manipulate or access a database.".toList),
    ("cross-site scripting".toList,
      "Cross-site scripting (XSS) is a web vulnerability where an attacker injects client-side scripts into pages viewed by other users.".toList),
    ("xss".toList,
      "Cross-site scripting (XSS) is a web vulnerability where an attacker injects malicious scripts into web pages viewed by other users.".toList),
    ("zero-day vulnerability".toList,
      "A zero-day vulnerability is a security flaw unknown to the vendor that attackers may exploit before a fix exists.".toList),
    ("virus".toList,
      "A virus is malware that reproduces by infecting files or propagating over a network, typically requiring user action to execute.".toList),
    ("worm".toList,
      "A worm is self-replicating malware that spreads across networks without user action.".toList),
    ("spyware".toList,
      "Spyware is malware that monitors user activity such as keystrokes and browsing for theft or fraud.".toList),
    ("ransomware".toList,
      "Ransomware is malware that encrypts or blocks access to data until a ransom is paid.".toList),
    ("keylogger".toList,
      "A keylogger is malware or hardware that captures keystrokes and sends them to an attacker.".toList),
    ("denial of service".toList,
      "Denial of service is an attack intended to make a system or resource unavailable to legitimate users.".toList),
    ("dns poisoning".toList,
      "DNS poisoning is an attack that corrupts DNS data to redirect users to malicious sites.".toList),
    ("domain hijacking".toList,
      "Domain hijacking is unauthorized access to domain registration that allows an attacker to control where traffic is directed.".toList),
    ("on-path attack".toList,
      "An on-path attack occurs when an attacker intercepts or redirects traffic between two parties (formerly known as man-in-the-middle).".toList),
    ("arp poisoning".toList,
      "ARP poisoning is an on-path attack on a local network that corrupts ARP tables to redirect traffic.".toList),
    ("replay attack".toList,
      "A replay attack captures valid network traffic and retransmits it to gain unauthorized access.".toList),
    ("brute force".toList,
      "Brute force is an attack that tries many possible credentials or keys until the correct one is found.".toList),
    ("dictionary attack".toList,
      "A dictionary attack is a password attack that uses a list of common words or previously breached passwords.".toList),
    ("rainbow table".toList,
      "A rainbow table is a precomputed table of password hashes used to quickly reverse hashed passwords.".toList),
    ("indicators of compromise".toList,
      "Indicators of compromise (IOC) are evidence that a system has been compromised.".toList),
    ("segmentation".toList,
      "Segmentation is the practice of dividing a network into segments to limit lateral movement and contain breaches.".toList),
    ("hardening".toList,
      "Hardening is the process of reducing attack surface by disabling unnecessary services, applying patches, and configuring systems securely.".toList),
    ("patch tuesday".toList,
      "Patch Tuesday is Microsoft's monthly release of security updates, typically on the second Tuesday of each month.".toList),
    ("vulnerability scanning".toList,
      "Vulnerability scanning is an automated assessment that identifies weaknesses without attempting exploitation.".toList),
    ("penetration testing".toList,
      "Penetration testing is a simulated attack that actively exploits vulnerabilities to assess security posture.".toList),
    ("rules of engagement".toList,
      "Rules of engagement are a document defining scope, methods, and constraints for a penetration test.".toList),
    ("input validation".toList,
      "Input validation is the practice of checking and sanitizing user input to prevent injection and malformed data from causing vulnerabilities.".toList),
    ("scap".toList,
      "Security Content Automation Protocol (SCAP) is a NIST standard that enables tools to identify and act on shared security and vulnerability criteria.".toList),
    ("sast".toList,
      "Static Application Security Testing (SAST) analyzes source code for vulnerabilities without executing the application.".toList),
    ("firewall".toList,
      "A firewall is a network device that filters traffic by port, protocol, or application to enforce security policy.".toList),
    ("ngfw".toList,
      "A next-generation firewall (NGFW) operates at Layer 7 with application awareness, intrusion prevention, and advanced filtering.".toList),
    ("nat".toList,
      "Network Address Translation (NAT) maps internal IP addresses to external addresses and can hide internal network topology.".toList),
    ("dlp".toList,
      "Data Loss Prevention (DLP) is technology that identifies, monitors, and blocks sensitive data from leaving the organization.".toList),
    ("content filtering".toList,
      "Content filtering controls access to data based on content type, URL, or category such as web or email filtering.".toList),
    ("active directory".toList,
      "Active Directory is a Microsoft directory service that centralizes authentication, authorization, and resource management for Windows networks.".toList),
    ("group policy".toList,
      "Group Policy is a Windows mechanism to centrally configure and enforce settings for users and computers.".toList),
    ("fim".toList,
      "File Integrity Monitoring (FIM) detects unauthorized changes to critical operating system and application files.".toList),
    ("iam".toList,
      "Identity and Access Management (IAM) ensures the right users have appropriate access to resources at the right time.".toList),
    ("password entropy".toList,
      "Password entropy is a measure of unpredictability in a password, increased by length and character variety.".toList),
    ("tabletop exercise".toList,
      "A tabletop exercise is a discussion-based exercise where stakeholders walk through response scenarios without executing systems.".toList),
    ("risk appetite".toList,
      "Risk appetite is the level of risk an organization is willing to accept in pursuit of its objectives.".toList),
    ("business impact analysis".toList,
      "A business impact analysis assesses the potential effects of disruption to critical business functions.".toList),
    ("mfa".toList,
      "Multi-factor authentication (MFA) requires two or more verification methods from different categories (something you know, have, or are).".toList),
    ("resiliency".toList,
      "Resiliency is the ability of a system to maintain or rapidly recover functionality after disruption.".toList),
    ("redundancy".toList,
      "Redundancy is the duplication of critical components to ensure availability if one fails.".toList),
    ("saas".toList,
      "Software as a Service (SaaS) is a cloud model where applications are hosted and delivered over the internet.".toList),
    ("paas".toList,
      "Platform as a Service (PaaS) is a cloud model that provides a development environment without managing underlying infrastructure.".toList),
    ("iaas".toList,
      "Infrastructure as a Service (IaaS) is a cloud model that provides virtualized compute, storage, and networking.".toList),
    ("jump server".toList,
      "A jump server is a hardened host that provides controlled access to a secure network zone.".toList),
    ("vpn".toList,
      "A Virtual Private Network (VPN) creates an encrypted tunnel over a public network for secure remote access.".toList),
    ("data at rest".toList,
      "Data at rest is data stored on media such as disk or backup, requiring protection such as encryption.".toList),
    ("data in transit".toList,
      "Data in transit is data moving across a network, requiring protection such as TLS encryption.".toList),
    ("data in use".toList,
      "Data in use is data being actively processed in memory by an application.".toList),
    ("firmware".toList,
      "Firmware is software embedded in hardware that controls device operation and can be a vulnerability vector if not updated.".toList),
    ("supply chain attack".toList,
      "A supply chain attack compromises a product by attacking vendors, updates, or the distribution channel.".toList),
    ("rooting".toList,
      "Rooting is the Android equivalent of jailbreaking; removing manufacturer restrictions to gain root access and creating security risks.".toList),
    ("jailbreaking".toList,
      "Jailbreaking is bypassing iOS restrictions to install unauthorized software, which creates security risks.".toList),
    ("physical security".toList,
      "Physical security comprises measures to protect facilities, assets, and personnel from physical threats.".toList),
    ("change management".toList,
      "Change management is the process for controlling and documenting changes to systems and infrastructure.".toList),
    ("obfuscation".toList,
      "Obfuscation is the practice of making code or data difficult to understand to hinder reverse engineering.".toList),
    ("digital signature".toList,
      "A digital signature provides cryptographic proof of authenticity and integrity for digital data.".toList),
    ("hashing".toList,
      "Hashing is a one-way function that produces a fixed-length digest from input data.".toList),
    ("blockchain".toList,
      "Blockchain is a distributed ledger technology that uses cryptographic chaining of blocks.".toList),
    ("certificate".toList,
      "A digital certificate is a document that binds a public key to an identity.".toList),
    ("impersonation".toList,
      "Impersonation is pretending to be someone else to gain unauthorized access.".toList),
    ("privilege escalation".toList,
      "Privilege escalation is the process of gaining higher access rights than originally intended.".toList),
    ("key-exchange".toList,
      "Key exchange is the process of securely sharing encryption keys across an insecure medium, using out-of-band or in-band methods.".toList),
    ("cloud-based security".toList,
      "Cloud-based security refers to security controls and services delivered from the cloud, often centralized and managed by the provider.".toList),
    ("cloud based security".toList,
      "Cloud-based security refers to security controls and services delivered from the cloud, often centralized and managed by the provider.".toList),
    ("sla".toList,
      "A Service Level Agreement (SLA) defines guaranteed uptime, performance, and support terms between a provider and customer.".toList),
    ("hardening guides".toList,
      "Hardening guides are documentation that specify secure configuration steps for specific software or platforms.".toList),
    ("hardening checklists".toList,
      "Hardening checklists are manufacturer-provided lists of configuration steps to secure a system.".toList) ]

/-- The lookup `CURATED_DEFINITIONS[key]`, `none` for `undefined`. -/
def curatedAt (key : Str) : Option Definition :=
  match CURATED_DEFINITIONS.find? (fun e => decide (e.1 = key)) with
  | some e => some (Definition.text e.2)
  | none => if key ∈ Js.objectPrototypeKeys then some (Definition.inherited key) else none

/-- The function `getCurated(termKey)`; every text of the table is non-empty, so a lookup
that finds something is truthy. -/
def getCurated (termKey : Str) : Option Definition :=
  match curatedAt (termKey.map (fun c => if c = '-' then ' ' else c)) with
  | some d => some d
  | none => curatedAt termKey

/-- The function `mustSkip(text)`. -/
def mustSkip (text : Str) : Bool :=
  let t := Js.trim text
  if t = [] ∨ t.length < 30 then true
  else if Js.startsWithWordCI
      ["example", "examples", "types", "overview", "continued", "and much more"] t then true
  else if Js.startsWithWordCI ["this may", "there's a", "get ready", "time to"] t then true
  else if t.getLast? = some ':' then true
  else if t.head? = some '?' then true
  else false

/-- The function `isList(text)`: the average `sum / n < 30` is `sum < 30 * n`. -/
def isList (text : Str) : Bool :=
  let parts := Js.splitCommas text
  if parts.length ≥ 3 then
    decide (((parts.map (fun p => (Js.trim p).length)).sum) < 30 * parts.length)
  else false

/-- The alternatives of the regex of `hasVerb`. -/
def verbAlternatives : List (List Js.Atom) :=
  ["is", "are", "was", "were", "have", "has", "had", "do", "does", "did", "can", "could",
   "will", "would", "may", "might", "must", "prevent"].map Js.lits ++
  ["ensure", "protect", "allow", "denie", "provide", "require", "mean", "refer", "describe",
   "include", "cover", "applie", "implement", "manage", "determine", "validate", "identifie",
   "monitor", "block", "capture", "exchange", "bind", "mimic"].map Js.litsOptS

/-- The function `hasVerb(text)`. -/
def hasVerb (text : Str) : Bool :=
  Js.testWords verbAlternatives text

/-- The function `isFragment(text)`. -/
def isFragment (text : Str) : Bool :=
  let words := (Js.splitSpaces text).length
  (decide (words ≤ 5) && !hasVerb text) || decide (words ≤ 2)

/-- The test `/\s+[A-Z][a-z]+\s*$/.test(text)`, read from the end of the text: optional
whitespace, lowercase letters, one capital, whitespace. -/
def endsWithCapitalizedWord (text : Str) : Bool :=
  let r := text.reverse.dropWhile Js.isSpace
  match r.dropWhile Char.isLower with
  | u :: w :: _ => decide (0 < (r.takeWhile Char.isLower).length) && u.isUpper && Js.isSpace w
  | _ => false

/-- The function `isCompleteDefinition(text)`. -/
def isCompleteDefinition (text : Str) : Bool :=
  if mustSkip text then false
  else if isList text then false
  else if isFragment text then false
  else if !hasVerb text then false
  else if text.length < 40 then false
  else if Js.startsWithThenSpaceCI ["they", "we", "there"] (Js.trim text) then false
  else if endsWithCapitalizedWord text && !decide ((Js.trim text).getLast? = some '.') then false
  else true

/-- The test `/^(the|a|an)\s+\w+$/.test(t)` (case-sensitive). -/
def isArticleNoun (t : Str) : Bool :=
  ["the", "a", "an"].any (fun a =>
    match (a.toList.isPrefixOf t, t.drop a.toList.length) with
    | (true, c :: rest) =>
      Js.isSpace c && decide (rest.dropWhile Js.isSpace ≠ []) &&
        (rest.dropWhile Js.isSpace).all Js.isWordChar
    | _ => false)

/-- The test `/^the\s+(database|vulnerabilities|attackers|good|bad)\b/i.test(t)`. -/
def isTheDenied (t : Str) : Bool :=
  match Js.dropPrefixCI "the".toList t with
  | some (c :: rest) =>
    Js.isSpace c &&
      Js.startsWithWordCI ["database", "vulnerabilities", "attackers", "good", "bad"]
        (rest.dropWhile Js.isSpace)
  | _ => false

/-- The function `isValidTerm(text)`. -/
def isValidTerm (text : Str) : Bool :=
  let t := Js.trim text
  if t = [] ∨ t.length < 2 ∨ t.length > 50 then false
  else if Js.startsWithWordCI
      ["most", "some", "many", "where", "what", "how", "that", "this", "these", "those", "we",
       "they", "there", "someone", "everyone", "nothing", "no system"] t then false
  else if isArticleNoun t then false
  else if isTheDenied t then false
  else if Js.startsWithThenSpaceCI ["once"] t then false
  else if Js.startsWithThenSpaceCI ["ensure"] t then false
  else if Js.startsWithThenSpaceCI ["manages"] t then false
  else if Js.startsWithThenSpaceCI ["automatically"] t then false
  else if Js.startsWithThenSpaceCI ["no"] t then false
  else if (Js.splitSpaces t).length > 6 then false
  else if Js.startsWithThenSpaceCI ["attackers", "other", "stronger"] t then false
  else if (Js.splitSpaces t).length = 1 ∧ (t.head?.map Char.isLower) = some true then false
  else true

/-- The property `source` of a concept. -/
structure Source where
  type : Str
  confidence : Str
  deriving DecidableEq, Repr

/-- A concept of the dictionary (`section` of the source is the field `sectionNum`). -/
structure Concept where
  conceptId : Str
  term : Str
  definition : Definition
  domain : Str
  sectionNum : Str
  notes : Str
  source : Source
  deriving DecidableEq, Repr

/-- The counters `stats`. -/
structure Stats where
  totalBullets : Nat := 0
  skippedQuality : Nat := 0
  ruleA : Nat := 0
  ruleB : Nat := 0
  curated : Nat := 0
  deriving DecidableEq, Repr

/-- A section of the raw corpus. -/
structure RawSection where
  section_num : Str
  name : Str
  bullets : List Str
  deriving DecidableEq, Repr

/-- A domain of the raw corpus; `domain_num` is the text that the template literal prints for
the property `domain_num`. -/
structure RawDomain where
  domain_num : Str
  sections : List RawSection
  deriving DecidableEq, Repr

/-- The raw corpus `{ domains: [...] }`. -/
structure RawCorpus where
  domains : List RawDomain
  deriving DecidableEq, Repr

/-- The length of the match of `\s*\(continued\)\s*` (flag `i`) at the start of the input. -/
def continuedMatchLength (s : Str) : Option Nat :=
  match Js.dropPrefixCI "(continued)".toList (s.dropWhile Js.isSpace) with
  | some rest =>
    some ((s.takeWhile Js.isSpace).length + 11 + (rest.takeWhile Js.isSpace).length)
  | none => none

/-- The expression `section.name.replace(/\s*\(continued\)\s*/gi, '').trim()`. -/
def cleanSectionName (name : Str) : Str :=
  Js.trim (Js.replaceMatches (fun _ s => continuedMatchLength s) [] none 0 name)

/-- The class `[-–—]`. -/
def isDash (c : Char) : Bool :=
  c = '-' || c.toNat = 0x2013 || c.toNat = 0x2014

/-- The rest of the input matches `\s+[-–—]\s+(.+)$` (flag `s`); returns what follows the
dash, whose `trim` is the `trim` of group 2. -/
def dashTail (rest : Str) : Option Str :=
  match rest, rest.dropWhile Js.isSpace with
  | w :: _, d :: after =>
    if Js.isSpace w ∧ isDash d ∧ (after.head?.map Js.isSpace) = some true ∧ 2 ≤ after.length
    then some after else none
  | _, _ => none

/-- The match of `/^(.+?)\s+[-–—]\s+(.+)$/s`: the shortest non-empty group 1 after which the
rest matches, with what follows the dash. -/
def dashMatch : Str → Option (Str × Str)
  | [] => none
  | c :: cs =>
    match dashTail cs with
    | some after => some ([c], after)
    | none => (dashMatch cs).map (fun r => (c :: r.1, r.2))

/-- The input matches `\s+(.+)$` without flag `s`; returns a string whose `trim` is the
`trim` of the group. -/
def copulaGroup (x : Str) : Option Str :=
  match x with
  | w :: rest =>
    if Js.isSpace w then
      if rest.dropWhile Js.isSpace ≠ [] then
        if (rest.dropWhile Js.isSpace).all (fun c => !Js.isLineTerminator c) then
          some (rest.dropWhile Js.isSpace)
        else none
      else
        match rest.getLast? with
        | some l => if Js.isLineTerminator l then none else some [l]
        | none => none
    else none
  | [] => none

/-- The rest of the input matches `\s+(?:is|are)\s+(.+)$` (flag `i`). -/
def copulaTail (rest : Str) : Option Str :=
  match rest with
  | w :: _ =>
    if Js.isSpace w then
      match Js.dropPrefixCI "is".toList (rest.dropWhile Js.isSpace) with
      | some x => copulaGroup x
      | none =>
        match Js.dropPrefixCI "are".toList (rest.dropWhile Js.isSpace) with
        | some x => copulaGroup x
        | none => none
    else none
  | [] => none

/-- The match of `/^(.+?)\s+(?:is|are)\s+(.+)$/i`: the shortest non-empty group 1, free of
line terminators, after which the rest matches. -/
def copulaMatch : Str → Option (Str × Str)
  | [] => none
  | c :: cs =>
    if Js.isLineTerminator c then none
    else
      match copulaTail cs with
      | some grp => some ([c], grp)
      | none => (copulaMatch cs).map (fun r => (c :: r.1, r.2))

/-- Some code unit of class `p` is directly followed by one of class `q`. -/
def hasAdjacent (p q : Char → Bool) : Str → Bool
  | a :: b :: rest => (p a && q b) || hasAdjacent p q (b :: rest)
  | _ => false

/-- Some capital is followed by two or more lowercase letters and then a capital. -/
def hasCapitalLowerRunCapital : Str → Bool
  | [] => false
  | a :: rest =>
    (a.isUpper && decide (2 ≤ (rest.takeWhile Char.isLower).length) &&
      ((rest.dropWhile Char.isLower).head?.map Char.isUpper == some true)) ||
    hasCapitalLowerRunCapital rest

/-- The test `/[a-z][A-Z]|[A-Z][a-z]{2,}[A-Z]/.test(t)`. -/
def hasCaseNoise (t : Str) : Bool :=
  hasAdjacent Char.isLower Char.isUpper t || hasCapitalLowerRunCapital t

/-- What one bullet yields: nothing (counted in `skippedQuality`), or a candidate concept of
rule A (dash form) or rule B (copula form). -/
inductive Extraction where
  | skipped
  | ruleA (c : Concept)
  | ruleB (c : Concept)
  deriving DecidableEq, Repr

/-- The value of `definition` for an extracted text and the curated lookup (`curated || text`). -/
def definitionOr (curated : Option Definition) (text : Str) : Definition :=
  match curated with
  | some d => d
  | none => Definition.text text

/-- The body of the loop over the bullets up to the insertion into `byTermKey`. -/
def extractBullet (domainDisplay sectionNum : Str) (bullet : Str) : Extraction :=
  let t := Js.trim bullet
  if t = [] ∨ t.length < 30 then Extraction.skipped
  else
    match dashMatch t with
    | some (g1, g2) =>
      if !isValidTerm (Js.trim g1) || !isCompleteDefinition (Js.trim g2) then Extraction.skipped
      else
        Extraction.ruleA
          { conceptId := toKebab (Js.trim g1)
            term := toTitleCase (Js.trim g1)
            definition := definitionOr (getCurated (toKebab (Js.trim g1))) (Js.trim g2)
            domain := domainDisplay
            sectionNum := sectionNum
            notes := []
            source := { type := "pdf".toList, confidence := "high".toList } }
    | none =>
      match copulaMatch t with
      | some (g1, g2) =>
        if (Js.trim g2).length < 25 then Extraction.skipped
        else if Js.startsWithAnyCI ["cascading", "something else"] (Js.trim g2) then
          Extraction.skipped
        else if !isValidTerm (Js.trim g1) then Extraction.skipped
        else if hasCaseNoise t then Extraction.skipped
        else if !isCompleteDefinition t then Extraction.skipped
        else
          Extraction.ruleB
            { conceptId := toKebab (Js.trim g1)
              term := toTitleCase (Js.trim g1)
              definition := definitionOr (getCurated (toKebab (Js.trim g1))) t
              domain := domainDisplay
              sectionNum := sectionNum
              notes := []
              source :=
                { type := "pdf".toList
                  confidence :=
                    if (getCurated (toKebab (Js.trim g1))).isSome then "high".toList
                    else if t.length > 60 then "high".toList else "medium".toList } }
      | none => Extraction.skipped

/-- The concept that a section title yields when its slug is non-empty and has a curated
definition. -/
def sectionConcept (domainDisplay : Str) (s : RawSection) : Option Concept :=
  if toKebab (cleanSectionName s.name) = [] then none
  else
    match getCurated (toKebab (cleanSectionName s.name)) with
    | some curated =>
      some { conceptId := toKebab (cleanSectionName s.name)
             term := toTitleCase (cleanSectionName s.name)
             definition := curated
             domain := domainDisplay
             sectionNum := s.section_num
             notes := []
             source := { type := "pdf".toList, confidence := "high".toList } }
    | none => none

/-- The map `byTermKey` (its values in insertion order) and the counters. -/
structure State where
  byTermKey : List Concept := []
  stats : Stats := {}
  deriving DecidableEq, Repr

/-- The test `byTermKey.has(key)`. -/
def hasKey (st : State) (key : Str) : Bool :=
  st.byTermKey.any (fun c => decide (c.conceptId = key))

/-- The body of the loop over the bullets: `stats.totalBullets++`, the extraction, and
`byTermKey.set` when the key is non-empty and new. -/
def stepBullet (domainDisplay sectionNum : Str) (st : State) (bullet : Str) : State :=
  let st1 : State := { st with stats := { st.stats with totalBullets := st.stats.totalBullets + 1 } }
  match extractBullet domainDisplay sectionNum bullet with
  | Extraction.skipped =>
    { st1 with stats := { st1.stats with skippedQuality := st1.stats.skippedQuality + 1 } }
  | Extraction.ruleA c =>
    if c.conceptId ≠ [] ∧ hasKey st1 c.conceptId = false then
      { byTermKey := st1.byTermKey ++ [c]
        stats := { st1.stats with ruleA := st1.stats.ruleA + 1 } }
    else st1
  | Extraction.ruleB c =>
    if c.conceptId ≠ [] ∧ hasKey st1 c.conceptId = false then
      { byTermKey := st1.byTermKey ++ [c]
        stats := { st1.stats with ruleB := st1.stats.ruleB + 1 } }
    else st1

/-- The body of the loop over the sections. -/
def stepSection (domainDisplay : Str) (st : State) (s : RawSection) : State :=
  let st1 : State :=
    match sectionConcept domainDisplay s with
    | some c =>
      if hasKey st c.conceptId = false then
        { byTermKey := st.byTermKey ++ [c]
          stats := { st.stats with curated := st.stats.curated + 1 } }
      else st
    | none => st
  s.bullets.foldl (stepBullet domainDisplay s.section_num) st1

/-- The body of the loop over the domains. -/
def stepDomain (st : State) (d : RawDomain) : State :=
  d.sections.foldl (stepSection (d.domain_num ++ ".0".toList)) st

/-- The comparator of `concepts.sort`, as the relation "the comparator does not return a
positive number"; `localeCompare` is the host's string comparison. -/
def conceptLe (localeCompare : Str → Str → Int) (a b : Concept) : Prop :=
  if localeCompare a.domain b.domain ≠ 0 then localeCompare a.domain b.domain ≤ 0
  else localeCompare a.sectionNum b.sectionNum ≤ 0

instance (localeCompare : Str → Str → Int) : DecidableRel (conceptLe localeCompare) :=
  fun a b => by unfold conceptLe; exact inferInstance

/-- The function `buildConceptDictionary(data)`: the concepts after the stable sort, and the
counters. -/
def buildConceptDictionary (localeCompare : Str → Str → Int) (data : RawCorpus) :
    List Concept × Stats :=
  let st := data.domains.foldl stepDomain {}
  (List.insertionSort (conceptLe localeCompare) st.byTermKey, st.stats)

/-- The candidate concept of a bullet: what rule A or rule B extracts from it, if its key is
non-empty. -/
def bulletCandidate (domainDisplay sectionNum : Str) (bullet : Str) : Option Concept :=
  match extractBullet domainDisplay sectionNum bullet with
  | Extraction.skipped => none
  | Extraction.ruleA c => if c.conceptId ≠ [] then some c else none
  | Extraction.ruleB c => if c.conceptId ≠ [] then some c else none

/-- The candidates of one section in corpus order: the concept of its title, then the
candidates of its bullets. -/
def sectionCandidates (domainDisplay : Str) (s : RawSection) : List Concept :=
  (sectionConcept domainDisplay s).toList ++
    s.bullets.filterMap (bulletCandidate domainDisplay s.section_num)

/-- All the candidates of a corpus, in corpus order. -/
def candidates (data : RawCorpus) : List Concept :=
  data.domains.flatMap (fun d =>
    d.sections.flatMap (sectionCandidates (d.domain_num ++ ".0".toList)))

/-- Code-point order of two strings (negative, zero or positive), a stand-in for
`localeCompare` on the digits and dots of domain and section numbers. -/
def compareCodeUnits : Str → Str → Int
  | [], [] => 0
  | [], _ :: _ => -1
  | _ :: _, [] => 1
  | a :: as, b :: bs =>
    if a.toNat < b.toNat then -1
    else if b.toNat < a.toNat then 1
    else compareCodeUnits as bs

/-- A corpus in which a later bullet claims the id of an earlier one. -/
def sampleCorpus : RawCorpus :=
  { domains :=
      [{ domain_num := "1".toList
         sections :=
           [{ section_num := "1.2".toList
              name := "Security Basics".toList
              bullets :=
                [ "Air gap - a network that is physically isolated from every other network.".toList,
                  "Example overview of threats".toList ] },
            { section_num := "1.1".toList
              name := "Isolation (continued)".toList
              bullets :=
                [ "Air gap - a control that has no connection to untrusted networks at all.".toList,
                  "A sandbox is an isolated environment that runs untrusted code safely.".toList ] }] }] }

end Concepts

/-! ## `scripts/generateFlashcards.mjs`: domain inference and the array schema -/

namespace Flashcards

/-- The table `DOMAIN_KEYWORDS` of the flashcard generator: each domain with the
alternatives of its regex `/\b(...)\b/i`, in table order. -/
def DOMAIN_KEYWORDS : List (Str × List (List Js.Atom)) :=
  [ ("2".toList,
      ["phishing", "ransomware", "malware", "trojan", "worm", "virus", "reconnaissance",
       "vulnerability", "exploit", "social engineering", "on-path", "man-in-the-middle",
       "SQL injection", "XSS", "CSRF", "threat actor", "organized crime", "nation-state",
       "brute force", "DDoS", "keylogger", "honeypot", "watering hole", "OSINT",
       "penetration test", "default credentials", "buffer overflow", "replay attack",
       "DNS poisoning", "smishing", "hacktivist"].map Js.lits ++
      [Js.lits "side" ++ [Js.Atom.anyOpt] ++ Js.lits "loading"] ++
      ["jailbreak", "misinformation", "resource consumption", "rogue access", "collision",
       "enumeration", "insecure protocols", "misconfiguration", "open permissions",
       "partially known", "exfiltration", "embedded system", "escape", "end-of-life",
       "spoofing", "credential stuffing", "privilege escalation", "backdoor", "rootkit",
       "spyware", "adware", "botnet", "attack", "attacker", "blocked", "intercept",
       "impersonation", "circumvent", "malicious", "inject", "script"].map Js.lits),
    ("3".toList,
      ["DMARC", "SPF", "DKIM", "firewall", "network security", "identity", "authentication",
       "federation", "LDAP", "RADIUS", "Kerberos", "MFA", "SSO", "SAML", "VPN", "NAT",
       "segmentation", "VLAN", "SASE", "802.1X", "IPsec", "WPA3", "WAF", "load balancer",
       "jump server", "containerization", "blockchain", "digital signature", "OCSP", "HSM",
       "secure enclave", "TPM", "wireless", "biometric", "AAA", "something you know",
       "something you have", "air gap", "fail open", "HTTPS", "COPE", "BYOD", "smart card",
       "development lifecycle", "posture assessment"].map Js.lits ++
      [Js.lits "record" ++ [Js.Atom.anyOpt] ++ Js.lits "level"] ++
      ["journaling", "traffic flow", "port number", "protected segment", "access point"].map Js.lits),
    ("4".toList,
      ["incident response", "forensics", "SIEM", "SOAR", "monitoring", "recovery", "backup",
       "root cause", "MTBF", "MTTR", "RTO", "RPO", "BIA", "IOC", "containment", "escalation",
       "tabletop exercise", "chain of custody", "alert tuning", "NetFlow", "hardening",
       "patch", "remediation", "onboarding", "offboarding", "MDM", "antivirus", "quarantine",
       "HIPS", "file integrity", "FIM", "DLP", "backout plan", "disconnect", "disabling",
       "account", "false negative", "disaster recovery", "outage", "breach",
       "configuration enforcement", "availability", "system availability", "emergency",
       "dispatching", "continuity"].map Js.lits ++
      [Js.lits "alternative" ++ [Js.Atom.anyStar] ++ Js.lits "process"] ++
      ["log entries", "detect", "validation", "patching", "vulnerability scan"].map Js.lits),
    ("5".toList,
      ["policy", "compliance", "governance", "audit", "regulation", "risk management", "MOA",
       "SLA", "NDA", "regulated", "data owner", "data custodian", "due care",
       "risk appetite", "acceptance", "self-assessment", "responsibility matrix",
       "conflict of interest", "data sovereignty", "privacy", "user training", "shadow IT",
       "SLE", "ALE", "ARO", "EF", "exposure factor", "uptime", "automation",
       "formal document", "partnership", "governmental", "disclosure"].map Js.lits),
    ("1".toList,
      ["CIA", "confidentiality", "integrity", "availability", "security controls", "asset",
       "zero trust", "physical security", "obfuscation", "hashing", "encryption",
       "symmetric", "asymmetric", "PKI", "non-repudiation", "deterrent", "detective",
       "preventive", "corrective", "compensating", "masking", "tokenization", "salting",
       "least privilege", "discretionary", "access control vestibule", "change management",
       "gap analysis", "create hash", "complexity"].map Js.lits ++
      [Js.lits "verifies" ++ [Js.Atom.anyStar] ++ Js.lits "file"] ++
      ["mitigate", "race condition", "removable media", "trustworthiness"].map Js.lits) ]

/-- The test `String(domain).match(/^[1-5]$/)` on the text of a domain. -/
def isDomainDigit (d : Str) : Bool :=
  match d with
  | [c] => decide ('1' ≤ c ∧ c ≤ '5')
  | _ => false

/-- The object `{ question, answer, domain }` that `inferDomain` reads; `domain` is the text
`String(card.domain)` of a property that is present. -/
structure CardObj where
  question : Option Str := none
  answer : Option Str := none
  domain : Option Str := none
  deriving DecidableEq, Repr

/-- The text `${card.question ?? ""} ${card.answer ?? ""}` that the keyword patterns test. -/
def inferenceText (card : CardObj) : Str :=
  card.question.getD [] ++ " ".toList ++ card.answer.getD []

/-- The loop of `inferDomain` over `DOMAIN_KEYWORDS` and its default `"1"`. -/
def inferFromKeywords (text : Str) : Str :=
  match DOMAIN_KEYWORDS.find? (fun e => Js.testWords e.2 text) with
  | some e => e.1
  | none => "1".toList

/-- The function `inferDomain(card)` of the flashcard generator. -/
def inferDomain (card : CardObj) : Str :=
  match card.domain with
  | some d => if isDomainDigit d then d else inferFromKeywords (inferenceText card)
  | none => inferFromKeywords (inferenceText card)

/-- A record of the array schema (absent and `null` properties are `none`, present ones are
given by their text); `sectionName` is its property `section`. -/
structure RawCard where
  front : Option Str := none
  back : Option Str := none
  tags : Option (List Str) := none
  id : Option Str := none
  source : Option Str := none
  domain : Option Str := none
  sectionName : Option Str := none
  deriving DecidableEq, Repr

/-- The card that the loop of `fromCardArray` pushes for one record, `none` when the record
is skipped for an empty front or back; `sha1` is the hex digest function of `node:crypto`. -/
def cardOfRecord (sha1 : Str → Str) (c : RawCard) : Option Flashcard :=
  if normalizeWhitespace (c.front.getD []) = [] ∨ normalizeWhitespace (c.back.getD []) = [] then
    none
  else
    some
      { id :=
          match c.id with
          | some i =>
            if i ≠ [] then i
            else "messer-".toList ++
              (sha1 (normalizeWhitespace (c.front.getD []) ++ "||".toList ++
                normalizeWhitespace (c.back.getD []))).take 12
          | none => "messer-".toList ++
              (sha1 (normalizeWhitespace (c.front.getD []) ++ "||".toList ++
                normalizeWhitespace (c.back.getD []))).take 12
        question := normalizeWhitespace (c.front.getD [])
        answer := normalizeWhitespace (c.back.getD [])
        tags := ((c.tags.getD []).map normalizeWhitespace).filter (fun t => decide (t ≠ []))
        source :=
          match c.source with
          | some s => if s ≠ [] then s else "messer-practice-exams".toList
          | none => "messer-practice-exams".toList
        domain :=
          some
            (match c.domain with
              | some d =>
                if isDomainDigit d then d
                else inferDomain
                  { question := some (normalizeWhitespace (c.front.getD []))
                    answer := some (normalizeWhitespace (c.back.getD []))
                    domain := some d }
              | none =>
                inferDomain
                  { question := some (normalizeWhitespace (c.front.getD []))
                    answer := some (normalizeWhitespace (c.back.getD []))
                    domain := none })
        sectionName := c.sectionName }

/-- The function `fromCardArray(data)`; an element of the array that is not an object (it is
skipped by `if (!c || typeof c !== "object") continue`) is `none`. -/
def fromCardArray (sha1 : Str → Str) : List (Option RawCard) → List Flashcard
  | [] => []
  | none :: rest => fromCardArray sha1 rest
  | some c :: rest =>
    match cardOfRecord sha1 c with
    | some card => card :: fromCardArray sha1 rest
    | none => fromCardArray sha1 rest

/-- The priority order of the domains in the specification of the inference: 2, 3, 4, 5, 1. -/
def inferenceOrder : List Str :=
  ["2".toList, "3".toList, "4".toList, "5".toList, "1".toList]

/-- The keyword pattern that `DOMAIN_KEYWORDS` holds for a domain. -/
def keywordsOf (d : Str) : List (List Js.Atom) :=
  match DOMAIN_KEYWORDS.find? (fun e => decide (e.1 = d)) with
  | some e => e.2
  | none => []

/-- The inference as the specification words it: the first domain, in the order 2, 3, 4, 5,
1, whose keyword pattern matches the text, and "1" when none matches. -/
def firstMatchingDomain (text : Str) : Str :=
  match inferenceOrder.find? (fun d => Js.testWords (keywordsOf d) text) with
  | some d => d
  | none => "1".toList

/-- The record of scenario 3: a phishing card without a domain. -/
def phishingRecord : RawCard :=
  { front := some "What is phishing?".toList
    back := some "Phishing is a social engineering attack delivered by email.".toList }

end Flashcards

namespace Concepts

/-- The corpus of scenario 1: one section without curated entry and the single bullet
"Non-repudiation - the assurance that a party cannot deny having performed an action.". -/
def scenarioOneCorpus : RawCorpus :=
  { domains :=
      [{ domain_num := "1".toList
         sections :=
           [{ section_num := "1.1".toList
              name := "Security Basics".toList
              bullets :=
                ["Non-repudiation - the assurance that a party cannot deny having performed an action.".toList] }] }] }

/-- The corpus of scenario 1 with a definition that holds a verb of the fixed set ("is"). -/
def scenarioOneWithVerb : RawCorpus :=
  { domains :=
      [{ domain_num := "1".toList
         sections :=
           [{ section_num := "1.1".toList
              name := "Security Basics".toList
              bullets :=
                ["Non-repudiation - the assurance that a party is unable to deny having performed an action.".toList] }] }] }

/-- A corpus with one dash-form bullet of 57 characters whose slug has no curated entry. -/
def shortDashCorpus : RawCorpus :=
  { domains :=
      [{ domain_num := "1".toList
         sections :=
           [{ section_num := "1.1".toList
              name := "Security Basics".toList
              bullets := ["Air gap - a network that is isolated from other networks.".toList] }] }] }

/-- The concept that rule A extracts from the bullet of `shortDashCorpus`. -/
def airGapConcept : Concept :=
  { conceptId := "air-gap".toList
    term := "Air Gap".toList
    definition := Definition.text "a network that is isolated from other networks.".toList
    domain := "1.0".toList
    sectionNum := "1.1".toList
    notes := []
    source := { type := "pdf".toList, confidence := "high".toList } }

/-- The concept that `scenarioOneWithVerb` yields: the curated text replaces the extracted
definition. -/
def nonRepudiationConcept : Concept :=
  { conceptId := "non-repudiation".toList
    term := "Non-repudiation".toList
    definition := Definition.text
      "Non-repudiation is the assurance that a party cannot deny having sent or received a message or performed an action.".toList
    domain := "1.0".toList
    sectionNum := "1.1".toList
    notes := []
    source := { type := "pdf".toList, confidence := "high".toList } }

/-- The keys of the curated table that no slug reaches: they hold a hyphen and a blank. -/
def unreachableCuratedKeys : List Str :=
  [ "out-of-band key exchange".toList, "in-band key exchange".toList,
    "cross-site scripting".toList, "zero-day vulnerability".toList, "on-path attack".toList ]

end Concepts

/-! ## `scripts/generateQuestionsFromFlashcards.mjs`: the function `main` -/

namespace Js

/-- The expression `[...new Set(l)]`: the first occurrence of every value, in order. -/
def uniqueValues (l : List Str) : List Str :=
  dedupeLoop (fun a => a) [] l

/-- The call `l.slice(0, e)` for an integer `e`; a negative `e` counts from the end. -/
def sliceTo {α : Type} (l : List α) (e : Int) : List α :=
  if e < 0 then l.take ((l.length : Int) + e).toNat else l.take e.toNat

end Js

namespace Questions

/-- A card of the input file as `main` reads it: an absent or `null` property is `none`,
`id` is the text that the template `${card.id}` yields. -/
structure RawCard where
  id : Str
  question : Option Str := none
  front : Option Str := none
  answer : Option Str := none
  back : Option Str := none
  domain : Option Str := none
  tags : Option (List Str) := none
  deriving DecidableEq, Repr

/-- A generated short-answer item. -/
structure Short where
  id : Str
  sourceCardId : Str
  type : Str
  prompt : Str
  answer : Str
  domain : Str
  tags : List Str
  difficulty : Nat
  deriving DecidableEq, Repr

/-- The function `generateShort(card, index)`, with `none` for `null`. -/
def generateShort (card : Card) (index : Nat) : Option Short :=
  match extractTerm card.question with
  | none => none
  | some term =>
    if term = [] then none
    else
      some { id := "q-".toList ++ card.id ++ "-short".toList
             sourceCardId := card.id
             type := "short".toList
             prompt := "Define the following Security+ term: ".toList ++ term
             answer := card.answer
             domain := inferDomain card
             tags := card.tags.getD defaultTags
             difficulty := 1 + index % 3 }

/-- The part `.+\s*\??$`: a non-empty run of code units other than line terminators after
which the tail matches. -/
def dotPlusTail : Str → Bool
  | [] => false
  | c :: cs => !Js.isLineTerminator c && (matchTail cs || dotPlusTail cs)

/-- The part `\s+.+\s*\??$`. -/
def spacesDotPlusTail : Str → Bool
  | [] => false
  | c :: cs => Js.isSpace c && (dotPlusTail cs || spacesDotPlusTail cs)

/-- The test `/^What is\s+.+\s*\??$/i.test(q)` of `main`. -/
def whatIsTest (q : Str) : Bool :=
  match Js.dropPrefixCI "What is".toList q with
  | some rest => spacesDotPlusTail rest
  | none => false

/-- An element of the array `questions`. -/
inductive Question where
  | mcq (m : Mcq)
  | short (s : Short)
  deriving DecidableEq, Repr

/-- The property `type` of a question. -/
def Question.type : Question → Str
  | Question.mcq m => m.type
  | Question.short s => s.type

/-- The property `domain` of a question. -/
def Question.domain : Question → Str
  | Question.mcq m => m.domain
  | Question.short s => s.domain

/-- An object of the array `questions` together with its identity: `ref` is the number of
question objects created before it. `Array.prototype.includes` compares objects by
identity, that is by `ref`. -/
structure Obj where
  ref : Nat
  val : Question
  deriving DecidableEq, Repr

/-- The loop of `main` over `limited`, from index `i` on, with the array `questions` built
so far and the random stream. -/
def mainLoop (allAnswers : List Str) : List RawCard → Nat → List Obj → Rng → List Obj × Rng
  | [], _, questions, g => (questions, g)
  | card :: rest, i, questions, g =>
    match card.question.orElse (fun _ => card.front),
        card.answer.orElse (fun _ => card.back) with
    | some q, some a =>
      if q = [] ∨ a = [] ∨ a.length < 10 then mainLoop allAnswers rest (i + 1) questions g
      else
        let c : Card :=
          { id := card.id, question := q, answer := a, domain := card.domain, tags := card.tags }
        let withMcq := questions ++ [{ ref := questions.length
                                       val := Question.mcq (generateMcq c allAnswers i g).1 }]
        match generateShort c i with
        | some short =>
          if whatIsTest q then
            mainLoop allAnswers rest (i + 1)
              (withMcq ++ [{ ref := withMcq.length, val := Question.short short }])
              (generateMcq c allAnswers i g).2
          else mainLoop allAnswers rest (i + 1) withMcq (generateMcq c allAnswers i g).2
        | none => mainLoop allAnswers rest (i + 1) withMcq (generateMcq c allAnswers i g).2
    | _, _ => mainLoop allAnswers rest (i + 1) questions g

/-- The constant `QUESTION_TARGETS`. -/
def QUESTION_TARGETS : List (Str × Nat) :=
  [("1".toList, 35), ("2".toList, 71), ("3".toList, 38), ("4".toList, 86), ("5".toList, 65)]

/-- The domains `['1', '2', '3', '4', '5']` in the order of the quota loop. -/
def domainOrder : List Str :=
  ["1".toList, "2".toList, "3".toList, "4".toList, "5".toList]

/-- The expression `QUESTION_TARGETS[d] ?? 0`. -/
def targetOf (d : Str) : Nat :=
  match QUESTION_TARGETS.find? (fun e => decide (e.1 = d)) with
  | some e => e.2
  | none => 0

/-- The expression `String(q.domain ?? '1')`; every question has a string `domain`. -/
def domainOf (q : Obj) : Str :=
  q.val.domain

/-- The object `byDomain`: its own properties in insertion order. -/
abbrev Buckets := List (Str × List Obj)

/-- The own property `o[d]`, if there is one. -/
def bucketOf (o : Buckets) (d : Str) : Option (List Obj) :=
  match o.find? (fun e => decide (e.1 = d)) with
  | some e => some e.2
  | none => none

/-- The call `o[d].push(q)` on an own property. -/
def pushTo (o : Buckets) (d : Str) (q : Obj) : Buckets :=
  o.map (fun e => if e.1 = d then (e.1, e.2 ++ [q]) else e)

/-- The grouping loop of `main`: `if (!byDomain[d]) byDomain[d] = []` followed by
`byDomain[d].push(q)`; the push throws when `d` names an inherited property. -/
def groupByDomain : List Obj → Buckets → Except Str Buckets
  | [], o => Except.ok o
  | q :: qs, o =>
    match bucketOf o (domainOf q) with
    | some _ => groupByDomain qs (pushTo o (domainOf q) q)
    | none =>
      if domainOf q ∈ Js.objectPrototypeKeys then
        Except.error "TypeError: byDomain[d].push is not a function".toList
      else groupByDomain qs (o ++ [(domainOf q, [q])])

/-- The quota loop of `main`, over the domains still to visit. -/
def quotaPass (byDomain : Buckets) : List Str → List Obj → Rng → List Obj × Rng
  | [], sampled, g => (sampled, g)
  | d :: ds, sampled, g =>
    quotaPass byDomain ds
      (sampled ++ (shuffle ((bucketOf byDomain d).getD []) g).1.take
        (min (targetOf d) (shuffle ((bucketOf byDomain d).getD []) g).1.length))
      (shuffle ((bucketOf byDomain d).getD []) g).2

/-- The final sampling of `main` (from `const byDomain = {}` to `finalMcqs`), with the
random stream left. -/
def finalSample (mcqs : List Obj) (g : Rng) : Except Str (List Obj × Rng) :=
  match groupByDomain mcqs [] with
  | Except.error e => Except.error e
  | Except.ok byDomain =>
    let sampled := quotaPass byDomain domainOrder [] g
    let need : Int := 295 - sampled.1.length
    if need > 0 then
      let remaining := mcqs.filter (fun q => !sampled.1.any (fun s => decide (s.ref = q.ref)))
      Except.ok (shuffle (sampled.1 ++ (shuffle remaining sampled.2).1.take need.toNat)
        (shuffle remaining sampled.2).2)
    else Except.ok (shuffle sampled.1 sampled.2)

/-- The list `allAnswers` of `main`. -/
def answerCorpus (limited : List RawCard) : List Str :=
  Js.uniqueValues
    ((limited.map (fun c =>
      Js.trim (Js.replaceSpaces [' '] ((c.answer.orElse (fun _ => c.back)).getD [])))).filter
        (fun a => decide (a ≠ [])))

/-- The array `mcqs` of `main`: the generated questions of type "mcq", with the random
stream left after the generation; `max` is the value that `parseArgs` returns. -/
def generatedMcqs (cards : List RawCard) (max : Int) (g : Rng) : List Obj × Rng :=
  let limited := Js.sliceTo cards max
  let built := mainLoop (answerCorpus limited) limited 0 [] g
  (built.1.filter (fun q => decide (q.val.type = "mcq".toList)), built.2)

/-- The function `main` on the parsed cards: the list `finalMcqs` that it writes. -/
def main (cards : List RawCard) (max : Int) (g : Rng) : Except Str (List Obj × Rng) :=
  finalSample (generatedMcqs cards max g).1 (generatedMcqs cards max g).2

/-- A card with the question "What is phishing?". -/
def phishingCard : RawCard :=
  { id := "c1".toList
    question := some "What is phishing?".toList
    answer := some "A social engineering attack delivered by email.".toList }

/-- A card in the front/back form whose question is no "What is" question. -/
def hashCard : RawCard :=
  { id := "c2".toList
    front := some "Define a hash".toList
    back := some "A one-way digest of data".toList }

end Questions

/-! ## `scripts/mergeStudyData.mjs`: practice questions and the re-read output -/

namespace Js

/-- The method `indexOf` of an array of strings, with `none` for the result `-1`. -/
def indexOf (l : List Str) (x : Str) : Option Nat :=
  findIndex (fun y => decide (y = x)) l

end Js

namespace Merge

/-- The property `options` of a practice question: the values under the letters; an absent
or `null` option is `none`. -/
structure Options where
  A : Option Str := none
  B : Option Str := none
  C : Option Str := none
  D : Option Str := none
  deriving DecidableEq, Repr

/-- An entry of a `practice_questions` array; `options` is `none` when `q?.options` is absent,
`null` or no object. -/
structure RawQuestion where
  question : Option Str := none
  options : Option Options := none
  correct : Option Str := none
  explanation : Option Str := none
  deriving DecidableEq, Repr

/-- A record of `practice_questions.static.json`; `explanation` is `none` when the
expression `... || options[idx]` is `undefined`. -/
structure PracticeQuestion where
  id : Str
  question : Str
  options : List Str
  correct_index : Int
  explanation : Option Str
  domain : Str
  deriving DecidableEq, Repr

/-- The constant `order`. -/
def order : List Str :=
  ["A".toList, "B".toList, "C".toList, "D".toList]

/-- The value `opts[k]` for a letter of `order`. -/
def optionAt (opts : Options) (k : Str) : Option Str :=
  if k = "A".toList then opts.A
  else if k = "B".toList then opts.B
  else if k = "C".toList then opts.C
  else if k = "D".toList then opts.D
  else none

/-- The expression `order.map((k) => opts[k]).filter(Boolean)`: the options that are present
and not the empty string. -/
def presentOptions (opts : Options) : List Str :=
  (order.map (optionAt opts)).filterMap (fun v =>
    match v with
    | some s => if s ≠ [] then some s else none
    | none => none)

/-- The body of the loop over one `practice_questions` array, for the entry `q` at index
`i`; `none` when the entry is skipped. -/
def questionRecord (domain : Str) (i : Nat) (q : RawQuestion) : Option PracticeQuestion :=
  match q.options with
  | none => none
  | some opts =>
    let options := presentOptions opts
    if options.length < 2 then none
    else
      let correctKey := Js.toUpperCase (q.correct.getD "A".toList)
      let idx := (Js.indexOf order correctKey).getD 0
      let explanation := Js.trim (q.explanation.getD [])
      some { id := "static-".toList ++ domain ++ "-".toList ++ (Nat.repr i).toList
             question := Js.trim (q.question.getD [])
             options := options
             correct_index := min (idx : Int) ((options.length : Int) - 1)
             explanation := if explanation ≠ [] then some explanation else options[idx]?
             domain := domain }

/-- The loop `for (let i = 0; i < arr.length; i++)` from index `i` on. -/
def questionLoop (domain : Str) : Nat → List RawQuestion → List PracticeQuestion
  | _, [] => []
  | i, q :: qs =>
    match questionRecord domain i q with
    | some r => r :: questionLoop domain (i + 1) qs
    | none => questionLoop domain (i + 1) qs

/-- The loop over `Object.entries(pq)`; a value that is no array is `none`. -/
def practiceEntries : List (Str × Option (List RawQuestion)) → List PracticeQuestion
  | [] => []
  | (_, none) :: es => practiceEntries es
  | (domainName, some arr) :: es =>
    questionLoop ((domainNameToNum domainName).getD "1".toList) 0 arr ++ practiceEntries es

/-- The function `extractPracticeQuestions(data)` as a function of `data?.practice_questions`:
`none` when that value is falsy, no object or an array, else its entries in
`Object.entries` order. -/
def extractPracticeQuestions (pq : Option (List (Str × Option (List RawQuestion)))) :
    List PracticeQuestion :=
  match pq with
  | none => []
  | some entries => practiceEntries entries

/-- A practice question without option B whose correct letter is C. -/
def gappedQuestion : RawQuestion :=
  { question := some "Which control hides data?".toList
    options := some { A := some "Hashing".toList
                      C := some "Masking".toList
                      D := some "Salting".toList }
    correct := some "C".toList }

/-- A practice question with all four options whose correct letter is the lower-case c. -/
def fullQuestion : RawQuestion :=
  { question := some "Which control hides data?".toList
    options := some { A := some "Hashing".toList
                      B := some "Backup".toList
                      C := some "Masking".toList
                      D := some "Salting".toList }
    correct := some "c".toList }

/-- The card that `toCards` reads back from a record of the written output: `front`, `back`
and `tags` as written; the property `domain` of the record is not part of `Card` because
neither `toCards` nor `normalize` reads it. -/
def writtenCard (r : Merged) : Card :=
  { front := some r.front, back := some r.back, tags := some r.tags }

/-- The root that `JSON.parse` returns for the file `main` wrote: the array of the records. -/
def writtenRoot (out : List Merged) : Root :=
  Root.array (out.map writtenCard)

/-- A record without its property `domain`. -/
def withoutDomain (r : Merged) : Merged :=
  { r with domain := none }

/-- The shapes that the error message of `toCards` names: an array, an object with an array
`cards`, an object with an array `flashcards`, an object whose `flashcards` is a non-array
object. -/
def acceptedShape (data : Root) : Bool :=
  match data with
  | Root.array _ => true
  | Root.object o =>
    (match o.cards with
      | Field.array _ => true
      | _ => false) ||
    (match o.flashcards with
      | Field.array _ => true
      | Field.object _ => true
      | _ => false)
  | Root.other => false

/-- The cards of an accepted root in input order: the array itself, the array `cards`, the
array `flashcards`, or the arrays of the `flashcards` object one after the other. -/
def inputCards (data : Root) : List Card :=
  match data with
  | Root.array cards => cards
  | Root.object o =>
    match o.cards with
    | Field.array cards => cards
    | _ =>
      match o.flashcards with
      | Field.array cards => cards
      | Field.object entries => (entries.filterMap (fun e => e.2)).flatten
      | _ => []
  | Root.other => []

/-- An existing corpus in the shape of a map of domain names, with one card. -/
def domainMapAB : Root :=
  Root.object
    { flashcards := Field.object
        [("Domain 1".toList, some [{ front := some "A".toList, back := some "B".toList }])] }

/-- The record that the merge writes for the card of `domainMapAB`. -/
def taggedAB : Merged :=
  { front := "A".toList
    back := "B".toList
    tags := ["security-plus".toList, "sy0-701".toList, "domain-1".toList]
    domain := some "1".toList }

/-- An empty new batch. -/
def emptyBatch : Root :=
  Root.array []

end Merge

/-! ## Sample inputs for the bullet answers and the two keyword tables -/

namespace Flashcards

/-- An old-schema corpus whose bullet has a leading blank, a double blank and a trailing
blank. -/
def spacedCorpus : RawData :=
  { domains :=
      [{ name := some "Threats".toList
         sections :=
           [{ name := some "Malware".toList
              bullets := [" Ransomware  encrypts files until a ransom is paid ".toList] }] }] }

/-- A card about botnets, as the flashcard generator's `inferDomain` reads it. -/
def botnetCardObj : CardObj :=
  { question := some "What is a botnet?".toList
    answer := some "A group of hijacked computers that one operator controls.".toList }

end Flashcards

namespace Questions

/-- The card of `Flashcards.botnetCardObj`, as the question generator's `inferDomain` reads
it. -/
def botnetCard : Card :=
  { id := "c1".toList
    question := "What is a botnet?".toList
    answer := "A group of hijacked computers that one operator controls.".toList
    domain := none
    tags := none }

end Questions

/-! ## `scripts/generateConceptDictionary.mjs`: the comparator of the sort -/

namespace Js

/-- The conditions that make a comparison function a consistent comparator for
`Array.prototype.sort`: exchanging the arguments flips the sign of the result, and "does not
come after" is transitive. The host's `localeCompare` meets them. -/
def consistentComparison (compare : Str → Str → Int) : Prop :=
  (∀ a b, compare a b < 0 ↔ 0 < compare b a) ∧
    (∀ a b c, compare a b ≤ 0 → compare b c ≤ 0 → compare a c ≤ 0)

end Js

/-! ## Sample inputs for the filters, the short-answer items and the distractor table -/

namespace Concepts

/-- A corpus whose only bullet is "Example overview of threats". -/
def exampleOverviewCorpus : RawCorpus :=
  { domains :=
      [{ domain_num := "2".toList
         sections :=
           [{ section_num := "2.1".toList
              name := "Threat Actors".toList
              bullets := ["Example overview of threats".toList] }] }] }

end Concepts

namespace Questions

/-- A card whose question holds only blanks after "What is". -/
def blankTermCard : RawCard :=
  { id := "c3".toList
    question := some "What is   ".toList
    answer := some "A question that names no term at all.".toList }

/-- The keys of `DISTRACTOR_BANK` that contain a key of an earlier entry. -/
def shadowedBankKeys : List Str :=
  [ "spear phishing".toList, "asymmetric".toList, "passive reconnaissance".toList,
    "active reconnaissance".toList ]

/-- A card whose answer is ten blanks: it passes the test `a.length < 10` of `main` and its
normalised answer is empty. -/
def blankAnswerCard : Card :=
  { id := "c4".toList
    question := "Define a hash".toList
    answer := "          ".toList
    domain := none
    tags := none }

/-- A duplicate-free corpus of three answers longer than 20 characters. -/
def threeLongAnswers : List Str :=
  [ "A one-way digest of data that is fixed".toList,
    "A decoy system that attracts attackers".toList,
    "Proof that a sender cannot deny a message".toList ]

end Questions

namespace Flashcards

/-- A card with the question "x||y" and the answer "z". -/
def barsInQuestion : Flashcard :=
  { id := "b1".toList
    question := "x||y".toList
    answer := "z".toList
    tags := []
    source := "messer-practice-exams".toList
    domain := some "1".toList
    sectionName := none }

/-- A card with the question "x" and the answer "y||z". -/
def barsInAnswer : Flashcard :=
  { id := "b2".toList
    question := "x".toList
    answer := "y||z".toList
    tags := []
    source := "messer-practice-exams".toList
    domain := some "1".toList
    sectionName := none }

end Flashcards

/-! ## The dedupe keys with the `toLowerCase` of the host -/

namespace Flashcards

/-- The lowercased, whitespace-normalised (question, answer) pair of a card, where
`toLowerCase` is the method of the host (`Js.toLowerCase` is its restriction to ASCII). -/
def normalizedPairOf (toLowerCase : Str → Str) (c : Flashcard) : Str × Str :=
  (toLowerCase (normalizeWhitespace c.question), toLowerCase (normalizeWhitespace c.answer))

/-- The string `key` that `dedupe` stores in its set, for the `toLowerCase` of the host. -/
def dedupeKeyOf (toLowerCase : Str → Str) (c : Flashcard) : Str :=
  toLowerCase (normalizeWhitespace c.question) ++ "||".toList ++
    toLowerCase (normalizeWhitespace c.answer)

/-- The function `dedupe(cards)`, for the `toLowerCase` of the host. -/
def dedupeOf (toLowerCase : Str → Str) (cards : List Flashcard) : List Flashcard :=
  dedupeLoop (dedupeKeyOf toLowerCase) [] cards

/-- A card with the question "a||b" and the answer "c". -/
def splitInQuestion : Flashcard :=
  { id := "s1".toList
    question := "a||b".toList
    answer := "c".toList
    tags := []
    source := "messer-practice-exams".toList
    domain := some "1".toList
    sectionName := none }

/-- A card with the question "a" and the answer "b||c". -/
def splitInAnswer : Flashcard :=
  { id := "s2".toList
    question := "a".toList
    answer := "b||c".toList
    tags := []
    source := "messer-practice-exams".toList
    domain := some "1".toList
    sectionName := none }

end Flashcards

namespace Merge

/-- The string `key` that `dedupeByFrontBack` stores in its set, for the `toLowerCase` of the
host. -/
def frontBackKeyOf (toLowerCase : Str → Str) (c : Merged) : Str :=
  toLowerCase c.front ++ "||".toList ++ toLowerCase c.back

/-- The function `dedupeByFrontBack(cards)`, for the `toLowerCase` of the host. -/
def dedupeByFrontBackOf (toLowerCase : Str → Str) (cards : List Merged) : List Merged :=
  dedupeLoop (frontBackKeyOf toLowerCase) [] cards

/-- The record list that `main` writes, for the `toLowerCase` of the host: the normalised new
cards, then the normalised cards of the existing file (`none` when that file does not exist),
deduplicated unless `--no-dedupe` is given. -/
def mergeMainOf (toLowerCase : Str → Str) (dedupe : Bool) (newData : Root)
    (existingData : Option Root) : Except Str (List Merged) :=
  match normalizedCards newData with
  | Except.error e => Except.error e
  | Except.ok newCards =>
    match existingData with
    | none => Except.ok (if dedupe then dedupeByFrontBackOf toLowerCase newCards else newCards)
    | some existing =>
      match normalizedCards existing with
      | Except.error e => Except.error e
      | Except.ok existingCards =>
        Except.ok (if dedupe then dedupeByFrontBackOf toLowerCase (newCards ++ existingCards)
                   else newCards ++ existingCards)

end Merge

/-! ## Lemmas on the shared helpers -/

theorem swap_perm {α : Type} [DecidableEq α] (a : List α) (i j : Nat) : (Js.swap a i j).Perm a := by
  unfold Js.swap
  split
  · rename_i x y hx hy
    rw [List.perm_iff_count]
    intro b
    obtain ⟨hi, rfl⟩ := List.getElem?_eq_some.mp hx
    obtain ⟨hj, rfl⟩ := List.getElem?_eq_some.mp hy
    have hj' : j < (a.set i a[j]).length := by simpa using hj
    rw [List.count_set _ _ _ _ hj', List.count_set _ _ _ _ hi]
    have h1 : 0 < List.count a[i] a := List.count_pos_iff.mpr (List.getElem_mem _)
    have h2 : 0 < List.count a[j] a := List.count_pos_iff.mpr (List.getElem_mem _)
    simp only [List.getElem_set]
    by_cases hij : i = j
    · subst hij
      simp only [if_true, beq_iff_eq]
      split <;> rename_i h
      · subst h; omega
      · omega
    · simp only [hij, if_false, beq_iff_eq]
      by_cases e1 : a[i] = b <;> by_cases e2 : a[j] = b <;> simp only [e1, e2, if_true, if_false] <;> 
        first | (subst e1; omega) | (subst e2; omega) | omega
  · exact List.Perm.refl _

theorem shuffleLoop_perm {α : Type} [DecidableEq α] (n : Nat) (a : List α) (g : Rng) :
    (shuffleLoop n a g).1.Perm a := by
  induction n generalizing a g with
  | zero => exact List.Perm.refl _
  | succ k ih => exact (ih _ _).trans (swap_perm _ _ _)

theorem shuffle_perm {α : Type} [DecidableEq α] (a : List α) (g : Rng) : (shuffle a g).1.Perm a :=
  shuffleLoop_perm _ _ _

theorem trimStart_trimEnd_trimStart (s : Str) :
    Js.trimStart (Js.trimEnd (Js.trimStart s)) = Js.trimEnd (Js.trimStart s) := by
  have hpre : Js.trimEnd (Js.trimStart s) <+: Js.trimStart s := List.rdropWhile_prefix _ _
  obtain ⟨r, hr⟩ := hpre
  cases hu : Js.trimEnd (Js.trimStart s) with
  | nil => rfl
  | cons c cs =>
    rw [hu] at hr
    have hnot := List.head?_dropWhile_not Js.isSpace s
    have ht : List.dropWhile Js.isSpace s = c :: (cs ++ r) := by
      simpa [Js.trimStart] using hr.symm
    rw [ht] at hnot
    simp only [List.head?_cons] at hnot
    simp [Js.trimStart, List.dropWhile_cons, hnot]

theorem trim_trim (s : Str) : Js.trim (Js.trim s) = Js.trim s := by
  unfold Js.trim
  rw [trimStart_trimEnd_trimStart]
  exact List.rdropWhile_idempotent _ _

theorem findIndex_some {α : Type} (p : α → Bool) (l : List α) (i : Nat)
    (h : Js.findIndex p l = some i) : ∃ hi : i < l.length, p l[i] = true := by
  induction l generalizing i with
  | nil => simp [Js.findIndex] at h
  | cons x xs ih =>
    unfold Js.findIndex at h
    by_cases hp : p x = true
    · simp only [hp, if_true, Option.some.injEq] at h
      subst h
      exact ⟨by simp, by simpa using hp⟩
    · simp only [hp] at h
      cases hf : Js.findIndex p xs with
      | none => simp [hf] at h
      | some k =>
        simp [hf] at h
        subst h
        obtain ⟨hk, hpk⟩ := ih k hf
        exact ⟨by simpa using hk, by simpa using hpk⟩

theorem findIndex_none {α : Type} (p : α → Bool) (l : List α)
    (h : Js.findIndex p l = none) : ∀ x ∈ l, p x = false := by
  induction l with
  | nil => simp
  | cons x xs ih =>
    unfold Js.findIndex at h
    by_cases hp : p x = true
    · simp [hp] at h
    · simp only [hp] at h
      cases hf : Js.findIndex p xs with
      | none =>
        intro y hy
        rcases List.mem_cons.mp hy with rfl | hy
        · simpa using hp
        · exact ih hf y hy
      | some k => simp [hf] at h

namespace Questions

theorem mem_pickRandom {arr : List Str} {n : Nat} {ex : List Str} {g : Rng} {a : Str}
    (h : a ∈ (pickRandom arr n ex g).1) : a ∈ arr ∧ a ∉ ex := by
  unfold pickRandom at h
  have h1 := List.mem_of_mem_take h
  have h2 := (shuffle_perm _ _).mem_iff.mp h1
  simpa using h2

theorem nodup_pickRandom {arr : List Str} (n : Nat) (ex : List Str) (g : Rng)
    (h : arr.Nodup) : (pickRandom arr n ex g).1.Nodup := by
  unfold pickRandom
  exact ((shuffle_perm _ _).nodup_iff.mpr (h.filter _)).sublist (List.take_sublist _ _)

theorem mem_topUp {picked es : List Str} {a : Str} (h : a ∈ topUp picked es) :
    a ∈ picked ∨ (a ∈ es ∧ a ≠ []) := by
  induction es generalizing picked with
  | nil => exact Or.inl (by simpa [topUp] using h)
  | cons e es ih =>
    unfold topUp at h
    split at h
    · exact Or.inl h
    · split at h
      · rename_i hc
        rcases ih h with h' | h'
        · rcases List.mem_append.mp h' with h'' | h''
          · exact Or.inl h''
          · right
            have : a = e := by simpa using h''
            subst this
            exact ⟨List.mem_cons_self _ _, hc.1⟩
        · exact Or.inr ⟨List.mem_cons_of_mem _ h'.1, h'.2⟩
      · rcases ih h with h' | h'
        · exact Or.inl h'
        · exact Or.inr ⟨List.mem_cons_of_mem _ h'.1, h'.2⟩

theorem nodup_topUp {picked : List Str} (es : List Str) (h : picked.Nodup) :
    (topUp picked es).Nodup := by
  induction es generalizing picked with
  | nil => simpa [topUp] using h
  | cons e es ih =>
    unfold topUp
    split
    · exact h
    · split
      · rename_i hc
        apply ih
        rw [List.nodup_append]
        refine ⟨h, List.nodup_singleton _, ?_⟩
        intro x hx hx'
        have : x = e := by simpa using hx'
        subst this
        exact hc.2 hx
      · exact ih h

/-- Every value stored in the distractor bank is non-empty and carries no outer whitespace. -/
theorem bank_values_trimmed :
    ∀ e ∈ DISTRACTOR_BANK, ∀ v ∈ e.2, Js.trim v = v ∧ v ≠ [] := by
  decide!

/-- Every entry of the distractor bank lists pairwise distinct values. -/
theorem bank_values_nodup : ∀ e ∈ DISTRACTOR_BANK, e.2.Nodup := by
  decide!

theorem mem_distractorPool {ca : Str} {all : List Str} {term : Option Str} {a : Str}
    (h : a ∈ distractorPool ca all term) :
    a ∈ all ∨ ∃ e ∈ DISTRACTOR_BANK, a ∈ e.2 := by
  unfold distractorPool at h
  simp only at h
  split at h
  · exact Or.inl (List.mem_of_mem_filter h)
  · split at h
    · rename_i e he
      exact Or.inr ⟨e, List.mem_of_find?_eq_some he, h⟩
    · simp at h

theorem nodup_distractorPool (ca : Str) {all : List Str} (term : Option Str)
    (h : all.Nodup) : (distractorPool ca all term).Nodup := by
  unfold distractorPool
  simp only
  split
  · exact h.filter _
  · split
    · rename_i e he
      exact bank_values_nodup e (List.mem_of_find?_eq_some he)
    · exact List.nodup_nil

theorem mem_getDistractors {ca : Str} {all : List Str} {term : Option Str} {g : Rng} {a : Str}
    (h : a ∈ (getDistractors ca all term g).1) :
    (a ∈ all ∨ ∃ e ∈ DISTRACTOR_BANK, a ∈ e.2) ∧ a ≠ ca := by
  unfold getDistractors at h
  simp only at h
  split at h
  · have h1 := List.mem_of_mem_take h
    rcases mem_topUp h1 with h2 | h2
    · have h3 := mem_pickRandom h2
      exact ⟨mem_distractorPool h3.1, by simpa using h3.2⟩
    · have h3 := (shuffle_perm _ _).mem_iff.mp h2.1
      simp only [List.mem_filter, List.mem_singleton, Bool.and_eq_true, Bool.not_eq_true',
        decide_eq_false_iff_not, decide_eq_true_eq] at h3
      exact ⟨Or.inl h3.1, h3.2.1.1⟩
  · have h1 := List.mem_of_mem_take h
    have h3 := mem_pickRandom h1
    exact ⟨mem_distractorPool h3.1, by simpa using h3.2⟩

theorem nodup_getDistractors (ca : Str) {all : List Str} (term : Option Str) (g : Rng)
    (h : all.Nodup) : (getDistractors ca all term g).1.Nodup := by
  unfold getDistractors
  simp only
  have hp := nodup_pickRandom 3 [ca] g (nodup_distractorPool ca term h)
  split
  · exact (nodup_topUp _ hp).sublist (List.take_sublist _ _)
  · exact hp.sublist (List.take_sublist _ _)

theorem mem_padChoices {all : List Str} {fuel : Nat} {c : List Str} {a : Str}
    (h : a ∈ padChoices all fuel c) : a ∈ c ∨ (a ∈ all ∧ 20 < a.length) := by
  induction fuel generalizing c with
  | zero => exact Or.inl (by simpa [padChoices] using h)
  | succ k ih =>
    unfold padChoices at h
    split at h
    · split at h
      · rename_i fb hfb
        rcases ih h with h' | h'
        · rcases List.mem_append.mp h' with h'' | h''
          · exact Or.inl h''
          · have : a = fb := by simpa using h''
            subst this
            have hm := List.mem_of_find?_eq_some hfb
            have hp := List.find?_some hfb
            simp only [Bool.and_eq_true, Bool.not_eq_true', decide_eq_false_iff_not,
              decide_eq_true_eq] at hp
            exact Or.inr ⟨hm, hp.2⟩
        · exact Or.inr h'
      · exact Or.inl h
    · exact Or.inl h

theorem nodup_padChoices (all : List Str) (fuel : Nat) {c : List Str} (h : c.Nodup) :
    (padChoices all fuel c).Nodup := by
  induction fuel generalizing c with
  | zero => simpa [padChoices] using h
  | succ k ih =>
    unfold padChoices
    split
    · split
      · rename_i fb hfb
        apply ih
        have hp := List.find?_some hfb
        simp only [Bool.and_eq_true, Bool.not_eq_true', decide_eq_false_iff_not,
          decide_eq_true_eq] at hp
        rw [List.nodup_append]
        refine ⟨h, List.nodup_singleton _, ?_⟩
        intro x hx hx'
        have : x = fb := by simpa using hx'
        subst this
        exact hp.1 hx
      · exact h
    · exact h

theorem padChoices_extends (all : List Str) (fuel : Nat) (c : List Str) :
    c <+: padChoices all fuel c := by
  induction fuel generalizing c with
  | zero => simp [padChoices]
  | succ k ih =>
    unfold padChoices
    split
    · split
      · exact (List.prefix_append _ _).trans (ih _)
      · exact List.prefix_refl _
    · exact List.prefix_refl _

/-- Four rounds are enough for the padding loop: it stops with four choices or because no
unused answer longer than 20 characters is left. -/
theorem padChoices_done (all : List Str) (fuel : Nat) (c : List Str) (hf : 4 ≤ fuel + c.length) :
    4 ≤ (padChoices all fuel c).length ∨
      ∀ a ∈ all, 20 < a.length → a ∈ padChoices all fuel c := by
  induction fuel generalizing c with
  | zero => left; simpa [padChoices] using hf
  | succ k ih =>
    unfold padChoices
    split
    · split
      · apply ih
        simp only [List.length_append, List.length_singleton]
        omega
      · rename_i hnone
        right
        intro a ha hlen
        have := List.find?_eq_none.mp hnone a ha
        simpa [hlen] using this
    · left; omega

theorem mem_assembleChoices {ca : Str} {d all : List Str} {a : Str}
    (h : a ∈ assembleChoices ca d all) :
    a ≠ [] ∧ (a = ca ∨ a ∈ d ∨ a ∈ all) := by
  unfold assembleChoices at h
  rcases mem_padChoices (List.mem_of_mem_take h) with h1 | h1
  · simp only [List.mem_filter, List.mem_cons, decide_eq_true_eq] at h1
    rcases h1.1 with h2 | h2
    · exact ⟨h1.2, Or.inl h2⟩
    · exact ⟨h1.2, Or.inr (Or.inl h2)⟩
  · refine ⟨?_, Or.inr (Or.inr h1.1)⟩
    intro h0
    rw [h0] at h1
    simp at h1

theorem nodup_assembleChoices {ca : Str} {d : List Str} (all : List Str)
    (h : (ca :: d).Nodup) : (assembleChoices ca d all).Nodup := by
  unfold assembleChoices
  exact (nodup_padChoices all 4 (h.filter _)).sublist (List.take_sublist _ _)

theorem length_assembleChoices (ca : Str) (d all : List Str) :
    (assembleChoices ca d all).length ≤ 4 := by
  unfold assembleChoices
  simp

theorem correct_mem_assembleChoices {ca : Str} (d all : List Str) (h : ca ≠ []) :
    ca ∈ assembleChoices ca d all := by
  unfold assembleChoices
  have hf : (ca :: d).filter (fun c => decide (c ≠ [])) = ca :: d.filter (fun c => decide (c ≠ [])) := by
    simp [List.filter_cons, h]
  obtain ⟨r, hr⟩ := padChoices_extends all 4 ((ca :: d).filter (fun c => decide (c ≠ [])))
  rw [← hr, hf]
  simp

/-- Below four choices the padding loop has used up every long answer of the corpus. -/
theorem assembleChoices_short {ca : Str} {d all : List Str}
    (h : (assembleChoices ca d all).length < 4) :
    ∀ a ∈ all, 20 < a.length → a ∈ assembleChoices ca d all := by
  unfold assembleChoices at h ⊢
  have hlen : (padChoices all 4 ((ca :: d).filter (fun c => decide (c ≠ [])))).length < 4 := by
    rw [List.length_take] at h
    omega
  rw [List.take_of_length_le (by omega)]
  rcases padChoices_done all 4 ((ca :: d).filter (fun c => decide (c ≠ []))) (by omega) with h1 | h1
  · omega
  · exact h1

theorem randomBelow_lt (g : Rng) {k n : Nat} (hk : 0 < k) (hkn : k ≤ n) :
    Js.randomBelow g k < n := by
  unfold Js.randomBelow
  rw [if_neg (by omega)]
  exact lt_of_lt_of_le (Nat.mod_lt _ hk) hkn

theorem countP_eq_one_of_mem {l : List Str} {a : Str} (hnd : l.Nodup) (h : a ∈ l) :
    List.countP (fun c => decide (c = a)) l = 1 := by
  induction l with
  | nil => simp at h
  | cons x xs ih =>
    rw [List.nodup_cons] at hnd
    by_cases hx : x = a
    · subst hx
      have h0 : List.countP (fun c => decide (c = x)) xs = 0 := by
        rw [List.countP_eq_zero]
        intro c hc
        simp only [decide_eq_true_eq]
        rintro rfl
        exact hnd.1 hc
      simp [List.countP_cons, h0]
    · have hm : a ∈ xs := by
        rcases List.mem_cons.mp h with h' | h'
        · exact absurd h'.symm hx
        · exact h'
      simp [List.countP_cons, hx, ih hnd.2 hm]

theorem placeAnswer_length (ca : Str) (choices : List Str) (g : Rng) :
    1 ≤ (placeAnswer ca choices g).1.length ∧
      ((placeAnswer ca choices g).1.length = choices.length ∨
        (choices = [] ∧ (placeAnswer ca choices g).1.length = 1)) := by
  have hlen : (shuffle choices g).1.length = choices.length := (shuffle_perm choices g).length_eq
  cases hf : Js.findIndex (isCorrectChoice ca) (shuffle choices g).1 with
  | some i =>
    obtain ⟨hlt, _⟩ := findIndex_some _ _ _ hf
    simp only [placeAnswer, hf]
    exact ⟨Nat.lt_of_le_of_lt (Nat.zero_le _) hlt, Or.inl hlen⟩
  | none =>
    simp only [placeAnswer, hf, Js.arraySet]
    by_cases h0 : (shuffle choices g).1.length = 0
    · have hnil : choices = [] := List.length_eq_zero.mp (by omega)
      have hs : (shuffle choices g).1 = [] := List.length_eq_zero.mp h0
      rw [hs]
      simp [Js.randomBelow, hnil]
    · have hlt := randomBelow_lt (shuffle choices g).2
        (k := min 4 (shuffle choices g).1.length) (n := (shuffle choices g).1.length)
        (by omega) (Nat.min_le_right _ _)
      rw [if_pos hlt]
      simp only [List.length_set]
      exact ⟨by omega, Or.inl hlen⟩

theorem placeAnswer_index (ca : Str) (choices : List Str) (g : Rng)
    (hca : Js.trim ca = ca) (hch : ∀ c ∈ choices, Js.trim c = c) :
    (placeAnswer ca choices g).1[(placeAnswer ca choices g).2.1]? = some ca := by
  cases hf : Js.findIndex (isCorrectChoice ca) (shuffle choices g).1 with
  | some i =>
    obtain ⟨hlt, hp⟩ := findIndex_some _ _ _ hf
    have hmem : (shuffle choices g).1[i] ∈ choices :=
      (shuffle_perm choices g).mem_iff.mp (List.getElem_mem _)
    have ht := hch _ hmem
    simp only [isCorrectChoice, Bool.or_eq_true, Bool.and_eq_true, decide_eq_true_eq] at hp
    have heq : (shuffle choices g).1[i] = ca := by
      rcases hp with hp | hp
      · exact hp
      · rw [← ht, hp.2, hca]
    simp only [placeAnswer, hf, List.getElem?_eq_getElem hlt]
    exact congrArg some heq
  | none =>
    simp only [placeAnswer, hf, Js.arraySet]
    by_cases h0 : (shuffle choices g).1.length = 0
    · have hs : (shuffle choices g).1 = [] := List.length_eq_zero.mp h0
      rw [hs]
      simp [Js.randomBelow]
    · have hlt := randomBelow_lt (shuffle choices g).2
        (k := min 4 (shuffle choices g).1.length) (n := (shuffle choices g).1.length)
        (by omega) (Nat.min_le_right _ _)
      rw [if_pos hlt]
      simp [List.getElem?_set, hlt]

theorem placeAnswer_nodup (ca : Str) (choices : List Str) (g : Rng)
    (hnd : choices.Nodup) (hne : ∀ c ∈ choices, c ≠ []) (hmem : ca ≠ [] → ca ∈ choices) :
    (placeAnswer ca choices g).1.Nodup ∧
      List.countP (fun c => decide (c = ca)) (placeAnswer ca choices g).1 = 1 := by
  have hperm := shuffle_perm choices g
  have hnd' : (shuffle choices g).1.Nodup := hperm.nodup_iff.mpr hnd
  by_cases hca : ca = []
  · -- the empty answer was filtered out of the choices: it is written into a random slot
    have hnone : Js.findIndex (isCorrectChoice ca) (shuffle choices g).1 = none := by
      cases hf : Js.findIndex (isCorrectChoice ca) (shuffle choices g).1 with
      | none => rfl
      | some i =>
        exfalso
        obtain ⟨hlt, hp⟩ := findIndex_some _ _ _ hf
        have hm : (shuffle choices g).1[i] ∈ choices :=
          hperm.mem_iff.mp (List.getElem_mem _)
        have hne' := hne _ hm
        simp [isCorrectChoice, hca] at hp
        exact hne' hp
    have hnot : ca ∉ (shuffle choices g).1 := by
      intro h
      exact hne _ (hperm.mem_iff.mp h) hca
    have hres : ((placeAnswer ca choices g).1).Nodup ∧ ca ∈ (placeAnswer ca choices g).1 := by
      simp only [placeAnswer, hnone, Js.arraySet]
      split
      · rename_i hlt
        exact ⟨hnd'.set hnot, List.mem_set _ _ hlt _⟩
      · constructor
        · rw [List.nodup_append]
          refine ⟨hnd', List.nodup_singleton _, ?_⟩
          intro x hx hx'
          have : x = ca := by simpa using hx'
          subst this
          exact hnot hx
        · simp
    exact ⟨hres.1, countP_eq_one_of_mem hres.1 hres.2⟩
  · have hin : ca ∈ (shuffle choices g).1 := hperm.mem_iff.mpr (hmem hca)
    cases hf : Js.findIndex (isCorrectChoice ca) (shuffle choices g).1 with
    | some i =>
      simp only [placeAnswer, hf]
      exact ⟨hnd', countP_eq_one_of_mem hnd' hin⟩
    | none =>
      exfalso
      have := findIndex_none _ _ hf ca hin
      simp [isCorrectChoice] at this

/-- C1 (as stated, refuted): with the duplicate-free corpus `[" A one-way digest of data"]`
the returned `answerIndex` is 0 and `choices[0]` is the corpus entry with its leading blank,
not the card's normalised answer. -/
theorem generateMcq_index_counterexample :
    untrimmedAnswers.Nodup ∧
      (generateMcq digestCard untrimmedAnswers 0 zeroRng).1.choices[
          (generateMcq digestCard untrimmedAnswers 0 zeroRng).1.answerIndex]? ≠
        some (Js.trim (Js.replaceSpaces [' '] digestCard.answer)) := by
  decide!

/-- C1 (amended): when no entry of `allAnswers` has leading or trailing whitespace (as `main`
builds it), for every card, index and random stream the returned item has
`answerIndex < choices.length` and `choices[answerIndex]` is the card's answer with runs of
whitespace collapsed to one space and trimmed. -/
theorem generateMcq_index_points_at_answer (card : Card) (allAnswers : List Str) (index : Nat)
    (g : Rng) (htrim : ∀ a ∈ allAnswers, Js.trim a = a) :
    (generateMcq card allAnswers index g).1.answerIndex <
        (generateMcq card allAnswers index g).1.choices.length ∧
      (generateMcq card allAnswers index g).1.choices[
          (generateMcq card allAnswers index g).1.answerIndex]? =
        some (Js.trim (Js.replaceSpaces [' '] card.answer)) := by
  have key : (generateMcq card allAnswers index g).1.choices[
      (generateMcq card allAnswers index g).1.answerIndex]? =
        some (Js.trim (Js.replaceSpaces [' '] card.answer)) := by
    show (placeAnswer _ _ _).1[(placeAnswer _ _ _).2.1]? = some _
    apply placeAnswer_index
    · exact trim_trim _
    · intro c hc
      rcases (mem_assembleChoices hc).2 with h | h | h
      · rw [h]; exact trim_trim _
      · rcases (mem_getDistractors h).1 with h' | ⟨e, he, hv⟩
        · exact htrim c h'
        · exact (bank_values_trimmed e he c hv).1
      · exact htrim c h
  refine ⟨?_, key⟩
  by_contra hlt
  rw [List.getElem?_eq_none (Nat.le_of_not_lt hlt)] at key
  exact Option.noConfusion key

theorem generateMcq_index_points_at_answer_witness :
    (∀ a ∈ smallCorpus, Js.trim a = a) ∧
      (generateMcq digestCard smallCorpus 0 zeroRng).1.answerIndex <
        (generateMcq digestCard smallCorpus 0 zeroRng).1.choices.length ∧
      (generateMcq digestCard smallCorpus 0 zeroRng).1.choices[
          (generateMcq digestCard smallCorpus 0 zeroRng).1.answerIndex]? =
        some (Js.trim (Js.replaceSpaces [' '] digestCard.answer)) :=
  ⟨by decide, generateMcq_index_points_at_answer digestCard smallCorpus 0 zeroRng (by decide)⟩

/-- C2 (as stated, refuted): for a corpus holding only the card's own answer the returned
item has one choice, not four. -/
theorem generateMcq_four_choices_counterexample :
    (generateMcq digestCard ownAnswerOnly 0 zeroRng).1.choices.length ≠ 4 := by
  decide!

/-- C2 (amended): for every card, corpus, index and random stream the returned item has at
least one and at most four choices; when the normalised answer is non-empty and fewer than
four choices are returned, every corpus entry longer than 20 characters is among them (the
padding loop ran out of unused answers). -/
theorem generateMcq_choices_length (card : Card) (allAnswers : List Str) (index : Nat) (g : Rng) :
    1 ≤ (generateMcq card allAnswers index g).1.choices.length ∧
      (generateMcq card allAnswers index g).1.choices.length ≤ 4 ∧
      ((generateMcq card allAnswers index g).1.choices.length < 4 →
        Js.trim (Js.replaceSpaces [' '] card.answer) ≠ [] →
        ∀ a ∈ allAnswers, 20 < a.length → a ∈ (generateMcq card allAnswers index g).1.choices) := by
  have hch : (generateMcq card allAnswers index g).1.choices =
      (placeAnswer (Js.trim (Js.replaceSpaces [' '] card.answer))
        (assembleChoices (Js.trim (Js.replaceSpaces [' '] card.answer))
          (getDistractors (Js.trim (Js.replaceSpaces [' '] card.answer)) allAnswers
            (extractTerm card.question) g).1 allAnswers)
        (getDistractors (Js.trim (Js.replaceSpaces [' '] card.answer)) allAnswers
            (extractTerm card.question) g).2).1 := rfl
  rw [hch]
  generalize Js.trim (Js.replaceSpaces [' '] card.answer) = ca
  generalize (getDistractors ca allAnswers (extractTerm card.question) g).1 = ds
  generalize (getDistractors ca allAnswers (extractTerm card.question) g).2 = g1
  have hlen := placeAnswer_length ca (assembleChoices ca ds allAnswers) g1
  have hle := length_assembleChoices ca ds allAnswers
  refine ⟨hlen.1, ?_, ?_⟩
  · rcases hlen.2 with h | h
    · omega
    · omega
  · intro hshort hca a ha hlong
    have hin := correct_mem_assembleChoices ds allAnswers hca
    have hperm := shuffle_perm (assembleChoices ca ds allAnswers) g1
    have hfound : ∃ i, Js.findIndex (isCorrectChoice ca)
        (shuffle (assembleChoices ca ds allAnswers) g1).1 = some i := by
      cases hf : Js.findIndex (isCorrectChoice ca)
          (shuffle (assembleChoices ca ds allAnswers) g1).1 with
      | some i => exact ⟨i, rfl⟩
      | none =>
        exfalso
        have := findIndex_none _ _ hf ca (hperm.mem_iff.mpr hin)
        simp [isCorrectChoice] at this
    obtain ⟨i, hi⟩ := hfound
    have heq : (placeAnswer ca (assembleChoices ca ds allAnswers) g1).1 =
        (shuffle (assembleChoices ca ds allAnswers) g1).1 := by
      simp only [placeAnswer, hi]
    rw [heq] at hshort ⊢
    rw [hperm.length_eq] at hshort
    exact hperm.mem_iff.mpr (assembleChoices_short hshort a ha hlong)

theorem generateMcq_choices_length_witness :
    (generateMcq digestCard ownAnswerOnly 0 zeroRng).1.choices.length < 4 ∧
      Js.trim (Js.replaceSpaces [' '] digestCard.answer) ≠ [] ∧
      ∀ a ∈ ownAnswerOnly, 20 < a.length →
        a ∈ (generateMcq digestCard ownAnswerOnly 0 zeroRng).1.choices :=
  ⟨by decide!, by decide!,
    (generateMcq_choices_length digestCard ownAnswerOnly 0 zeroRng).2.2 (by decide!) (by decide!)⟩

/-- C3: for every card, every duplicate-free corpus, every index and every random stream the
choices of the returned item are pairwise distinct and the card's normalised answer occurs
among them exactly once. -/
theorem generateMcq_choices_distinct (card : Card) (allAnswers : List Str) (index : Nat)
    (g : Rng) (hnd : allAnswers.Nodup) :
    (generateMcq card allAnswers index g).1.choices.Nodup ∧
      List.countP (fun c => decide (c = Js.trim (Js.replaceSpaces [' '] card.answer)))
        (generateMcq card allAnswers index g).1.choices = 1 := by
  show (placeAnswer _ _ _).1.Nodup ∧ List.countP _ (placeAnswer _ _ _).1 = 1
  apply placeAnswer_nodup
  · apply nodup_assembleChoices
    rw [List.nodup_cons]
    refine ⟨?_, nodup_getDistractors _ _ _ hnd⟩
    intro h
    exact (mem_getDistractors h).2 rfl
  · intro c hc
    exact (mem_assembleChoices hc).1
  · intro hca
    exact correct_mem_assembleChoices _ _ hca

theorem generateMcq_choices_distinct_witness :
    smallCorpus.Nodup ∧
      (generateMcq digestCard smallCorpus 0 zeroRng).1.choices.Nodup ∧
      List.countP (fun c => decide (c = Js.trim (Js.replaceSpaces [' '] digestCard.answer)))
        (generateMcq digestCard smallCorpus 0 zeroRng).1.choices = 1 :=
  ⟨by decide, generateMcq_choices_distinct digestCard smallCorpus 0 zeroRng (by decide)⟩

end Questions

theorem dedupeLoop_sublist {α : Type} (key : α → Str) (seen : List Str) (l : List α) :
    List.Sublist (dedupeLoop key seen l) l := by
  induction l generalizing seen with
  | nil => exact List.Sublist.slnil
  | cons c cs ih =>
    unfold dedupeLoop
    split
    · exact (ih _).cons _
    · exact (ih _).cons₂ _

theorem dedupeLoop_key_not_seen {α : Type} (key : α → Str) (seen : List Str) (l : List α) :
    ∀ c ∈ dedupeLoop key seen l, key c ∉ seen := by
  induction l generalizing seen with
  | nil => intro c hc; simp [dedupeLoop] at hc
  | cons x xs ih =>
    intro c hc
    unfold dedupeLoop at hc
    split at hc
    · exact ih _ c hc
    · rename_i hx
      rcases List.mem_cons.mp hc with rfl | hc'
      · exact hx
      · exact fun h => ih _ c hc' (List.mem_cons_of_mem _ h)

theorem dedupeLoop_keys_nodup {α : Type} (key : α → Str) (seen : List Str) (l : List α) :
    ((dedupeLoop key seen l).map key).Nodup := by
  induction l generalizing seen with
  | nil => simp [dedupeLoop]
  | cons x xs ih =>
    unfold dedupeLoop
    split
    · exact ih _
    · rw [List.map_cons, List.nodup_cons]
      refine ⟨?_, ih _⟩
      intro h
      obtain ⟨c, hc, hk⟩ := List.mem_map.mp h
      exact dedupeLoop_key_not_seen key _ xs c hc (hk ▸ List.mem_cons_self _ _)

theorem dedupeLoop_first {α : Type} [DecidableEq α] (key : α → Str) (seen : List Str)
    (l : List α) :
    ∀ c ∈ dedupeLoop key seen l, l.find? (fun x => decide (key x = key c)) = some c := by
  induction l generalizing seen with
  | nil => intro c hc; simp [dedupeLoop] at hc
  | cons x xs ih =>
    intro c hc
    unfold dedupeLoop at hc
    split at hc
    · rename_i hx
      have hns := dedupeLoop_key_not_seen key _ xs c hc
      have hne : key x ≠ key c := fun h => hns (h ▸ hx)
      rw [List.find?_cons_of_neg _ (by simpa using hne)]
      exact ih _ c hc
    · rcases List.mem_cons.mp hc with rfl | hc'
      · simp
      · have hns := dedupeLoop_key_not_seen key _ xs c hc'
        have hne : key x ≠ key c := fun h => hns (h ▸ List.mem_cons_self _ _)
        rw [List.find?_cons_of_neg _ (by simpa using hne)]
        exact ih _ c hc'

theorem dedupeLoop_eq_self {α : Type} (key : α → Str) (seen : List Str) (l : List α)
    (hnd : (l.map key).Nodup) (hdis : ∀ c ∈ l, key c ∉ seen) : dedupeLoop key seen l = l := by
  induction l generalizing seen with
  | nil => rfl
  | cons x xs ih =>
    rw [List.map_cons, List.nodup_cons] at hnd
    unfold dedupeLoop
    rw [if_neg (hdis x (List.mem_cons_self _ _))]
    congr 1
    apply ih _ hnd.2
    intro c hc h
    rcases List.mem_cons.mp h with h' | h'
    · exact hnd.1 (h' ▸ List.mem_map_of_mem key hc)
    · exact hdis c (List.mem_cons_of_mem _ hc) h'

theorem find?_of_weaker {α : Type} (p q : α → Bool) (l : List α) (c : α)
    (h : l.find? p = some c) (hqp : ∀ x, q x = true → p x = true) (hq : q c = true) :
    l.find? q = some c := by
  induction l with
  | nil => simp at h
  | cons x xs ih =>
    by_cases hp : p x = true
    · rw [List.find?_cons_of_pos _ hp] at h
      have : x = c := by simpa using h
      subst this
      rw [List.find?_cons_of_pos _ hq]
    · rw [List.find?_cons_of_neg _ hp] at h
      have hqx : ¬ q x = true := fun hq' => hp (hqp x hq')
      rw [List.find?_cons_of_neg _ hqx]
      exact ih h

namespace Flashcards

theorem dedupeKey_of_pair {c d : Flashcard} (h : normalizedPair c = normalizedPair d) :
    dedupeKey c = dedupeKey d := by
  unfold normalizedPair at h
  unfold dedupeKey
  rw [(Prod.mk.inj h).1, (Prod.mk.inj h).2]

end Flashcards

theorem dedupeLoop_seen_congr {α : Type} (key : α → Str) (s₁ s₂ : List Str) (l : List α)
    (h : ∀ k, k ∈ s₁ ↔ k ∈ s₂) : dedupeLoop key s₁ l = dedupeLoop key s₂ l := by
  induction l generalizing s₁ s₂ with
  | nil => rfl
  | cons c cs ih =>
    unfold dedupeLoop
    by_cases hc : key c ∈ s₁
    · rw [if_pos hc, if_pos ((h _).mp hc)]
      exact ih _ _ h
    · rw [if_neg hc, if_neg (fun h' => hc ((h _).mpr h'))]
      congr 1
      apply ih
      intro k
      simp only [List.mem_cons]
      rw [h k]

theorem dedupeLoop_covers {α : Type} (key : α → Str) (seen : List Str) (l : List α) :
    ∀ x ∈ l, key x ∉ seen → ∃ c ∈ dedupeLoop key seen l, key c = key x := by
  induction l generalizing seen with
  | nil => intro x hx; simp at hx
  | cons c cs ih =>
    intro x hx hns
    unfold dedupeLoop
    by_cases hc : key c ∈ seen
    · rw [if_pos hc]
      rcases List.mem_cons.mp hx with rfl | hx'
      · exact absurd hc hns
      · exact ih seen x hx' hns
    · rw [if_neg hc]
      by_cases hk : key x = key c
      · exact ⟨c, List.mem_cons_self _ _, hk.symm⟩
      · rcases List.mem_cons.mp hx with rfl | hx'
        · exact absurd rfl hk
        · obtain ⟨d, hd, hdk⟩ := ih (key c :: seen) x hx' (by
            intro hmem
            rcases List.mem_cons.mp hmem with h' | h'
            · exact hk h'
            · exact hns h')
          exact ⟨d, List.mem_cons_of_mem _ hd, hdk⟩

namespace Concepts

theorem hasKey_iff (st : State) (key : Str) :
    hasKey st key = true ↔ key ∈ st.byTermKey.map Concept.conceptId := by
  unfold hasKey
  simp only [List.any_eq_true, decide_eq_true_eq, List.mem_map]

/-- One insertion into the map: the list grows by `c` exactly when the key of `c` is new. -/
theorem append_dedupeLoop_cons (m : List Concept) (c : Concept) (cs : List Concept) :
    m ++ dedupeLoop Concept.conceptId (m.map Concept.conceptId) (c :: cs) =
      (if c.conceptId ∈ m.map Concept.conceptId then m else m ++ [c]) ++
        dedupeLoop Concept.conceptId
          ((if c.conceptId ∈ m.map Concept.conceptId then m else m ++ [c]).map
            Concept.conceptId) cs := by
  by_cases h : c.conceptId ∈ m.map Concept.conceptId
  · simp only [dedupeLoop, if_pos h]
  · simp only [dedupeLoop, if_neg h, List.append_assoc, List.singleton_append]
    congr 2
    apply dedupeLoop_seen_congr
    intro k
    simp only [List.mem_cons, List.map_append, List.map_cons, List.map_nil, List.mem_append,
      List.not_mem_nil, or_false]
    exact or_comm

theorem any_conceptId_false_iff (m : List Concept) (key : Str) :
    (m.any (fun c => decide (c.conceptId = key)) = false) ↔
      key ∉ m.map Concept.conceptId := by
  rw [← Bool.not_eq_true, List.any_eq_true]
  simp only [decide_eq_true_eq, List.mem_map]

theorem stepBullet_byTermKey (dd sn : Str) (st : State) (b : Str) :
    (stepBullet dd sn st b).byTermKey =
      match bulletCandidate dd sn b with
      | some c =>
        if c.conceptId ∈ st.byTermKey.map Concept.conceptId then st.byTermKey
        else st.byTermKey ++ [c]
      | none => st.byTermKey := by
  unfold stepBullet bulletCandidate
  cases hex : extractBullet dd sn b with
  | skipped => rfl
  | ruleA c =>
    simp only [hasKey, any_conceptId_false_iff]
    by_cases hid : c.conceptId = []
    · simp [hid]
    · by_cases hk : c.conceptId ∈ st.byTermKey.map Concept.conceptId
      · simp [hid, hk]
      · simp [hid, hk]
  | ruleB c =>
    simp only [hasKey, any_conceptId_false_iff]
    by_cases hid : c.conceptId = []
    · simp [hid]
    · by_cases hk : c.conceptId ∈ st.byTermKey.map Concept.conceptId
      · simp [hid, hk]
      · simp [hid, hk]

theorem foldl_stepBullet_byTermKey (dd sn : Str) (bullets : List Str) (st : State)
    (rest : List Concept) :
    (bullets.foldl (stepBullet dd sn) st).byTermKey ++
        dedupeLoop Concept.conceptId
          ((bullets.foldl (stepBullet dd sn) st).byTermKey.map Concept.conceptId) rest =
      st.byTermKey ++ dedupeLoop Concept.conceptId (st.byTermKey.map Concept.conceptId)
        (bullets.filterMap (bulletCandidate dd sn) ++ rest) := by
  induction bullets generalizing st with
  | nil => rfl
  | cons b bs ih =>
    rw [List.foldl_cons, ih (stepBullet dd sn st b), stepBullet_byTermKey]
    cases hb : bulletCandidate dd sn b with
    | none => simp [List.filterMap_cons, hb]
    | some c =>
      simp only [List.filterMap_cons, hb, List.cons_append]
      rw [append_dedupeLoop_cons st.byTermKey c]

theorem stepSection_byTermKey (dd : Str) (s : RawSection) (st : State) (rest : List Concept) :
    (stepSection dd st s).byTermKey ++
        dedupeLoop Concept.conceptId ((stepSection dd st s).byTermKey.map Concept.conceptId) rest =
      st.byTermKey ++ dedupeLoop Concept.conceptId (st.byTermKey.map Concept.conceptId)
        (sectionCandidates dd s ++ rest) := by
  unfold stepSection sectionCandidates
  simp only
  rw [foldl_stepBullet_byTermKey]
  cases hs : sectionConcept dd s with
  | none => simp
  | some c =>
    simp only [Option.toList, List.singleton_append, List.cons_append]
    rw [append_dedupeLoop_cons st.byTermKey c]
    by_cases hk : c.conceptId ∈ st.byTermKey.map Concept.conceptId
    · have hh : hasKey st c.conceptId = true := (hasKey_iff _ _).mpr hk
      simp only [hh, if_pos hk]
      simp
    · have hh : hasKey st c.conceptId = false := by
        rw [← Bool.not_eq_true, hasKey_iff]
        exact hk
      simp only [hh, if_neg hk]
      simp

theorem foldl_stepSection_byTermKey (dd : Str) (sections : List RawSection) (st : State)
    (rest : List Concept) :
    (sections.foldl (stepSection dd) st).byTermKey ++
        dedupeLoop Concept.conceptId
          ((sections.foldl (stepSection dd) st).byTermKey.map Concept.conceptId) rest =
      st.byTermKey ++ dedupeLoop Concept.conceptId (st.byTermKey.map Concept.conceptId)
        (sections.flatMap (sectionCandidates dd) ++ rest) := by
  induction sections generalizing st with
  | nil => rfl
  | cons s ss ih =>
    rw [List.foldl_cons, ih (stepSection dd st s), List.flatMap_cons, List.append_assoc,
      stepSection_byTermKey]

theorem foldl_stepDomain_byTermKey (domains : List RawDomain) (st : State)
    (rest : List Concept) :
    (domains.foldl stepDomain st).byTermKey ++
        dedupeLoop Concept.conceptId
          ((domains.foldl stepDomain st).byTermKey.map Concept.conceptId) rest =
      st.byTermKey ++ dedupeLoop Concept.conceptId (st.byTermKey.map Concept.conceptId)
        (domains.flatMap (fun d =>
          d.sections.flatMap (sectionCandidates (d.domain_num ++ ".0".toList))) ++ rest) := by
  induction domains generalizing st with
  | nil => rfl
  | cons d ds ih =>
    rw [List.foldl_cons, ih (stepDomain st d), List.flatMap_cons, List.append_assoc]
    exact foldl_stepSection_byTermKey _ _ _ _

/-- The map built by the loops holds the candidates of the corpus, each key at its first
occurrence. -/
theorem byTermKey_eq_dedupe (data : RawCorpus) :
    (data.domains.foldl stepDomain {}).byTermKey =
      dedupeLoop Concept.conceptId [] (candidates data) := by
  have h := foldl_stepDomain_byTermKey data.domains {} []
  simp only [dedupeLoop, List.append_nil] at h
  rw [h]
  rfl

/-- On `sampleCorpus` two bullets claim the id `air-gap`; the dictionary keeps the one of
section 1.2, which comes first in the corpus, and the sort puts section 1.1 before it. -/
theorem buildConceptDictionary_sample :
    (buildConceptDictionary compareCodeUnits sampleCorpus).1.map
        (fun c => (c.conceptId, c.sectionNum)) =
      [("a-sandbox".toList, "1.1".toList), ("air-gap".toList, "1.2".toList)] ∧
    (candidates sampleCorpus).map (fun c => (c.conceptId, c.sectionNum)) =
      [("air-gap".toList, "1.2".toList), ("air-gap".toList, "1.1".toList),
       ("a-sandbox".toList, "1.1".toList)] := by
  decide!

/-- C5: for every corpus (and every host string comparison used by the sort) no two returned
concepts share a conceptId; every returned concept is the first candidate, in corpus order
over section titles and bullets, that claimed its conceptId, so later candidates with the
same id leave its fields unchanged; and every claimed id is present in the output. -/
theorem buildConceptDictionary_first_wins (localeCompare : Str → Str → Int) (data : RawCorpus) :
    ((buildConceptDictionary localeCompare data).1.map Concept.conceptId).Nodup ∧
      (∀ c ∈ (buildConceptDictionary localeCompare data).1,
        (candidates data).find? (fun x => decide (x.conceptId = c.conceptId)) = some c) ∧
      (∀ x ∈ candidates data,
        ∃ c ∈ (buildConceptDictionary localeCompare data).1, c.conceptId = x.conceptId) := by
  have hperm : ((buildConceptDictionary localeCompare data).1).Perm
      (dedupeLoop Concept.conceptId [] (candidates data)) := by
    unfold buildConceptDictionary
    simp only
    rw [byTermKey_eq_dedupe]
    exact List.perm_insertionSort _ _
  refine ⟨?_, ?_, ?_⟩
  · exact (hperm.map _).nodup_iff.mpr (dedupeLoop_keys_nodup _ _ _)
  · intro c hc
    exact dedupeLoop_first Concept.conceptId [] (candidates data) c (hperm.mem_iff.mp hc)
  · intro x hx
    obtain ⟨c, hc, hk⟩ := dedupeLoop_covers Concept.conceptId [] (candidates data) x hx
      (List.not_mem_nil _)
    exact ⟨c, hperm.mem_iff.mpr hc, hk⟩

end Concepts

namespace Merge

/-- C6 (as stated, refuted): the new card ("A", "B") and the existing card ("a", "b") are
well-formed and have different (front, back) pairs, yet the merge returns one record, not
two. -/
theorem merge_distinct_pairs_counterexample :
    ((some "A".toList, some "B".toList) : Option Str × Option Str) ≠
        (some "a".toList, some "b".toList) ∧
      ∃ out, mergeMain true batchAB (some batchLowerAB) = Except.ok out ∧ out.length = 1 :=
  ⟨by decide, _, rfl, rfl⟩

/-- C7 (scenario 5 and the failing input): new = [("A","B")] merged into existing = [("A","B")]
gives one record; but for new = [("x||y","z"), ("x","y||z")] and existing = [("x","y||z")]
the output is the single record ("x||y","z"), so the new record that has the pair of the
existing card is not kept. -/
theorem merge_separator_collision :
    (∃ out, mergeMain true batchAB (some batchAB) = Except.ok out ∧ out.length = 1) ∧
      mergeMain true batchBars (some batchBarsExisting) =
        Except.ok [{ front := "x||y".toList, back := "z".toList,
                     tags := ["security-plus".toList, "sy0-701".toList], domain := none }] :=
  ⟨⟨_, rfl, rfl⟩, rfl⟩

end Merge

namespace Flashcards

theorem bucketOf_pushTo (o : Buckets) (d d' : Str) (c : Flashcard) :
    bucketOf (pushTo o d c) d' =
      if d' = d then (bucketOf o d').map (fun b => b ++ [c]) else bucketOf o d' := by
  induction o with
  | nil => simp [bucketOf, pushTo]
  | cons e es ih =>
    unfold bucketOf pushTo at ih ⊢
    by_cases h1 : e.1 = d'
    · by_cases h2 : e.1 = d
      · have : d' = d := h1.symm.trans h2
        simp [List.find?_cons, h1, h2, this]
      · have : ¬ d' = d := fun h => h2 (h1.trans h)
        simp [List.find?_cons, h1, h2, this]
    · by_cases h2 : e.1 = d
      · simp only [List.map_cons, h2, if_true, List.find?_cons]
        have h3 : ¬ d = d' := fun h => h1 (h2.trans h)
        simp only [h3, decide_False, h2 ▸ h1]
        simpa [h2] using ih
      · simp only [List.map_cons, h2, if_false, List.find?_cons, h1, decide_False]
        simpa using ih

theorem bucketOf_append_new (o : Buckets) (d d' : Str) (c : Flashcard)
    (h : bucketOf o d = none) :
    (bucketOf (o ++ [(d, [c])]) d').getD [] =
      if d' = d then [c] else (bucketOf o d').getD [] := by
  induction o with
  | nil =>
    by_cases h1 : d = d'
    · simp [bucketOf, h1]
    · have : ¬ d' = d := fun h => h1 h.symm
      simp [bucketOf, h1, this]
  | cons e es ih =>
    unfold bucketOf at h ih ⊢
    by_cases h1 : e.1 = d
    · simp [List.find?_cons, h1] at h
    · have hrest : (match List.find? (fun e => decide (e.1 = d)) es with
          | some e => some e.2
          | none => none) = none := by
        simpa [List.find?_cons, h1] using h
      by_cases h2 : e.1 = d'
      · have : ¬ d' = d := fun h => h1 (h2.trans h)
        simp [List.find?_cons, h2, this]
      · simpa [List.find?_cons, h2] using ih hrest

theorem groupByDomain_spec (cs : List Flashcard) (o : Buckets)
    (hp : ∀ c ∈ cs, domainOf c ∉ Js.objectPrototypeKeys) :
    ∃ o', groupByDomain cs o = Except.ok o' ∧
      ∀ d, (bucketOf o' d).getD [] =
        (bucketOf o d).getD [] ++ cs.filter (fun c => decide (domainOf c = d)) := by
  induction cs generalizing o with
  | nil => exact ⟨o, rfl, by simp⟩
  | cons c cs ih =>
    have hp' : ∀ c ∈ cs, domainOf c ∉ Js.objectPrototypeKeys :=
      fun x hx => hp x (List.mem_cons_of_mem _ hx)
    unfold groupByDomain
    cases hb : bucketOf o (domainOf c) with
    | some b =>
      obtain ⟨o', ho', hspec⟩ := ih (pushTo o (domainOf c) c) hp'
      refine ⟨o', ho', ?_⟩
      intro d
      rw [hspec d, bucketOf_pushTo]
      by_cases hd : d = domainOf c
      · subst hd
        simp [hb]
      · have hd' : ¬ domainOf c = d := fun h => hd h.symm
        simp [hd, hd', List.filter_cons]
    | none =>
      simp only [if_neg (hp c (List.mem_cons_self _ _))]
      obtain ⟨o', ho', hspec⟩ := ih (o ++ [(domainOf c, [c])]) hp'
      refine ⟨o', ho', ?_⟩
      intro d
      rw [hspec d, bucketOf_append_new _ _ _ _ hb]
      by_cases hd : d = domainOf c
      · subst hd
        simp [hb]
      · have hd' : ¬ domainOf c = d := fun h => hd h.symm
        simp [hd, hd', List.filter_cons]

theorem countDomain_append (d : Str) (l₁ l₂ : List Flashcard) :
    countDomain d (l₁ ++ l₂) = countDomain d l₁ + countDomain d l₂ := by
  simp [countDomain]

theorem countDomain_le_length (d : Str) (l : List Flashcard) : countDomain d l ≤ l.length :=
  List.length_filter_le _ _

theorem countDomain_perm (d : Str) {l₁ l₂ : List Flashcard} (h : l₁.Perm l₂) :
    countDomain d l₁ = countDomain d l₂ :=
  (h.filter _).length_eq

theorem countDomain_eq_zero (d : Str) (l : List Flashcard) (h : ∀ c ∈ l, domainOf c ≠ d) :
    countDomain d l = 0 := by
  unfold countDomain
  rw [List.length_eq_zero, List.filter_eq_nil_iff]
  intro c hc
  simpa using h c hc

theorem quotaPass_length (cards : List Flashcard) (o : Buckets)
    (ho : ∀ d, (bucketOf o d).getD [] = cards.filter (fun c => decide (domainOf c = d)))
    (ds : List Str) (result : List Flashcard) (g : Rng) :
    (quotaPass o ds result g).1.length =
      result.length + (ds.map (fun d => min (targetOf d) (countDomain d cards))).sum := by
  induction ds generalizing result g with
  | nil => simp [quotaPass]
  | cons d ds ih =>
    unfold quotaPass
    rw [ih]
    have hl : (shuffle ((bucketOf o d).getD []) g).1.length = countDomain d cards := by
      rw [(shuffle_perm _ _).length_eq, ho d]
      rfl
    simp only [List.length_append, List.length_take, hl, List.map_cons, List.sum_cons]
    omega

theorem quotaPass_count (cards : List Flashcard) (o : Buckets)
    (ho : ∀ d, (bucketOf o d).getD [] = cards.filter (fun c => decide (domainOf c = d)))
    (d : Str) (ds : List Str) (result : List Flashcard) (g : Rng) :
    countDomain d (quotaPass o ds result g).1 ≤
      countDomain d result +
        (ds.map (fun e => if e = d then min (targetOf e) (countDomain e cards) else 0)).sum := by
  induction ds generalizing result g with
  | nil => simp [quotaPass]
  | cons e ds ih =>
    unfold quotaPass
    refine (ih _ _).trans ?_
    have hl : (shuffle ((bucketOf o e).getD []) g).1.length = countDomain e cards := by
      rw [(shuffle_perm _ _).length_eq, ho e]
      rfl
    rw [countDomain_append, List.map_cons, List.sum_cons, hl]
    have hpart : countDomain d ((shuffle ((bucketOf o e).getD []) g).1.take
        (min (targetOf e) (countDomain e cards))) ≤
        (if e = d then min (targetOf e) (countDomain e cards) else 0) := by
      by_cases hed : e = d
      · rw [if_pos hed]
        refine (countDomain_le_length _ _).trans ?_
        rw [List.length_take, hl]
        omega
      · rw [if_neg hed, countDomain_eq_zero]
        intro c hc
        have hc' := (shuffle_perm _ _).mem_iff.mp (List.mem_of_mem_take hc)
        rw [ho e] at hc'
        simp only [List.mem_filter, decide_eq_true_eq] at hc'
        exact fun h => hed (hc'.2.symm.trans h)
    omega

theorem fillLoop_spec (byDom : Buckets) (ds : List Str) (need : Int) (result : List Flashcard)
    (g : Rng) :
    ∃ added, (fillLoop byDom ds need result g).1 = result ++ added ∧
      (added.length : Int) ≤ max need 0 := by
  induction ds generalizing need result g with
  | nil => exact ⟨[], by simp [fillLoop], by simp⟩
  | cons d ds ih =>
    unfold fillLoop
    by_cases hn : need ≤ 0
    · rw [if_pos hn]
      exact ⟨[], by simp, by simp⟩
    · rw [if_neg hn]
      obtain ⟨added, hadd, hlen⟩ := ih
        (need - ((shuffle ((bucketOf byDom d).getD []) g).1.take need.toNat).length)
        (result ++ (shuffle ((bucketOf byDom d).getD []) g).1.take need.toNat)
        (shuffle ((bucketOf byDom d).getD []) g).2
      refine ⟨(shuffle ((bucketOf byDom d).getD []) g).1.take need.toNat ++ added, ?_, ?_⟩
      · rw [hadd, List.append_assoc]
      · have h1 : ((shuffle ((bucketOf byDom d).getD []) g).1.take need.toNat).length
            ≤ need.toNat := by
          rw [List.length_take]
          exact Nat.min_le_left _ _
        have h2 : ((need.toNat : Nat) : Int) = need := Int.toNat_of_nonneg (by omega)
        rw [List.length_append]
        push_cast
        omega

theorem surplusBuckets_ok (result cs : List Flashcard) (o : Buckets)
    (hdom : ∀ c ∈ cs, domainOf c ∈ domainOrder)
    (ho : ∀ d ∈ domainOrder, (bucketOf o d).isSome = true) :
    ∃ o', surplusBuckets result cs o = Except.ok o' := by
  induction cs generalizing o with
  | nil => exact ⟨o, rfl⟩
  | cons c cs ih =>
    have hdom' : ∀ c ∈ cs, domainOf c ∈ domainOrder :=
      fun x hx => hdom x (List.mem_cons_of_mem _ hx)
    unfold surplusBuckets
    split
    · exact ih o hdom' ho
    · cases hb : bucketOf o (domainOf c) with
      | some b =>
        apply ih _ hdom'
        intro d hd
        rw [bucketOf_pushTo]
        split
        · simpa using ho d hd
        · exact ho d hd
      | none =>
        have := ho _ (hdom c (List.mem_cons_self _ _))
        simp [hb] at this

theorem quotaSize_le (cards : List Flashcard) : quotaSize cards ≤ 300 := by
  unfold quotaSize domainOrder
  simp only [List.map_cons, List.map_nil, List.sum_cons, List.sum_nil]
  have h1 : targetOf "1".toList = 36 := by decide
  have h2 : targetOf "2".toList = 72 := by decide
  have h3 : targetOf "3".toList = 39 := by decide
  have h4 : targetOf "4".toList = 87 := by decide
  have h5 : targetOf "5".toList = 66 := by decide
  rw [h1, h2, h3, h4, h5]
  omega

theorem quota_sum_single (cards : List Flashcard) (d : Str) (hd : d ∈ domainOrder) :
    (domainOrder.map
      (fun e => if e = d then min (targetOf e) (countDomain e cards) else 0)).sum =
      min (targetOf d) (countDomain d cards) := by
  unfold domainOrder at hd ⊢
  simp only [List.mem_cons, List.mem_singleton, List.not_mem_nil, or_false] at hd
  rcases hd with rfl | rfl | rfl | rfl | rfl <;> simp

/-- What `stratifiedSample` does on cards whose domains are all among "1".."5": it returns,
its result is no longer than the larger of `totalTarget` and 300, and the cards of domain `d`
number at most the quota taken from that domain plus the shortfall that the top-up fills. -/
theorem stratifiedSample_spec (cards : List Flashcard) (totalTarget : Int) (g : Rng)
    (hdom : ∀ c ∈ cards, domainOf c ∈ domainOrder) :
    ∃ res g', stratifiedSample cards totalTarget g = Except.ok (res, g') ∧
      (res.length : Int) ≤ max totalTarget 300 ∧
      ∀ d ∈ domainOrder, (countDomain d res : Int) ≤
        min (targetOf d) (countDomain d cards) + max (totalTarget - quotaSize cards) 0 := by
  have hproto : ∀ c ∈ cards, domainOf c ∉ Js.objectPrototypeKeys := by
    intro c hc hmem
    have h1 := hdom c hc
    revert hmem
    unfold domainOrder at h1
    simp only [List.mem_cons, List.mem_singleton, List.not_mem_nil, or_false] at h1
    rcases h1 with h | h | h | h | h <;> rw [h] <;> decide
  obtain ⟨o, hgroup, hspec⟩ := groupByDomain_spec cards [] hproto
  have ho : ∀ d, (bucketOf o d).getD [] = cards.filter (fun c => decide (domainOf c = d)) := by
    intro d
    rw [hspec d]
    simp [bucketOf]
  have hqlen := quotaPass_length cards o ho domainOrder [] g
  have hqs : (quotaPass o domainOrder [] g).1.length = quotaSize cards := by
    rw [hqlen]
    simp [quotaSize]
  have hqle := quotaSize_le cards
  have hqcount : ∀ d ∈ domainOrder, countDomain d (quotaPass o domainOrder [] g).1 ≤
      min (targetOf d) (countDomain d cards) := by
    intro d hd
    have := quotaPass_count cards o ho d domainOrder [] g
    rw [quota_sum_single cards d hd] at this
    simpa [countDomain] using this
  unfold stratifiedSample
  simp only [hgroup]
  by_cases hneed : totalTarget - ((quotaPass o domainOrder [] g).1.length : Int) > 0
  · rw [if_pos hneed]
    obtain ⟨byDom, hby⟩ := surplusBuckets_ok (quotaPass o domainOrder [] g).1 cards emptyByDom
      hdom (by decide)
    simp only [hby]
    obtain ⟨added, hadd, hlen⟩ := fillLoop_spec byDom fillOrder
      (totalTarget - ((quotaPass o domainOrder [] g).1.length : Int))
      (quotaPass o domainOrder [] g).1 (quotaPass o domainOrder [] g).2
    refine ⟨(shuffle (fillLoop byDom fillOrder
        (totalTarget - ((quotaPass o domainOrder [] g).1.length : Int))
        (quotaPass o domainOrder [] g).1 (quotaPass o domainOrder [] g).2).1
      (fillLoop byDom fillOrder
        (totalTarget - ((quotaPass o domainOrder [] g).1.length : Int))
        (quotaPass o domainOrder [] g).1 (quotaPass o domainOrder [] g).2).2).1, _, rfl, ?_, ?_⟩
    · rw [(shuffle_perm _ _).length_eq, hadd, List.length_append, hqs]
      rw [hqs] at hlen hneed
      push_cast
      omega
    · intro d hd
      rw [countDomain_perm d (shuffle_perm _ _), hadd, countDomain_append]
      have h1 := hqcount d hd
      have h2 := countDomain_le_length d added
      rw [hqs] at hlen
      push_cast
      omega
  · rw [if_neg hneed]
    refine ⟨(shuffle (quotaPass o domainOrder [] g).1 (quotaPass o domainOrder [] g).2).1,
      _, rfl, ?_, ?_⟩
    · rw [(shuffle_perm _ _).length_eq, hqs]
      omega
    · intro d hd
      rw [countDomain_perm d (shuffle_perm _ _)]
      have h1 := hqcount d hd
      omega

/-- C8 (as stated, refuted): from 37 cards of domain "1" the sample of 300 holds 37 cards of
domain "1", one more than the target 36 of that domain. -/
theorem stratifiedSample_cap_counterexample :
    (∀ c ∈ domainOneCards 37, domainOf c ∈ domainOrder) ∧
      targetOf "1".toList = 36 ∧
      (match stratifiedSample (domainOneCards 37) 300 zeroRng with
        | Except.ok r => some (countDomain "1".toList r.1)
        | Except.error _ => none) = some 37 := by
  decide!

/-- C8 (amended): on cards whose domains are among "1".."5", `stratifiedSample(cards, 300)`
returns, and the number of its cards of domain `d` is at most the target of `d` plus the
shortfall of the quota pass (300 minus the number of cards the per-domain quotas take); so
the target bounds the count whenever every domain holds at least its target. -/
theorem stratifiedSample_domain_count (cards : List Flashcard) (g : Rng)
    (hdom : ∀ c ∈ cards, domainOf c ∈ domainOrder) :
    ∃ res g', stratifiedSample cards 300 g = Except.ok (res, g') ∧
      ∀ d ∈ domainOrder, countDomain d res ≤ targetOf d + (300 - quotaSize cards) := by
  obtain ⟨res, g', hres, _, hcount⟩ := stratifiedSample_spec cards 300 g hdom
  refine ⟨res, g', hres, ?_⟩
  intro d hd
  have h := hcount d hd
  have hq := quotaSize_le cards
  have hmin : min (targetOf d) (countDomain d cards) ≤ targetOf d := Nat.min_le_left _ _
  push_cast at h
  omega

theorem stratifiedSample_domain_count_witness :
    (∀ c ∈ domainOneCards 3, domainOf c ∈ domainOrder) ∧
      ∃ res g', stratifiedSample (domainOneCards 3) 300 zeroRng = Except.ok (res, g') ∧
        ∀ d ∈ domainOrder, countDomain d res ≤ targetOf d + (300 - quotaSize (domainOneCards 3)) :=
  ⟨by decide, stratifiedSample_domain_count (domainOneCards 3) zeroRng (by decide)⟩

/-- C9 (as stated, refuted): with `totalTarget = 1` and two cards of domain "1" the sample
holds two cards. -/
theorem stratifiedSample_total_counterexample :
    (∀ c ∈ domainOneCards 2, domainOf c ∈ domainOrder) ∧
      (match stratifiedSample (domainOneCards 2) 1 zeroRng with
        | Except.ok r => some r.1.length
        | Except.error _ => none) = some 2 := by
  decide!

/-- C9 (amended): on cards whose domains are among "1".."5", `stratifiedSample(cards,
totalTarget)` returns at most `max(totalTarget, 300)` cards, hence at most `totalTarget`
cards whenever `totalTarget` is at least 300, the sum of the per-domain targets. -/
theorem stratifiedSample_total_count (cards : List Flashcard) (totalTarget : Int) (g : Rng)
    (hdom : ∀ c ∈ cards, domainOf c ∈ domainOrder) :
    ∃ res g', stratifiedSample cards totalTarget g = Except.ok (res, g') ∧
      (res.length : Int) ≤ max totalTarget 300 := by
  obtain ⟨res, g', hres, hlen, _⟩ := stratifiedSample_spec cards totalTarget g hdom
  exact ⟨res, g', hres, hlen⟩

theorem stratifiedSample_total_count_witness :
    (∀ c ∈ domainOneCards 3, domainOf c ∈ domainOrder) ∧
      ∃ res g', stratifiedSample (domainOneCards 3) 2 zeroRng = Except.ok (res, g') ∧
        (res.length : Int) ≤ max 2 300 :=
  ⟨by decide, stratifiedSample_total_count (domainOneCards 3) 2 zeroRng (by decide)⟩

/-- C10 (failing input): for the old-schema corpus with the domain "Threats", one section and
one bullet, `fromDomainsSchema` yields a card whose domain is "Threats", and
`stratifiedSample(dedupe(cards), 300)` throws instead of returning a card list, whatever the
digest function and the random draws. -/
theorem stratifiedSample_throws_on_named_domain (sha1 : Str → Str) (g : Rng) :
    (fromDomainsSchema sha1 threatsCorpus).map domainOf = ["Threats".toList] ∧
      ∃ e, stratifiedSample (dedupe (fromDomainsSchema sha1 threatsCorpus)) 300 g =
        Except.error e :=
  ⟨rfl, _, rfl⟩

end Flashcards

/-! ## Domain inference, curated definitions and sampling -/

namespace Flashcards

/-- C11 (failing input): for the corpus with the domain "Threats" the card that
`fromDomainsSchema` produces has the domain "Threats", which is none of "1".."5", whatever
the digest function. -/
theorem fromDomainsSchema_domain_is_name (sha1 : Str → Str) :
    (fromDomainsSchema sha1 threatsCorpus).map (fun c => c.domain) = [some "Threats".toList] ∧
      "Threats".toList ∉ domainOrder :=
  ⟨rfl, by decide⟩

theorem isDomainDigit_iff (d : Str) : isDomainDigit d = true ↔ d ∈ domainOrder := by
  constructor
  · intro h
    unfold isDomainDigit at h
    match d, h with
    | [c], h =>
      simp only [decide_eq_true_eq] at h
      have h1 : 49 ≤ c.toNat := h.1
      have h2 : c.toNat ≤ 53 := h.2
      have hc : c = Char.ofNat c.toNat := (Char.ofNat_toNat c).symm
      have : c.toNat = 49 ∨ c.toNat = 50 ∨ c.toNat = 51 ∨ c.toNat = 52 ∨ c.toNat = 53 := by omega
      rcases this with e | e | e | e | e <;> rw [hc, e] <;> decide
  · intro h
    unfold domainOrder at h
    simp only [List.mem_cons, List.mem_singleton, List.not_mem_nil, or_false] at h
    rcases h with rfl | rfl | rfl | rfl | rfl <;> decide

theorem keyword_domains_in_range : ∀ e ∈ DOMAIN_KEYWORDS, e.1 ∈ domainOrder := by
  decide!

theorem inferFromKeywords_mem (text : Str) : inferFromKeywords text ∈ domainOrder := by
  unfold inferFromKeywords
  split
  · rename_i e he
    exact keyword_domains_in_range e (List.mem_of_find?_eq_some he)
  · decide

theorem inferDomain_mem (card : CardObj) : inferDomain card ∈ domainOrder := by
  unfold inferDomain
  split
  · split
    · rename_i d _ h
      exact (isDomainDigit_iff d).mp h
    · exact inferFromKeywords_mem _
  · exact inferFromKeywords_mem _

theorem cardOfRecord_domain (sha1 : Str → Str) (r : RawCard) (c : Flashcard)
    (h : cardOfRecord sha1 r = some c) : ∃ d ∈ domainOrder, c.domain = some d := by
  unfold cardOfRecord at h
  split at h
  · exact Option.noConfusion h
  · have hc := Option.some.inj h
    subst hc
    refine ⟨_, ?_, rfl⟩
    split
    · split
      · rename_i d _ hd
        exact (isDomainDigit_iff d).mp hd
      · exact inferDomain_mem _
    · exact inferDomain_mem _

/-- C12: `inferDomain` returns the explicit domain whenever it is one of "1".."5" (the text of
the number or string), it returns one of "1".."5" for every card, and every card produced
by `fromCardArray` has a domain among "1".."5". -/
theorem inferDomain_explicit_and_range :
    (∀ (card : CardObj) (d : Str), card.domain = some d → d ∈ domainOrder →
        inferDomain card = d) ∧
      (∀ card : CardObj, inferDomain card ∈ domainOrder) ∧
      (∀ (sha1 : Str → Str) (data : List (Option RawCard)),
        ∀ c ∈ fromCardArray sha1 data, ∃ d ∈ domainOrder, c.domain = some d) := by
  refine ⟨?_, inferDomain_mem, ?_⟩
  · intro card d hd hmem
    unfold inferDomain
    rw [hd]
    simp only [(isDomainDigit_iff d).mpr hmem, if_true]
  · intro sha1 data
    induction data with
    | nil => intro c hc; simp [fromCardArray] at hc
    | cons x xs ih =>
      intro c hc
      cases x with
      | none => exact ih c (by simpa [fromCardArray] using hc)
      | some r =>
        unfold fromCardArray at hc
        cases hr : cardOfRecord sha1 r with
        | none =>
          rw [hr] at hc
          exact ih c hc
        | some card =>
          rw [hr] at hc
          rcases List.mem_cons.mp hc with rfl | hc'
          · exact cardOfRecord_domain sha1 r _ hr
          · exact ih c hc'

theorem inferDomain_explicit_and_range_witness :
    inferDomain { question := some "Q".toList, answer := some "A".toList,
                  domain := some "3".toList } = "3".toList :=
  inferDomain_explicit_and_range.1 _ _ rfl (by decide)

theorem find?_by_key {β : Type} (p : β → Bool) (lookup : Str → β) (l : List (Str × β))
    (h : ∀ e ∈ l, lookup e.1 = e.2) :
    (l.find? (fun e => p e.2)).map Prod.fst =
      (l.map Prod.fst).find? (fun d => p (lookup d)) := by
  induction l with
  | nil => rfl
  | cons x xs ih =>
    have hx := h x (List.mem_cons_self _ _)
    have ih' := ih (fun e he => h e (List.mem_cons_of_mem _ he))
    by_cases hp : p x.2 = true
    · have hp' : p (lookup x.1) = true := by rw [hx]; exact hp
      simp only [List.find?_cons, List.map_cons, hp, hp', Option.map_some']
    · have hp' : ¬ p (lookup x.1) = true := by rw [hx]; exact hp
      simp only [List.find?_cons, List.map_cons, hp, hp']
      exact ih'

theorem keywordsOf_entry : ∀ e ∈ DOMAIN_KEYWORDS, keywordsOf e.1 = e.2 := by
  decide!

theorem keyword_table_order : DOMAIN_KEYWORDS.map Prod.fst = inferenceOrder := by
  decide!

theorem inferFromKeywords_eq (text : Str) : inferFromKeywords text = firstMatchingDomain text := by
  have h := find?_by_key (fun k => Js.testWords k text) keywordsOf DOMAIN_KEYWORDS keywordsOf_entry
  rw [keyword_table_order] at h
  unfold inferFromKeywords firstMatchingDomain
  rw [← h]
  cases DOMAIN_KEYWORDS.find? (fun e => Js.testWords e.2 text) <;> rfl

/-- C13: for every card without an explicit domain among "1".."5", `inferDomain` returns the
first domain, in the order 2, 3, 4, 5, 1, whose keyword pattern matches the text
question + " " + answer, and "1" when none matches; the record of scenario 3 (front
"What is phishing?") gets the domain "2" from `fromCardArray`. -/
theorem inferDomain_first_match (card : CardObj)
    (h : ∀ d, card.domain = some d → d ∉ domainOrder) :
    inferDomain card =
        firstMatchingDomain (card.question.getD [] ++ " ".toList ++ card.answer.getD []) ∧
      ∀ sha1 : Str → Str,
        (fromCardArray sha1 [some phishingRecord]).map (fun c => c.domain) =
          [some "2".toList] := by
  refine ⟨?_, fun _ => rfl⟩
  unfold inferDomain
  cases hd : card.domain with
  | none => exact inferFromKeywords_eq _
  | some d =>
    have hnot : isDomainDigit d = false := by
      rw [← Bool.not_eq_true, isDomainDigit_iff]
      exact h d hd
    simp only [hnot]
    exact inferFromKeywords_eq _

theorem inferDomain_first_match_witness :
    (∀ d, ({ question := some "What is a firewall?".toList,
             answer := some "A device that filters traffic.".toList,
             domain := some "7".toList } : CardObj).domain = some d → d ∉ domainOrder) ∧
      inferDomain { question := some "What is a firewall?".toList,
                    answer := some "A device that filters traffic.".toList,
                    domain := some "7".toList } =
        firstMatchingDomain ("What is a firewall?".toList ++ " ".toList ++
          "A device that filters traffic.".toList) :=
  ⟨by decide, (inferDomain_first_match
    { question := some "What is a firewall?".toList,
      answer := some "A device that filters traffic.".toList,
      domain := some "7".toList } (by decide)).1⟩

end Flashcards

namespace Concepts

/-- C14 (as stated, refuted): on the corpus of scenario 1 `buildConceptDictionary` returns no
concept and counts the bullet as skipped: the definition part of the bullet holds no verb
of the fixed set of `hasVerb`. -/
theorem buildConceptDictionary_scenario_one_counterexample :
    hasVerb "the assurance that a party cannot deny having performed an action.".toList = false ∧
      (buildConceptDictionary compareCodeUnits scenarioOneCorpus).1 = [] ∧
      (buildConceptDictionary compareCodeUnits scenarioOneCorpus).2.skippedQuality = 1 := by
  decide!

theorem scenarioOne_state :
    scenarioOneCorpus.domains.foldl stepDomain {} =
      { byTermKey := [],
        stats := { totalBullets := 1, skippedQuality := 1, ruleA := 0, ruleB := 0,
                   curated := 0 } } := by
  decide!

theorem scenarioOneWithVerb_state :
    scenarioOneWithVerb.domains.foldl stepDomain {} =
      { byTermKey := [nonRepudiationConcept],
        stats := { totalBullets := 1, skippedQuality := 0, ruleA := 1, ruleB := 0,
                   curated := 0 } } := by
  decide!

/-- C14 (amended): for every host string comparison, `buildConceptDictionary` returns no
concept for the corpus whose only bullet is "Non-repudiation - the assurance that a party
cannot deny having performed an action." (the bullet is counted in `skippedQuality`); for
the bullet "Non-repudiation - the assurance that a party is unable to deny having performed
an action.", whose definition holds the verb "is", it returns exactly one concept, with
conceptId "non-repudiation", the curated definition and confidence "high". -/
theorem buildConceptDictionary_scenario_one (localeCompare : Str → Str → Int) :
    buildConceptDictionary localeCompare scenarioOneCorpus =
        ([], { totalBullets := 1, skippedQuality := 1, ruleA := 0, ruleB := 0, curated := 0 }) ∧
      (buildConceptDictionary localeCompare scenarioOneWithVerb).1 = [nonRepudiationConcept] ∧
      nonRepudiationConcept.conceptId = "non-repudiation".toList ∧
      nonRepudiationConcept.source.confidence = "high".toList := by
  unfold buildConceptDictionary
  simp only [scenarioOne_state, scenarioOneWithVerb_state]
  exact ⟨rfl, rfl, rfl, rfl⟩

theorem curated_texts_nonempty : ∀ e ∈ CURATED_DEFINITIONS, e.2 ≠ [] := by
  decide!

theorem extractBullet_ruleA {dd sn b : Str} {c : Concept}
    (h : extractBullet dd sn b = Extraction.ruleA c) :
    (∃ text, c.definition = definitionOr (getCurated c.conceptId) text) ∧
      c.source.confidence = "high".toList := by
  unfold extractBullet at h
  simp only at h
  split at h
  · exact Extraction.noConfusion h
  · split at h
    · split at h
      · exact Extraction.noConfusion h
      · have hc := Extraction.ruleA.inj h
        subst hc
        dsimp only
        exact ⟨⟨_, rfl⟩, rfl⟩
    · split at h
      · split at h
        · exact Extraction.noConfusion h
        · split at h
          · exact Extraction.noConfusion h
          · split at h
            · exact Extraction.noConfusion h
            · split at h
              · exact Extraction.noConfusion h
              · split at h
                · exact Extraction.noConfusion h
                · exact Extraction.noConfusion h
      · exact Extraction.noConfusion h

theorem extractBullet_ruleB {dd sn b : Str} {c : Concept}
    (h : extractBullet dd sn b = Extraction.ruleB c) :
    c.definition = definitionOr (getCurated c.conceptId) (Js.trim b) ∧
      c.source.confidence =
        (if (getCurated c.conceptId).isSome then "high".toList
         else if (Js.trim b).length > 60 then "high".toList else "medium".toList) := by
  unfold extractBullet at h
  simp only at h
  split at h
  · exact Extraction.noConfusion h
  · split at h
    · split at h
      · exact Extraction.noConfusion h
      · exact Extraction.noConfusion h
    · split at h
      · split at h
        · exact Extraction.noConfusion h
        · split at h
          · exact Extraction.noConfusion h
          · split at h
            · exact Extraction.noConfusion h
            · split at h
              · exact Extraction.noConfusion h
              · split at h
                · exact Extraction.noConfusion h
                · have hc := Extraction.ruleB.inj h
                  subst hc
                  dsimp only
                  exact ⟨rfl, rfl⟩
      · exact Extraction.noConfusion h

theorem sectionConcept_some {dd : Str} {s : RawSection} {c : Concept}
    (h : sectionConcept dd s = some c) :
    getCurated c.conceptId = some c.definition ∧ c.source.confidence = "high".toList := by
  unfold sectionConcept at h
  split at h
  · exact Option.noConfusion h
  · split at h
    · rename_i cur hcur
      have hc := Option.some.inj h
      subst hc
      dsimp only
      exact ⟨hcur, rfl⟩
    · exact Option.noConfusion h

/-- Where a candidate comes from: the title of a section, or a bullet of a section through
rule A or rule B. -/
theorem mem_candidates {data : RawCorpus} {c : Concept} (h : c ∈ candidates data) :
    ∃ d ∈ data.domains, ∃ s ∈ d.sections,
      sectionConcept (d.domain_num ++ ".0".toList) s = some c ∨
      ∃ b ∈ s.bullets,
        extractBullet (d.domain_num ++ ".0".toList) s.section_num b = Extraction.ruleA c ∨
        extractBullet (d.domain_num ++ ".0".toList) s.section_num b = Extraction.ruleB c := by
  unfold candidates at h
  simp only [List.mem_flatMap] at h
  obtain ⟨d, hd, s, hs, hc⟩ := h
  refine ⟨d, hd, s, hs, ?_⟩
  unfold sectionCandidates at hc
  rcases List.mem_append.mp hc with h1 | h1
  · left
    simpa [Option.mem_toList] using h1
  · right
    obtain ⟨b, hb, hbc⟩ := List.mem_filterMap.mp h1
    refine ⟨b, hb, ?_⟩
    unfold bulletCandidate at hbc
    split at hbc
    · exact Option.noConfusion hbc
    · rename_i x hx
      split at hbc
      · left
        rw [hx, Option.some.inj hbc]
      · exact Option.noConfusion hbc
    · rename_i x hx
      split at hbc
      · right
        rw [hx, Option.some.inj hbc]
      · exact Option.noConfusion hbc

theorem mem_buildConceptDictionary {localeCompare : Str → Str → Int} {data : RawCorpus}
    {c : Concept} (h : c ∈ (buildConceptDictionary localeCompare data).1) :
    c ∈ candidates data := by
  unfold buildConceptDictionary at h
  simp only at h
  rw [(List.perm_insertionSort _ _).mem_iff, byTermKey_eq_dedupe] at h
  exact (dedupeLoop_sublist _ _ _).subset h

/-- C15 (as stated, refuted): the dash-form bullet "Air gap - a network that is isolated from
other networks." has 57 characters and its slug has no curated definition, yet the concept
extracted from it has confidence "high", not "medium". -/
theorem confidence_dash_counterexample :
    (buildConceptDictionary compareCodeUnits shortDashCorpus).1 = [airGapConcept] ∧
      getCurated airGapConcept.conceptId = none ∧
      "Air gap - a network that is isolated from other networks.".toList.length = 57 ∧
      airGapConcept.source.confidence = "high".toList ∧
      airGapConcept.source.confidence ≠ "medium".toList := by
  decide!

/-- C15 (amended): every concept of the output whose conceptId has no curated definition was
extracted from a bullet; if the dash form (rule A) produced it, its confidence is "high"
whatever the length of the bullet; if the copula form (rule B) produced it, its confidence
is "high" when the trimmed bullet is longer than 60 characters and "medium" otherwise. -/
theorem confidence_without_curated (localeCompare : Str → Str → Int) (data : RawCorpus)
    (c : Concept) (hc : c ∈ (buildConceptDictionary localeCompare data).1)
    (hcur : getCurated c.conceptId = none) :
    ∃ d ∈ data.domains, ∃ s ∈ d.sections, ∃ b ∈ s.bullets,
      (extractBullet (d.domain_num ++ ".0".toList) s.section_num b = Extraction.ruleA c ∧
        c.source.confidence = "high".toList) ∨
      (extractBullet (d.domain_num ++ ".0".toList) s.section_num b = Extraction.ruleB c ∧
        c.source.confidence =
          if (Js.trim b).length > 60 then "high".toList else "medium".toList) := by
  obtain ⟨d, hd, s, hs, hor⟩ := mem_candidates (mem_buildConceptDictionary hc)
  refine ⟨d, hd, s, hs, ?_⟩
  rcases hor with hsec | ⟨b, hb, hA | hB⟩
  · have := (sectionConcept_some hsec).1
    rw [hcur] at this
    exact Option.noConfusion this
  · exact ⟨b, hb, Or.inl ⟨hA, (extractBullet_ruleA hA).2⟩⟩
  · refine ⟨b, hb, Or.inr ⟨hB, ?_⟩⟩
    have h2 := (extractBullet_ruleB hB).2
    rw [hcur] at h2
    exact h2

theorem confidence_without_curated_witness :
    airGapConcept ∈ (buildConceptDictionary compareCodeUnits shortDashCorpus).1 ∧
      getCurated airGapConcept.conceptId = none ∧
      ∃ d ∈ shortDashCorpus.domains, ∃ s ∈ d.sections, ∃ b ∈ s.bullets,
        (extractBullet (d.domain_num ++ ".0".toList) s.section_num b =
            Extraction.ruleA airGapConcept ∧
          airGapConcept.source.confidence = "high".toList) ∨
        (extractBullet (d.domain_num ++ ".0".toList) s.section_num b =
            Extraction.ruleB airGapConcept ∧
          airGapConcept.source.confidence =
            if (Js.trim b).length > 60 then "high".toList else "medium".toList) :=
  ⟨by decide!, by decide!,
    confidence_without_curated compareCodeUnits shortDashCorpus airGapConcept
      (by decide!) (by decide!)⟩

/-- C16: for every concept of the output, if `getCurated` finds a definition for its
conceptId, the definition of the concept is that curated definition and its confidence is
"high", whether the concept came from a section title, a dash-form bullet or a copula-form
bullet. -/
theorem curated_definition_overrides (localeCompare : Str → Str → Int) (data : RawCorpus)
    (c : Concept) (curated : Definition)
    (hc : c ∈ (buildConceptDictionary localeCompare data).1)
    (hcur : getCurated c.conceptId = some curated) :
    c.definition = curated ∧ c.source.confidence = "high".toList := by
  obtain ⟨d, _, s, _, hor⟩ := mem_candidates (mem_buildConceptDictionary hc)
  rcases hor with hsec | ⟨b, _, hA | hB⟩
  · have h1 := sectionConcept_some hsec
    rw [hcur] at h1
    exact ⟨(Option.some.inj h1.1).symm, h1.2⟩
  · obtain ⟨⟨text, htext⟩, hconf⟩ := extractBullet_ruleA hA
    rw [hcur] at htext
    exact ⟨htext, hconf⟩
  · obtain ⟨hdef, hconf⟩ := extractBullet_ruleB hB
    rw [hcur] at hdef hconf
    exact ⟨hdef, hconf⟩

theorem curated_definition_overrides_witness :
    nonRepudiationConcept ∈ (buildConceptDictionary compareCodeUnits scenarioOneWithVerb).1 ∧
      getCurated nonRepudiationConcept.conceptId =
        some (Definition.text
          "Non-repudiation is the assurance that a party cannot deny having sent or received a message or performed an action.".toList) ∧
      nonRepudiationConcept.definition =
        Definition.text
          "Non-repudiation is the assurance that a party cannot deny having sent or received a message or performed an action.".toList ∧
      nonRepudiationConcept.source.confidence = "high".toList :=
  ⟨by decide!, by decide!,
    curated_definition_overrides compareCodeUnits scenarioOneWithVerb nonRepudiationConcept _
      (by decide!) (by decide!)⟩

/-- C17 (failing inputs): the slug of each of the five curated keys that hold a hyphen and a
blank finds nothing, although the table has a text for the key itself; for every other key
of the table the lookup of its slug finds the text of the key. -/
theorem getCurated_unreachable_keys :
    (∀ k ∈ unreachableCuratedKeys,
        getCurated (toKebab k) = none ∧ (curatedAt k).isSome = true) ∧
      (∀ e ∈ CURATED_DEFINITIONS, e.1 ∉ unreachableCuratedKeys →
        getCurated (toKebab e.1) = some (Definition.text e.2)) := by
  decide!

/-- C18 (as stated, refuted): the distinct curated keys "cloud-based security" and
"cloud based security" have the same slug. -/
theorem toKebab_curated_collision :
    "cloud-based security".toList ≠ "cloud based security".toList ∧
      (curatedAt "cloud-based security".toList).isSome = true ∧
      (curatedAt "cloud based security".toList).isSome = true ∧
      toKebab "cloud-based security".toList = toKebab "cloud based security".toList := by
  decide!

/-- C18 (amended): two distinct keys of the curated table that `toKebab` maps to the same
conceptId carry the same definition, and the only conceptId shared by distinct keys is
"cloud-based-security". -/
theorem toKebab_curated_collisions_agree :
    ∀ e ∈ CURATED_DEFINITIONS, ∀ f ∈ CURATED_DEFINITIONS,
      toKebab e.1 = toKebab f.1 → e.1 ≠ f.1 →
        e.2 = f.2 ∧ toKebab e.1 = "cloud-based-security".toList := by
  decide!

theorem toKebab_curated_collisions_agree_witness :
    (curatedAt "cloud-based security".toList).map
        (fun d => decide (some d = curatedAt "cloud based security".toList)) = some true ∧
      toKebab "cloud-based security".toList = "cloud-based-security".toList :=
  ⟨by decide!,
    (toKebab_curated_collisions_agree
      ("cloud-based security".toList,
        "Cloud-based security refers to security controls and services delivered from the cloud, often centralized and managed by the provider.".toList)
      (by decide!)
      ("cloud based security".toList,
        "Cloud-based security refers to security controls and services delivered from the cloud, often centralized and managed by the provider.".toList)
      (by decide!) (by decide!) (by decide!)).2⟩

end Concepts

namespace Questions

theorem bankKey_dmarc (ca term : Str) (h : Js.toLowerCase term = "dmarc".toList) :
    bankKey ca (some term) = "dmarc".toList := by
  have hne : term ≠ [] := by
    rintro rfl
    exact absurd h (by decide)
  unfold bankKey termOr
  simp only [hne, if_false, h]
  decide

theorem distractorPool_dmarc (ca term : Str) (all : List Str)
    (h : Js.toLowerCase term = "dmarc".toList) :
    distractorPool ca all (some term) = ["SPF".toList, "DKIM".toList, "S/MIME".toList] := by
  unfold distractorPool
  simp only [bankKey_dmarc ca term h]
  have hfind : DISTRACTOR_BANK.find?
      (fun e => Js.includes "dmarc".toList e.1 ||
        Js.includes "dmarc".toList (Js.replaceSpaces [' '] e.1)) =
      some ("dmarc".toList, ["SPF".toList, "DKIM".toList, "S/MIME".toList]) := by
    decide!
  rw [hfind]
  rfl

/-- C19: when the extracted term is "dmarc" in any letter case and the correct answer is
none of "SPF", "DKIM", "S/MIME", `getDistractors` returns, for every corpus and every random
stream, a permutation of the three strings "SPF", "DKIM", "S/MIME". -/
theorem getDistractors_dmarc (correctAnswer term : Str) (allAnswers : List Str) (g : Rng)
    (hterm : Js.toLowerCase term = "dmarc".toList)
    (hca : correctAnswer ∉ ["SPF".toList, "DKIM".toList, "S/MIME".toList]) :
    (getDistractors correctAnswer allAnswers (some term) g).1.Perm
      ["SPF".toList, "DKIM".toList, "S/MIME".toList] := by
  have hfilter : (["SPF".toList, "DKIM".toList, "S/MIME".toList] : List Str).filter
      (fun x => !decide (x ∈ [correctAnswer])) =
      ["SPF".toList, "DKIM".toList, "S/MIME".toList] := by
    rw [List.filter_eq_self]
    intro a ha
    simp only [List.mem_singleton, Bool.not_eq_true', decide_eq_false_iff_not]
    rintro rfl
    exact hca ha
  have hperm := shuffle_perm (["SPF".toList, "DKIM".toList, "S/MIME".toList] : List Str) g
  have hpick : (pickRandom ["SPF".toList, "DKIM".toList, "S/MIME".toList] 3 [correctAnswer] g).1 =
      (shuffle (["SPF".toList, "DKIM".toList, "S/MIME".toList] : List Str) g).1 := by
    unfold pickRandom
    simp only [hfilter]
    exact List.take_of_length_le (by rw [hperm.length_eq]; decide)
  have hlen : (pickRandom ["SPF".toList, "DKIM".toList, "S/MIME".toList] 3
      [correctAnswer] g).1.length = 3 := by
    rw [hpick, hperm.length_eq]
    rfl
  unfold getDistractors
  simp only [distractorPool_dmarc correctAnswer term allAnswers hterm, hlen,
    Nat.lt_irrefl, if_false]
  rw [List.take_of_length_le (by rw [hlen]), hpick]
  exact hperm

theorem getDistractors_dmarc_witness :
    Js.toLowerCase "DMarc".toList = "dmarc".toList ∧
      "An email authentication policy".toList ∉
        ["SPF".toList, "DKIM".toList, "S/MIME".toList] ∧
      (getDistractors "An email authentication policy".toList smallCorpus
        (some "DMarc".toList) zeroRng).1.Perm
        ["SPF".toList, "DKIM".toList, "S/MIME".toList] :=
  ⟨by decide, by decide,
    getDistractors_dmarc "An email authentication policy".toList "DMarc".toList smallCorpus
      zeroRng (by decide) (by decide)⟩

end Questions

namespace Flashcards

theorem quotaPass_nodup (cards : List Flashcard) (o : Buckets)
    (ho : ∀ d, (bucketOf o d).getD [] = cards.filter (fun c => decide (domainOf c = d)))
    (hnd : cards.Nodup) (ds : List Str) (hds : ds.Nodup) (result : List Flashcard) (g : Rng)
    (hres : result.Nodup) (hin : ∀ c ∈ result, c ∈ cards ∧ domainOf c ∉ ds) :
    (quotaPass o ds result g).1.Nodup ∧ ∀ c ∈ (quotaPass o ds result g).1, c ∈ cards := by
  induction ds generalizing result g with
  | nil => exact ⟨by simpa [quotaPass] using hres, fun c hc => (hin c (by simpa [quotaPass] using hc)).1⟩
  | cons d ds ih =>
    rw [List.nodup_cons] at hds
    unfold quotaPass
    have hpiece : ∀ c ∈ (shuffle ((bucketOf o d).getD []) g).1.take
        (min (targetOf d) (shuffle ((bucketOf o d).getD []) g).1.length),
        c ∈ cards ∧ domainOf c = d := by
      intro c hc
      have hc' := (shuffle_perm _ _).mem_iff.mp (List.mem_of_mem_take hc)
      rw [ho d] at hc'
      simpa using hc'
    have hpnd : ((shuffle ((bucketOf o d).getD []) g).1.take
        (min (targetOf d) (shuffle ((bucketOf o d).getD []) g).1.length)).Nodup := by
      apply List.Nodup.sublist (List.take_sublist _ _)
      rw [(shuffle_perm _ _).nodup_iff, ho d]
      exact hnd.filter _
    apply ih hds.2
    · rw [List.nodup_append]
      refine ⟨hres, hpnd, ?_⟩
      intro c hc1 hc2
      exact (hin c hc1).2 ((hpiece c hc2).2 ▸ List.mem_cons_self _ _)
    · intro c hc
      rcases List.mem_append.mp hc with h1 | h1
      · exact ⟨(hin c h1).1, fun h => (hin c h1).2 (List.mem_cons_of_mem _ h)⟩
      · exact ⟨(hpiece c h1).1, fun h => hds.1 ((hpiece c h1).2 ▸ h)⟩

theorem surplusBuckets_spec (result cs : List Flashcard) (o : Buckets)
    (hdom : ∀ c ∈ cs, domainOf c ∈ domainOrder)
    (ho : ∀ d ∈ domainOrder, (bucketOf o d).isSome = true) :
    ∃ o', surplusBuckets result cs o = Except.ok o' ∧
      ∀ d, (bucketOf o' d).getD [] =
        (bucketOf o d).getD [] ++
          cs.filter (fun c => !result.any (fun r => decide (r.id = c.id)) &&
            decide (domainOf c = d)) := by
  induction cs generalizing o with
  | nil => exact ⟨o, rfl, by simp⟩
  | cons c cs ih =>
    have hdom' : ∀ c ∈ cs, domainOf c ∈ domainOrder :=
      fun x hx => hdom x (List.mem_cons_of_mem _ hx)
    unfold surplusBuckets
    by_cases hany : result.any (fun r => decide (r.id = c.id)) = true
    · rw [if_pos hany]
      obtain ⟨o', ho', hspec⟩ := ih o hdom' ho
      refine ⟨o', ho', ?_⟩
      intro d
      rw [hspec d, List.filter_cons]
      simp [hany]
    · rw [if_neg hany]
      cases hb : bucketOf o (domainOf c) with
      | some b =>
        obtain ⟨o', ho', hspec⟩ := ih (pushTo o (domainOf c) c) hdom' (by
          intro d hd
          rw [bucketOf_pushTo]
          split
          · simpa using ho d hd
          · exact ho d hd)
        refine ⟨o', ho', ?_⟩
        intro d
        rw [hspec d, bucketOf_pushTo]
        have hany' : result.any (fun r => decide (r.id = c.id)) = false := by
          simpa using hany
        by_cases hd : d = domainOf c
        · subst hd
          simp [hb, List.filter_cons, hany']
        · have hd' : ¬ domainOf c = d := fun h => hd h.symm
          simp [hd, hd', List.filter_cons]
      | none =>
        have := ho _ (hdom c (List.mem_cons_self _ _))
        simp [hb] at this

theorem emptyByDom_buckets (d : Str) : (bucketOf emptyByDom d).getD [] = [] := by
  have hall : ∀ e ∈ emptyByDom, e.2 = [] := by decide
  unfold bucketOf
  cases hf : emptyByDom.find? (fun e => decide (e.1 = d)) with
  | none => rfl
  | some e => exact hall e (List.mem_of_find?_eq_some hf)

theorem fillLoop_exact (byDom : Buckets)
    (hnd : ∀ d, ((bucketOf byDom d).getD []).Nodup)
    (hdomain : ∀ d, ∀ c ∈ (bucketOf byDom d).getD [], domainOf c = d)
    (ds : List Str) (hds : ds.Nodup) (need : Int) (result : List Flashcard) (g : Rng) :
    ∃ added, (fillLoop byDom ds need result g).1 = result ++ added ∧
      added.length = min need.toNat ((ds.map (fun d => ((bucketOf byDom d).getD []).length)).sum) ∧
      added.Nodup ∧
      ∀ c ∈ added, domainOf c ∈ ds ∧ c ∈ (bucketOf byDom (domainOf c)).getD [] := by
  induction ds generalizing need result g with
  | nil => exact ⟨[], by simp [fillLoop], by simp, List.nodup_nil, by simp⟩
  | cons d ds ih =>
    rw [List.nodup_cons] at hds
    unfold fillLoop
    by_cases hn : need ≤ 0
    · rw [if_pos hn]
      refine ⟨[], by simp, ?_, List.nodup_nil, by simp⟩
      have : need.toNat = 0 := by omega
      simp [this]
    · rw [if_neg hn]
      obtain ⟨added, hadd, hlen, hand, hmem⟩ := ih hds.2
        (need - ((shuffle ((bucketOf byDom d).getD []) g).1.take need.toNat).length)
        (result ++ (shuffle ((bucketOf byDom d).getD []) g).1.take need.toNat)
        (shuffle ((bucketOf byDom d).getD []) g).2
      have hperm := shuffle_perm ((bucketOf byDom d).getD []) g
      have hpiece : ∀ c ∈ (shuffle ((bucketOf byDom d).getD []) g).1.take need.toNat,
          c ∈ (bucketOf byDom d).getD [] :=
        fun c hc => hperm.mem_iff.mp (List.mem_of_mem_take hc)
      refine ⟨(shuffle ((bucketOf byDom d).getD []) g).1.take need.toNat ++ added, ?_, ?_, ?_, ?_⟩
      · rw [hadd, List.append_assoc]
      · rw [List.length_append, hlen, List.length_take, hperm.length_eq, List.map_cons,
          List.sum_cons]
        omega
      · rw [List.nodup_append]
        refine ⟨List.Nodup.sublist (List.take_sublist _ _) (hperm.nodup_iff.mpr (hnd d)), hand, ?_⟩
        intro c hc1 hc2
        have h1 := hdomain d c (hpiece c hc1)
        have h2 := (hmem c hc2).1
        rw [h1] at h2
        exact hds.1 h2
      · intro c hc
        rcases List.mem_append.mp hc with h1 | h1
        · have hd := hdomain d c (hpiece c h1)
          refine ⟨hd ▸ List.mem_cons_self _ _, ?_⟩
          rw [hd]
          exact hpiece c h1
        · exact ⟨List.mem_cons_of_mem _ (hmem c h1).1, (hmem c h1).2⟩

theorem sum_fillOrder_filter (p : Flashcard → Bool) (l : List Flashcard)
    (hdom : ∀ c ∈ l, domainOf c ∈ domainOrder) :
    (fillOrder.map (fun d =>
      (l.filter (fun c => p c && decide (domainOf c = d))).length)).sum =
      (l.filter p).length := by
  induction l with
  | nil => simp [fillOrder]
  | cons c cs ih =>
    have ih' := ih (fun x hx => hdom x (List.mem_cons_of_mem _ hx))
    have hc := hdom c (List.mem_cons_self _ _)
    unfold fillOrder at ih' ⊢
    unfold domainOrder at hc
    simp only [List.map_cons, List.map_nil, List.sum_cons, List.sum_nil, List.filter_cons] at ih' ⊢
    simp only [List.mem_cons, List.mem_singleton, List.not_mem_nil, or_false] at hc
    by_cases hp : p c = true
    · rcases hc with h | h | h | h | h <;> simp [hp, h] at ih' ⊢ <;> omega
    · have hp' : p c = false := by simpa using hp
      simp only [hp', Bool.false_and]
      simpa using ih'

theorem not_prototype_of_domain (d : Str) (h : d ∈ domainOrder) :
    d ∉ Js.objectPrototypeKeys := by
  unfold domainOrder at h
  simp only [List.mem_cons, List.mem_singleton, List.not_mem_nil, or_false] at h
  rcases h with h | h | h | h | h <;> rw [h] <;> decide

theorem any_id_iff_mem (cards taken : List Flashcard)
    (hid : (cards.map (fun c => c.id)).Nodup) (hsub : ∀ c ∈ taken, c ∈ cards)
    (c : Flashcard) (hc : c ∈ cards) :
    taken.any (fun r => decide (r.id = c.id)) = true ↔ c ∈ taken := by
  rw [List.any_eq_true]
  constructor
  · rintro ⟨r, hr, hrc⟩
    have : r = c := List.inj_on_of_nodup_map hid (hsub r hr) hc (by simpa using hrc)
    exact this ▸ hr
  · intro h
    exact ⟨c, h, by simp⟩

theorem unused_length (cards taken : List Flashcard)
    (hid : (cards.map (fun c => c.id)).Nodup) (htnd : taken.Nodup)
    (hsub : ∀ c ∈ taken, c ∈ cards) :
    (cards.filter (fun c => !taken.any (fun r => decide (r.id = c.id)))).length + taken.length =
      cards.length := by
  have hnd : cards.Nodup := List.Nodup.of_map _ hid
  have hperm : (cards.filter (fun c => taken.any (fun r => decide (r.id = c.id)))).Perm taken := by
    rw [List.perm_ext_iff_of_nodup (hnd.filter _) htnd]
    intro a
    rw [List.mem_filter]
    constructor
    · rintro ⟨ha, hany⟩
      exact (any_id_iff_mem cards taken hid hsub a ha).mp hany
    · intro ha
      exact ⟨hsub a ha, (any_id_iff_mem cards taken hid hsub a (hsub a ha)).mpr ha⟩
  have hsplit := List.length_eq_countP_add_countP
    (fun c => taken.any (fun r => decide (r.id = c.id))) cards
  rw [List.countP_eq_length_filter, List.countP_eq_length_filter, hperm.length_eq] at hsplit
  have heq : (cards.filter (fun a => decide ¬taken.any (fun r => decide (r.id = a.id)) = true)) =
      cards.filter (fun c => !taken.any (fun r => decide (r.id = c.id))) := by
    congr 1
    funext a
    cases taken.any (fun r => decide (r.id = a.id)) <;> rfl
  rw [heq] at hsplit
  omega

/-- C20: for cards whose domains are among "1".."5" (an absent domain counting as "1") and
whose ids are pairwise distinct, and for every random stream, `stratifiedSample(cards, 300)`
returns; no card occurs twice in the result; the result is a permutation of a sublist of the
input; and its length is exactly min(300, number of cards). -/
theorem stratifiedSample_exact (cards : List Flashcard) (g : Rng)
    (hdom : ∀ c ∈ cards, domainOf c ∈ domainOrder)
    (hid : (cards.map (fun c => c.id)).Nodup) :
    ∃ res g', stratifiedSample cards 300 g = Except.ok (res, g') ∧
      res.Nodup ∧
      (∃ sub, List.Sublist sub cards ∧ res.Perm sub) ∧
      res.length = min 300 cards.length := by
  have hnd : cards.Nodup := List.Nodup.of_map _ hid
  obtain ⟨o, hgroup, hspec⟩ := groupByDomain_spec cards []
    (fun c hc => not_prototype_of_domain _ (hdom c hc))
  have ho : ∀ d, (bucketOf o d).getD [] = cards.filter (fun c => decide (domainOf c = d)) := by
    intro d
    rw [hspec d]
    simp [bucketOf]
  have hQ := quotaPass_nodup cards o ho hnd domainOrder (by decide) [] g List.nodup_nil
    (by intro c hc; simp at hc)
  have hqs : (quotaPass o domainOrder [] g).1.length = quotaSize cards := by
    rw [quotaPass_length cards o ho domainOrder [] g]
    simp [quotaSize]
  have hqle := quotaSize_le cards
  have hQle : (quotaPass o domainOrder [] g).1.length ≤ cards.length :=
    (List.subperm_of_subset hQ.1 hQ.2).length_le
  have hfinish : ∀ (final : List Flashcard) (g1 : Rng), final.Nodup → (∀ c ∈ final, c ∈ cards) →
      final.length = min 300 cards.length →
      (shuffle final g1).1.Nodup ∧
        (∃ sub, List.Sublist sub cards ∧ (shuffle final g1).1.Perm sub) ∧
        (shuffle final g1).1.length = min 300 cards.length := by
    intro final g1 hfn hfs hfl
    have hp := shuffle_perm final g1
    have hn : (shuffle final g1).1.Nodup := hp.nodup_iff.mpr hfn
    obtain ⟨sub, hsp, hss⟩ := List.subperm_of_subset hn (fun c hc => hfs c (hp.mem_iff.mp hc))
    exact ⟨hn, ⟨sub, hss, hsp.symm⟩, by rw [hp.length_eq, hfl]⟩
  unfold stratifiedSample
  simp only [hgroup]
  by_cases hneed : (300 : Int) - ((quotaPass o domainOrder [] g).1.length : Int) > 0
  · rw [if_pos hneed]
    obtain ⟨byDom, hby, hbspec⟩ := surplusBuckets_spec (quotaPass o domainOrder [] g).1 cards
      emptyByDom hdom (by decide)
    have hU : ∀ d, (bucketOf byDom d).getD [] =
        cards.filter (fun c =>
          !(quotaPass o domainOrder [] g).1.any (fun r => decide (r.id = c.id)) &&
            decide (domainOf c = d)) := by
      intro d
      rw [hbspec d, emptyByDom_buckets, List.nil_append]
    simp only [hby]
    obtain ⟨added, hadd, hlen, hand, hmem⟩ := fillLoop_exact byDom
      (fun d => by rw [hU d]; exact hnd.filter _)
      (fun d c hc => by
        rw [hU d] at hc
        have h2 := (List.mem_filter.mp hc).2
        simp only [Bool.and_eq_true, decide_eq_true_eq] at h2
        exact h2.2)
      fillOrder (by decide) (300 - ((quotaPass o domainOrder [] g).1.length : Int))
      (quotaPass o domainOrder [] g).1 (quotaPass o domainOrder [] g).2
    have hsum : (fillOrder.map (fun d => ((bucketOf byDom d).getD []).length)).sum =
        (cards.filter (fun c =>
          !(quotaPass o domainOrder [] g).1.any (fun r => decide (r.id = c.id)))).length := by
      simp only [hU]
      exact sum_fillOrder_filter _ cards hdom
    have hunused := unused_length cards (quotaPass o domainOrder [] g).1 hid hQ.1 hQ.2
    have haddmem : ∀ c ∈ added, c ∈ cards ∧ c ∉ (quotaPass o domainOrder [] g).1 := by
      intro c hc
      have h1 := (hmem c hc).2
      rw [hU] at h1
      have h2 := List.mem_filter.mp h1
      refine ⟨h2.1, ?_⟩
      intro hin
      have h3 := (any_id_iff_mem cards _ hid hQ.2 c h2.1).mpr hin
      simp [h3] at h2
    have hres := hfinish
      (fillLoop byDom fillOrder (300 - ((quotaPass o domainOrder [] g).1.length : Int))
        (quotaPass o domainOrder [] g).1 (quotaPass o domainOrder [] g).2).1
      (fillLoop byDom fillOrder (300 - ((quotaPass o domainOrder [] g).1.length : Int))
        (quotaPass o domainOrder [] g).1 (quotaPass o domainOrder [] g).2).2
      (by
        rw [hadd, List.nodup_append]
        exact ⟨hQ.1, hand, fun c h1 h2 => (haddmem c h2).2 h1⟩)
      (by
        intro c hc
        rw [hadd] at hc
        rcases List.mem_append.mp hc with h1 | h1
        · exact hQ.2 c h1
        · exact (haddmem c h1).1)
      (by
        rw [hadd, List.length_append, hlen, hsum]
        omega)
    exact ⟨_, _, rfl, hres⟩
  · rw [if_neg hneed]
    have hres := hfinish (quotaPass o domainOrder [] g).1 (quotaPass o domainOrder [] g).2
      hQ.1 hQ.2 (by omega)
    exact ⟨_, _, rfl, hres⟩

theorem stratifiedSample_exact_witness :
    (∀ c ∈ domainOneCards 3, domainOf c ∈ domainOrder) ∧
      ((domainOneCards 3).map (fun c => c.id)).Nodup ∧
      ∃ res g', stratifiedSample (domainOneCards 3) 300 zeroRng = Except.ok (res, g') ∧
        res.Nodup ∧
        (∃ sub, List.Sublist sub (domainOneCards 3) ∧ res.Perm sub) ∧
        res.length = min 300 (domainOneCards 3).length :=
  ⟨by decide, by decide,
    stratifiedSample_exact (domainOneCards 3) zeroRng (by decide) (by decide)⟩

end Flashcards

/-! ## The final sampling of the question generator -/

namespace Questions

theorem questionDigit_mem (d : Str) (h : isDomainDigit d = true) : d ∈ domainOrder := by
  unfold isDomainDigit at h
  match d, h with
  | [c], h =>
    simp only [decide_eq_true_eq] at h
    have h1 : 49 ≤ c.toNat := h.1
    have h2 : c.toNat ≤ 53 := h.2
    have hc : c = Char.ofNat c.toNat := (Char.ofNat_toNat c).symm
    have : c.toNat = 49 ∨ c.toNat = 50 ∨ c.toNat = 51 ∨ c.toNat = 52 ∨ c.toNat = 53 := by omega
    rcases this with e | e | e | e | e <;> rw [hc, e] <;> decide

theorem questionKeywords_in_range : ∀ e ∈ DOMAIN_KEYWORDS, e.1 ∈ domainOrder := by
  decide!

theorem questionDomain_mem (card : Card) : inferDomain card ∈ domainOrder := by
  have hkw : ∀ text : Str,
      (match DOMAIN_KEYWORDS.find? (fun e => Js.testWords e.2 text) with
        | some e => e.1
        | none => "1".toList) ∈ domainOrder := by
    intro text
    split
    · rename_i e he
      exact questionKeywords_in_range e (List.mem_of_find?_eq_some he)
    · decide
  unfold inferDomain
  split
  · split
    · rename_i d _ h
      exact questionDigit_mem d h.2
    · exact hkw _
  · exact hkw _

theorem questionBucket_pushTo (o : Buckets) (d e : Str) (c : Obj) :
    bucketOf (pushTo o d c) e =
      if e = d then (bucketOf o e).map (fun b => b ++ [c]) else bucketOf o e := by
  induction o with
  | nil => simp [bucketOf, pushTo]
  | cons x xs ih =>
    unfold bucketOf pushTo at ih ⊢
    by_cases h1 : x.1 = e
    · by_cases h2 : x.1 = d
      · have : e = d := h1.symm.trans h2
        simp [List.find?_cons, h1, h2, this]
      · have : ¬ e = d := fun h => h2 (h1.trans h)
        simp [List.find?_cons, h1, h2, this]
    · by_cases h2 : x.1 = d
      · simp only [List.map_cons, h2, if_true, List.find?_cons]
        have h3 : ¬ d = e := fun h => h1 (h2.trans h)
        simp only [h3, decide_False, h2 ▸ h1]
        simpa [h2] using ih
      · simp only [List.map_cons, h2, if_false, List.find?_cons, h1, decide_False]
        simpa using ih

theorem questionBucket_append_new (o : Buckets) (d e : Str) (c : Obj)
    (h : bucketOf o d = none) :
    (bucketOf (o ++ [(d, [c])]) e).getD [] =
      if e = d then [c] else (bucketOf o e).getD [] := by
  induction o with
  | nil =>
    by_cases h1 : d = e
    · simp [bucketOf, h1]
    · have : ¬ e = d := fun h => h1 h.symm
      simp [bucketOf, h1, this]
  | cons x xs ih =>
    unfold bucketOf at h ih ⊢
    by_cases h1 : x.1 = d
    · simp [List.find?_cons, h1] at h
    · have hrest : (match List.find? (fun y => decide (y.1 = d)) xs with
          | some y => some y.2
          | none => none) = none := by
        simpa [List.find?_cons, h1] using h
      by_cases h2 : x.1 = e
      · have : ¬ e = d := fun h => h1 (h2.trans h)
        simp [List.find?_cons, h2, this]
      · simpa [List.find?_cons, h2] using ih hrest

theorem questionDomain_not_prototype (d : Str) (h : d ∈ domainOrder) :
    d ∉ Js.objectPrototypeKeys := by
  unfold domainOrder at h
  simp only [List.mem_cons, List.mem_singleton, List.not_mem_nil, or_false] at h
  rcases h with h | h | h | h | h <;> rw [h] <;> decide

theorem questionGroup_spec (cs : List Obj) (o : Buckets)
    (hp : ∀ c ∈ cs, domainOf c ∉ Js.objectPrototypeKeys) :
    ∃ o', groupByDomain cs o = Except.ok o' ∧
      ∀ d, (bucketOf o' d).getD [] =
        (bucketOf o d).getD [] ++ cs.filter (fun c => decide (domainOf c = d)) := by
  induction cs generalizing o with
  | nil => exact ⟨o, rfl, by simp⟩
  | cons c cs ih =>
    have hp' : ∀ c ∈ cs, domainOf c ∉ Js.objectPrototypeKeys :=
      fun x hx => hp x (List.mem_cons_of_mem _ hx)
    unfold groupByDomain
    cases hb : bucketOf o (domainOf c) with
    | some b =>
      obtain ⟨o', ho', hspec⟩ := ih (pushTo o (domainOf c) c) hp'
      refine ⟨o', ho', ?_⟩
      intro d
      rw [hspec d, questionBucket_pushTo]
      by_cases hd : d = domainOf c
      · subst hd
        simp [hb]
      · have hd' : ¬ domainOf c = d := fun h => hd h.symm
        simp [hd, hd', List.filter_cons]
    | none =>
      simp only [if_neg (hp c (List.mem_cons_self _ _))]
      obtain ⟨o', ho', hspec⟩ := ih (o ++ [(domainOf c, [c])]) hp'
      refine ⟨o', ho', ?_⟩
      intro d
      rw [hspec d, questionBucket_append_new _ _ _ _ hb]
      by_cases hd : d = domainOf c
      · subst hd
        simp [hb]
      · have hd' : ¬ domainOf c = d := fun h => hd h.symm
        simp [hd, hd', List.filter_cons]

theorem questionQuota_length (mcqs : List Obj) (o : Buckets)
    (ho : ∀ d, (bucketOf o d).getD [] = mcqs.filter (fun c => decide (domainOf c = d)))
    (ds : List Str) (sampled : List Obj) (g : Rng) :
    (quotaPass o ds sampled g).1.length =
      sampled.length + (ds.map (fun d =>
        min (targetOf d) (mcqs.filter (fun c => decide (domainOf c = d))).length)).sum := by
  induction ds generalizing sampled g with
  | nil => simp [quotaPass]
  | cons d ds ih =>
    unfold quotaPass
    rw [ih]
    have hl : (shuffle ((bucketOf o d).getD []) g).1.length =
        (mcqs.filter (fun c => decide (domainOf c = d))).length := by
      rw [(shuffle_perm _ _).length_eq, ho d]
    simp only [List.length_append, List.length_take, hl, List.map_cons, List.sum_cons]
    omega

theorem questionQuota_nodup (mcqs : List Obj) (o : Buckets)
    (ho : ∀ d, (bucketOf o d).getD [] = mcqs.filter (fun c => decide (domainOf c = d)))
    (hnd : mcqs.Nodup) (ds : List Str) (hds : ds.Nodup) (sampled : List Obj) (g : Rng)
    (hres : sampled.Nodup) (hin : ∀ c ∈ sampled, c ∈ mcqs ∧ domainOf c ∉ ds) :
    (quotaPass o ds sampled g).1.Nodup ∧ ∀ c ∈ (quotaPass o ds sampled g).1, c ∈ mcqs := by
  induction ds generalizing sampled g with
  | nil =>
    exact ⟨by simpa [quotaPass] using hres,
      fun c hc => (hin c (by simpa [quotaPass] using hc)).1⟩
  | cons d ds ih =>
    rw [List.nodup_cons] at hds
    unfold quotaPass
    have hpiece : ∀ c ∈ (shuffle ((bucketOf o d).getD []) g).1.take
        (min (targetOf d) (shuffle ((bucketOf o d).getD []) g).1.length),
        c ∈ mcqs ∧ domainOf c = d := by
      intro c hc
      have hc' := (shuffle_perm _ _).mem_iff.mp (List.mem_of_mem_take hc)
      rw [ho d] at hc'
      simpa using hc'
    have hpnd : ((shuffle ((bucketOf o d).getD []) g).1.take
        (min (targetOf d) (shuffle ((bucketOf o d).getD []) g).1.length)).Nodup := by
      apply List.Nodup.sublist (List.take_sublist _ _)
      rw [(shuffle_perm _ _).nodup_iff, ho d]
      exact hnd.filter _
    apply ih hds.2
    · rw [List.nodup_append]
      refine ⟨hres, hpnd, ?_⟩
      intro c hc1 hc2
      exact (hin c hc1).2 ((hpiece c hc2).2 ▸ List.mem_cons_self _ _)
    · intro c hc
      rcases List.mem_append.mp hc with h1 | h1
      · exact ⟨(hin c h1).1, fun h => (hin c h1).2 (List.mem_cons_of_mem _ h)⟩
      · exact ⟨(hpiece c h1).1, fun h => hds.1 ((hpiece c h1).2 ▸ h)⟩

theorem questionDomains_partition (l : List Obj) (hdom : ∀ c ∈ l, domainOf c ∈ domainOrder) :
    (domainOrder.map (fun d => (l.filter (fun c => decide (domainOf c = d))).length)).sum =
      l.length := by
  induction l with
  | nil => simp [domainOrder]
  | cons c cs ih =>
    have ih' := ih (fun x hx => hdom x (List.mem_cons_of_mem _ hx))
    have hc := hdom c (List.mem_cons_self _ _)
    unfold domainOrder at ih' hc ⊢
    simp only [List.map_cons, List.map_nil, List.sum_cons, List.sum_nil, List.filter_cons,
      List.length_cons] at ih' ⊢
    simp only [List.mem_cons, List.mem_singleton, List.not_mem_nil, or_false] at hc
    rcases hc with h | h | h | h | h <;> simp [h] at ih' ⊢ <;> omega

theorem questionQuota_le (l : List Obj) (hdom : ∀ c ∈ l, domainOf c ∈ domainOrder) :
    (domainOrder.map (fun d =>
      min (targetOf d) (l.filter (fun c => decide (domainOf c = d))).length)).sum ≤
        min 295 l.length := by
  have hp := questionDomains_partition l hdom
  have t1 : targetOf "1".toList = 35 := by decide
  have t2 : targetOf "2".toList = 71 := by decide
  have t3 : targetOf "3".toList = 38 := by decide
  have t4 : targetOf "4".toList = 86 := by decide
  have t5 : targetOf "5".toList = 65 := by decide
  unfold domainOrder at hp ⊢
  simp only [List.map_cons, List.map_nil, List.sum_cons, List.sum_nil, t1, t2, t3, t4, t5]
    at hp ⊢
  omega

theorem any_ref_iff_mem (mcqs taken : List Obj)
    (hid : (mcqs.map (fun c => c.ref)).Nodup) (hsub : ∀ c ∈ taken, c ∈ mcqs)
    (c : Obj) (hc : c ∈ mcqs) :
    taken.any (fun s => decide (s.ref = c.ref)) = true ↔ c ∈ taken := by
  rw [List.any_eq_true]
  constructor
  · rintro ⟨r, hr, hrc⟩
    have : r = c := List.inj_on_of_nodup_map hid (hsub r hr) hc (by simpa using hrc)
    exact this ▸ hr
  · intro h
    exact ⟨c, h, by simp⟩

theorem remaining_length (mcqs taken : List Obj)
    (hid : (mcqs.map (fun c => c.ref)).Nodup) (htnd : taken.Nodup)
    (hsub : ∀ c ∈ taken, c ∈ mcqs) :
    (mcqs.filter (fun q => !taken.any (fun s => decide (s.ref = q.ref)))).length + taken.length =
      mcqs.length := by
  have hnd : mcqs.Nodup := List.Nodup.of_map _ hid
  have hperm : (mcqs.filter (fun q => taken.any (fun s => decide (s.ref = q.ref)))).Perm taken := by
    rw [List.perm_ext_iff_of_nodup (hnd.filter _) htnd]
    intro a
    rw [List.mem_filter]
    constructor
    · rintro ⟨ha, hany⟩
      exact (any_ref_iff_mem mcqs taken hid hsub a ha).mp hany
    · intro ha
      exact ⟨hsub a ha, (any_ref_iff_mem mcqs taken hid hsub a (hsub a ha)).mpr ha⟩
  have hsplit := List.length_eq_countP_add_countP
    (fun q => taken.any (fun s => decide (s.ref = q.ref))) mcqs
  rw [List.countP_eq_length_filter, List.countP_eq_length_filter, hperm.length_eq] at hsplit
  have heq : (mcqs.filter (fun a => decide ¬taken.any (fun s => decide (s.ref = a.ref)) = true)) =
      mcqs.filter (fun q => !taken.any (fun s => decide (s.ref = q.ref))) := by
    congr 1
    funext a
    cases taken.any (fun s => decide (s.ref = a.ref)) <;> rfl
  rw [heq] at hsplit
  omega

theorem finalSample_spec (mcqs : List Obj) (g : Rng)
    (hdom : ∀ c ∈ mcqs, domainOf c ∈ domainOrder)
    (hid : (mcqs.map (fun c => c.ref)).Nodup) :
    ∃ final g', finalSample mcqs g = Except.ok (final, g') ∧
      (final.map (fun c => c.ref)).Nodup ∧ (∀ c ∈ final, c ∈ mcqs) ∧
      final.length = min 295 mcqs.length := by
  have hnd : mcqs.Nodup := List.Nodup.of_map _ hid
  obtain ⟨o, hgroup, hspec⟩ := questionGroup_spec mcqs []
    (fun c hc => questionDomain_not_prototype _ (hdom c hc))
  have ho : ∀ d, (bucketOf o d).getD [] = mcqs.filter (fun c => decide (domainOf c = d)) := by
    intro d
    rw [hspec d]
    simp [bucketOf]
  have hQ := questionQuota_nodup mcqs o ho hnd domainOrder (by decide) [] g List.nodup_nil
    (by intro c hc; simp at hc)
  have hqs := questionQuota_length mcqs o ho domainOrder [] g
  have hqle := questionQuota_le mcqs hdom
  rw [List.length_nil, Nat.zero_add] at hqs
  rw [← hqs] at hqle
  have hrefs : ∀ l : List Obj, l.Nodup → (∀ c ∈ l, c ∈ mcqs) → (l.map (fun c => c.ref)).Nodup := by
    intro l hl hsub
    refine (List.nodup_map_iff_inj_on hl).mpr ?_
    intro x hx y hy hxy
    exact List.inj_on_of_nodup_map hid (hsub x hx) (hsub y hy) hxy
  have hfinish : ∀ (final : List Obj) (g1 : Rng), final.Nodup → (∀ c ∈ final, c ∈ mcqs) →
      final.length = min 295 mcqs.length →
      ((shuffle final g1).1.map (fun c => c.ref)).Nodup ∧
        (∀ c ∈ (shuffle final g1).1, c ∈ mcqs) ∧
        (shuffle final g1).1.length = min 295 mcqs.length := by
    intro final g1 hfn hfs hfl
    have hp := shuffle_perm final g1
    have hsub : ∀ c ∈ (shuffle final g1).1, c ∈ mcqs := fun c hc => hfs c (hp.mem_iff.mp hc)
    exact ⟨hrefs _ (hp.nodup_iff.mpr hfn) hsub, hsub, by rw [hp.length_eq, hfl]⟩
  unfold finalSample
  simp only [hgroup]
  by_cases hneed : (295 : Int) - ((quotaPass o domainOrder [] g).1.length : Int) > 0
  · rw [if_pos hneed]
    have hrem := remaining_length mcqs (quotaPass o domainOrder [] g).1 hid hQ.1 hQ.2
    have hshuf := shuffle_perm
      (mcqs.filter (fun q => !(quotaPass o domainOrder [] g).1.any
        (fun s => decide (s.ref = q.ref)))) (quotaPass o domainOrder [] g).2
    have hextra : ∀ c ∈ (shuffle
        (mcqs.filter (fun q => !(quotaPass o domainOrder [] g).1.any
          (fun s => decide (s.ref = q.ref)))) (quotaPass o domainOrder [] g).2).1.take
          ((295 : Int) - ((quotaPass o domainOrder [] g).1.length : Int)).toNat,
        c ∈ mcqs ∧ c ∉ (quotaPass o domainOrder [] g).1 := by
      intro c hc
      have h1 := List.mem_filter.mp (hshuf.mem_iff.mp (List.mem_of_mem_take hc))
      refine ⟨h1.1, ?_⟩
      intro hin
      have h3 := (any_ref_iff_mem mcqs _ hid hQ.2 c h1.1).mpr hin
      simp [h3] at h1
    have hres := hfinish
      ((quotaPass o domainOrder [] g).1 ++ (shuffle
        (mcqs.filter (fun q => !(quotaPass o domainOrder [] g).1.any
          (fun s => decide (s.ref = q.ref)))) (quotaPass o domainOrder [] g).2).1.take
          ((295 : Int) - ((quotaPass o domainOrder [] g).1.length : Int)).toNat)
      (shuffle
        (mcqs.filter (fun q => !(quotaPass o domainOrder [] g).1.any
          (fun s => decide (s.ref = q.ref)))) (quotaPass o domainOrder [] g).2).2
      (by
        rw [List.nodup_append]
        refine ⟨hQ.1, ?_, fun c h1 h2 => (hextra c h2).2 h1⟩
        exact List.Nodup.sublist (List.take_sublist _ _) (hshuf.nodup_iff.mpr (hnd.filter _)))
      (by
        intro c hc
        rcases List.mem_append.mp hc with h1 | h1
        · exact hQ.2 c h1
        · exact (hextra c h1).1)
      (by
        rw [List.length_append, List.length_take, hshuf.length_eq]
        omega)
    exact ⟨_, _, rfl, hres⟩
  · rw [if_neg hneed]
    have hres := hfinish (quotaPass o domainOrder [] g).1 (quotaPass o domainOrder [] g).2
      hQ.1 hQ.2 (by omega)
    exact ⟨_, _, rfl, hres⟩

theorem generateShort_type (c : Card) (i : Nat) (s : Short) (h : generateShort c i = some s) :
    s.type = "short".toList := by
  unfold generateShort at h
  split at h
  · exact Option.noConfusion h
  · split at h
    · exact Option.noConfusion h
    · have := Option.some.inj h
      subst this
      rfl

theorem generateMcq_type_domain (c : Card) (allAnswers : List Str) (i : Nat) (g : Rng) :
    (generateMcq c allAnswers i g).1.type = "mcq".toList ∧
      (generateMcq c allAnswers i g).1.domain ∈ domainOrder :=
  ⟨rfl, questionDomain_mem c⟩

theorem refs_push (questions : List Obj) (v : Question)
    (h : questions.map (fun q => q.ref) = List.range questions.length) :
    (questions ++ [(⟨questions.length, v⟩ : Obj)]).map (fun q => q.ref) =
      List.range (questions ++ [(⟨questions.length, v⟩ : Obj)]).length := by
  rw [List.map_append, h, List.length_append, List.length_singleton, List.range_succ]
  rfl

theorem mainLoop_invariant (allAnswers : List Str) (cards : List RawCard) (i : Nat)
    (questions : List Obj) (g : Rng)
    (href : questions.map (fun q => q.ref) = List.range questions.length)
    (hq : ∀ q ∈ questions, q.val.type = "mcq".toList → domainOf q ∈ domainOrder) :
    (mainLoop allAnswers cards i questions g).1.map (fun q => q.ref) =
        List.range (mainLoop allAnswers cards i questions g).1.length ∧
      ∀ q ∈ (mainLoop allAnswers cards i questions g).1,
        q.val.type = "mcq".toList → domainOf q ∈ domainOrder := by
  induction cards generalizing i questions g with
  | nil => exact ⟨href, hq⟩
  | cons card rest ih =>
    unfold mainLoop
    split
    · rename_i q a _ _
      split
      · exact ih _ _ _ href hq
      · dsimp only
        have hm := generateMcq_type_domain
          (Card.mk card.id q a card.domain card.tags) allAnswers i g
        generalize generateMcq (Card.mk card.id q a card.domain card.tags) allAnswers i g = m
          at hm ⊢
        have hpush := refs_push questions (Question.mcq m.1) href
        have hq1 : ∀ x ∈ questions ++ [(⟨questions.length, Question.mcq m.1⟩ : Obj)],
            x.val.type = "mcq".toList → domainOf x ∈ domainOrder := by
          intro x hx hty
          rcases List.mem_append.mp hx with h1 | h1
          · exact hq x h1 hty
          · rw [List.mem_singleton] at h1
            subst h1
            exact hm.2
        split
        · rename_i short hs
          split
          · refine ih _ _ _ (refs_push _ _ hpush) ?_
            intro x hx hty
            rcases List.mem_append.mp hx with h1 | h1
            · exact hq1 x h1 hty
            · rw [List.mem_singleton] at h1
              subst h1
              have := generateShort_type _ _ _ hs
              simp only [Question.type] at hty
              rw [this] at hty
              exact absurd hty (by decide)
          · exact ih _ _ _ hpush hq1
        · exact ih _ _ _ hpush hq1
    · exact ih _ _ _ href hq

theorem generatedMcqs_spec (cards : List RawCard) (max : Int) (g : Rng) :
    ((generatedMcqs cards max g).1.map (fun q => q.ref)).Nodup ∧
      ∀ q ∈ (generatedMcqs cards max g).1,
        q.val.type = "mcq".toList ∧ domainOf q ∈ domainOrder := by
  have hinv := mainLoop_invariant (answerCorpus (Js.sliceTo cards max)) (Js.sliceTo cards max) 0
    [] g rfl (by intro q hq; simp at hq)
  unfold generatedMcqs
  dsimp only
  constructor
  · refine List.Nodup.sublist ((List.filter_sublist _).map _) ?_
    rw [hinv.1]
    exact List.nodup_range _
  · intro q hq
    have h := List.mem_filter.mp hq
    have hty : q.val.type = "mcq".toList := by simpa using h.2
    exact ⟨hty, hinv.2 q h.1 hty⟩

/-- C21: for every list of cards, every value of `max` and every random stream, `main` returns
a final list; each of its items has the type "mcq" and is one of the generated MCQs; no
generated MCQ (an object of the array `mcqs`, told apart by identity) occurs twice; and the
length of the list is min(295, number of generated MCQs). -/
theorem main_final_list (cards : List RawCard) (max : Int) (g : Rng) :
    ∃ final g', main cards max g = Except.ok (final, g') ∧
      (∀ q ∈ final, q.val.type = "mcq".toList) ∧
      (∀ q ∈ final, q ∈ (generatedMcqs cards max g).1) ∧
      (final.map (fun q => q.ref)).Nodup ∧
      final.length = min 295 (generatedMcqs cards max g).1.length := by
  have hgen := generatedMcqs_spec cards max g
  obtain ⟨final, g', hfin, hnd, hsub, hlen⟩ := finalSample_spec (generatedMcqs cards max g).1
    (generatedMcqs cards max g).2 (fun c hc => (hgen.2 c hc).2) hgen.1
  exact ⟨final, g', hfin, fun q hq => (hgen.2 q (hsub q hq)).1, hsub, hnd, hlen⟩

/-- On two cards, one of them a "What is" question that also yields a short-answer item,
`main` returns the two MCQs and not the short-answer item. -/
theorem main_two_cards :
    (main [phishingCard, hashCard] 600 zeroRng).toOption.map
        (fun r => r.1.map (fun q => (q.ref, q.val.type))) =
      some [(0, "mcq".toList), (2, "mcq".toList)] := by
  decide!

end Questions

/-! ## Practice questions, normalisation and input shapes of the merge tool -/

theorem trim_head_not_space (s : Str) (c : Char) (h : (Js.trim s).head? = some c) :
    Js.isSpace c = false := by
  have hpre : Js.trimEnd (Js.trimStart s) <+: Js.trimStart s := List.rdropWhile_prefix _ _
  obtain ⟨r, hr⟩ := hpre
  unfold Js.trim at h
  cases hu : Js.trimEnd (Js.trimStart s) with
  | nil => simp [hu] at h
  | cons x xs =>
    rw [hu] at h hr
    simp only [List.head?_cons, Option.some.injEq] at h
    subst h
    have hnot := List.head?_dropWhile_not Js.isSpace s
    have ht : List.dropWhile Js.isSpace s = x :: (xs ++ r) := by
      simpa [Js.trimStart] using hr.symm
    rw [ht] at hnot
    simpa using hnot

theorem trim_last_not_space (s : Str) (c : Char) (h : (Js.trim s).getLast? = some c) :
    Js.isSpace c = false := by
  unfold Js.trim Js.trimEnd at h
  rw [List.getLast?_reverse] at h
  have hnot := List.head?_dropWhile_not Js.isSpace (Js.trimStart s).reverse
  rw [h] at hnot
  simpa using hnot

namespace Merge

theorem presentOptions_length_le (opts : Options) : (presentOptions opts).length ≤ 4 := by
  unfold presentOptions
  exact (List.length_filterMap_le _ _).trans (by simp [order])

theorem mem_questionLoop (domain : Str) (qs : List RawQuestion) (i : Nat) (r : PracticeQuestion)
    (h : r ∈ questionLoop domain i qs) : ∃ j q, q ∈ qs ∧ questionRecord domain j q = some r := by
  induction qs generalizing i with
  | nil => simp [questionLoop] at h
  | cons q qs ih =>
    unfold questionLoop at h
    cases hq : questionRecord domain i q with
    | none =>
      rw [hq] at h
      obtain ⟨j, q', hq', hr⟩ := ih (i + 1) h
      exact ⟨j, q', List.mem_cons_of_mem _ hq', hr⟩
    | some r' =>
      rw [hq] at h
      rcases List.mem_cons.mp h with h1 | h1
      · exact ⟨i, q, List.mem_cons_self _ _, h1 ▸ hq⟩
      · obtain ⟨j, q', hq', hr⟩ := ih (i + 1) h1
        exact ⟨j, q', List.mem_cons_of_mem _ hq', hr⟩

theorem mem_practiceEntries (entries : List (Str × Option (List RawQuestion)))
    (r : PracticeQuestion) (h : r ∈ practiceEntries entries) :
    ∃ domain j q, questionRecord domain j q = some r := by
  induction entries with
  | nil => simp [practiceEntries] at h
  | cons e es ih =>
    obtain ⟨name, arr⟩ := e
    cases arr with
    | none => exact ih (by simpa [practiceEntries] using h)
    | some arr =>
      simp only [practiceEntries, List.mem_append] at h
      rcases h with h1 | h1
      · obtain ⟨j, q, _, hr⟩ := mem_questionLoop _ _ _ _ h1
        exact ⟨_, j, q, hr⟩
      · exact ih h1

theorem questionRecord_some (domain : Str) (i : Nat) (q : RawQuestion) (r : PracticeQuestion)
    (h : questionRecord domain i q = some r) :
    ∃ opts, q.options = some opts ∧ r.options = presentOptions opts ∧
      2 ≤ (presentOptions opts).length ∧
      r.correct_index =
        min (((Js.indexOf order (Js.toUpperCase (q.correct.getD "A".toList))).getD 0 : Nat) : Int)
          (((presentOptions opts).length : Int) - 1) := by
  unfold questionRecord at h
  cases ho : q.options with
  | none => simp [ho] at h
  | some opts =>
    simp only [ho] at h
    by_cases hlen : (presentOptions opts).length < 2
    · simp [hlen] at h
    · rw [if_neg hlen] at h
      simp only [Option.some.injEq] at h
      subst h
      exact ⟨opts, rfl, rfl, by omega, rfl⟩

/-- C22: every record that `extractPracticeQuestions` returns has between 2 and 4 options and
a `correct_index` with 0 ≤ correct_index < options.length; an entry without an options object
or with fewer than 2 present options gives no record; and when the correct letter is missing
or is none of A to D (in any letter case), `correct_index` is 0. -/
theorem extractPracticeQuestions_options_and_index :
    (∀ pq, ∀ r ∈ extractPracticeQuestions pq,
      2 ≤ r.options.length ∧ r.options.length ≤ 4 ∧
        0 ≤ r.correct_index ∧ r.correct_index < r.options.length) ∧
    (∀ domain i q, (∀ opts, q.options = some opts → (presentOptions opts).length < 2) →
      questionRecord domain i q = none) ∧
    (∀ domain i q r, questionRecord domain i q = some r →
      (∀ k, q.correct = some k → Js.toUpperCase k ∉ order) → r.correct_index = 0) := by
  refine ⟨?_, ?_, ?_⟩
  · intro pq r hr
    have hrec : ∃ domain j q, questionRecord domain j q = some r := by
      cases pq with
      | none => simp [extractPracticeQuestions] at hr
      | some entries => exact mem_practiceEntries entries r hr
    obtain ⟨domain, j, q, hq⟩ := hrec
    obtain ⟨opts, _, hopt, hlen, hidx⟩ := questionRecord_some domain j q r hq
    have hle := presentOptions_length_le opts
    rw [hopt, hidx]
    refine ⟨hlen, hle, ?_, ?_⟩ <;> omega
  · intro domain i q h
    unfold questionRecord
    cases ho : q.options with
    | none => rfl
    | some opts => simp [h opts ho]
  · intro domain i q r hq hk
    obtain ⟨opts, _, _, hlen, hidx⟩ := questionRecord_some domain i q r hq
    have h0 : (Js.indexOf order (Js.toUpperCase (q.correct.getD "A".toList))).getD 0 = 0 := by
      cases hc : q.correct with
      | none => decide
      | some k =>
        have hnot := hk k hc
        cases hf : Js.indexOf order (Js.toUpperCase k) with
        | none => simp [hf]
        | some n =>
          exfalso
          unfold Js.indexOf at hf
          obtain ⟨hn, hp⟩ := findIndex_some _ _ _ hf
          have : order[n] = Js.toUpperCase k := by simpa using hp
          exact hnot (this ▸ List.getElem_mem _)
    rw [hidx, h0]
    omega

theorem extractPracticeQuestions_options_and_index_witness :
    (questionRecord "2".toList 0 { options := some { A := some "Hashing".toList } } = none) ∧
      ∀ r ∈ extractPracticeQuestions (some [("Domain 2".toList, some [fullQuestion])]),
        2 ≤ r.options.length ∧ r.options.length ≤ 4 ∧
          0 ≤ r.correct_index ∧ r.correct_index < r.options.length :=
  ⟨extractPracticeQuestions_options_and_index.2.1 _ _ _ (by
      intro opts h
      simp only [Option.some.injEq] at h
      subst h
      decide),
    extractPracticeQuestions_options_and_index.1 _⟩

/-- C23 (failing input): for the entry with the options A, C and D and the correct letter C
the record has the options ["Hashing", "Masking", "Salting"] and `correct_index` 2, which is
the option D ("Salting"), while the option keyed by C is "Masking"; with all four options
present the index of the letter (given in lower case) is the index of its option. -/
theorem correct_index_shifted_by_missing_option :
    (extractPracticeQuestions (some [("Domain 2".toList, some [gappedQuestion])])).map
        (fun r => (r.options, r.correct_index, r.options[r.correct_index.toNat]?)) =
      [(["Hashing".toList, "Masking".toList, "Salting".toList], 2, some "Salting".toList)] ∧
    (gappedQuestion.options.bind (fun o => optionAt o "C".toList)) = some "Masking".toList ∧
    (extractPracticeQuestions (some [("Domain 2".toList, some [fullQuestion])])).map
        (fun r => (r.correct_index, r.options[r.correct_index.toNat]?)) =
      [(2, some "Masking".toList)] := by
  refine ⟨?_, ?_, ?_⟩ <;> decide

theorem normalize_some (c : Card) (r : Merged) (h : normalize c = some r) :
    r.front = Js.trim ((c.front.orElse (fun _ => c.question)).getD []) ∧
      r.back = Js.trim ((c.back.orElse (fun _ => c.answer)).getD []) ∧
      r.front ≠ [] ∧ r.back ≠ [] ∧
      r.domain = (match c._domain with
        | some d => if d ≠ [] then some d else none
        | none => none) ∧
      r.tags = (match c._domain with
        | some d =>
          if d ≠ [] then
            (if "domain-".toList ++ d ∈ c.tags.getD ["security-plus".toList, "sy0-701".toList]
              then c.tags.getD ["security-plus".toList, "sy0-701".toList]
              else c.tags.getD ["security-plus".toList, "sy0-701".toList] ++
                ["domain-".toList ++ d])
          else c.tags.getD ["security-plus".toList, "sy0-701".toList]
        | none => c.tags.getD ["security-plus".toList, "sy0-701".toList]) := by
  unfold normalize at h
  by_cases he : Js.trim ((c.front.orElse (fun _ => c.question)).getD []) = [] ∨
      Js.trim ((c.back.orElse (fun _ => c.answer)).getD []) = []
  · simp [he] at h
  · simp only [he, if_false] at h
    have he' := not_or.mp he
    cases hd : c._domain with
    | none =>
      simp only [hd, Option.some.injEq] at h
      subst h
      exact ⟨rfl, rfl, he'.1, he'.2, rfl, rfl⟩
    | some d =>
      by_cases hne : d ≠ []
      · rw [hd] at h
        simp only [] at h
        rw [if_pos hne, Option.some.injEq] at h
        subst h
        refine ⟨rfl, rfl, he'.1, he'.2, ?_, ?_⟩ <;> first | rfl | simp [hne]
      · rw [hd] at h
        simp only [] at h
        rw [if_neg hne, Option.some.injEq] at h
        subst h
        refine ⟨rfl, rfl, he'.1, he'.2, ?_, ?_⟩ <;> first | rfl | simp [hne]

theorem mem_mergeMain (dedupe : Bool) (newData : Root) (existing : Option Root)
    (out : List Merged) (h : mergeMain dedupe newData existing = Except.ok out)
    (r : Merged) (hr : r ∈ out) : ∃ c, normalize c = some r := by
  have hfm : ∀ data cards, normalizedCards data = Except.ok cards →
      ∀ x ∈ cards, ∃ c, normalize c = some x := by
    intro data cards hn x hx
    unfold normalizedCards at hn
    cases ht : toCards data with
    | error e => simp [ht] at hn
    | ok cs =>
      simp only [ht, Except.ok.injEq] at hn
      subst hn
      obtain ⟨c, _, hc⟩ := List.mem_filterMap.mp hx
      exact ⟨c, hc⟩
  have hsub : ∀ l : List Merged, r ∈ (if dedupe then dedupeByFrontBack l else l) → r ∈ l := by
    intro l hl
    cases dedupe with
    | false => simpa using hl
    | true => exact (dedupeLoop_sublist _ _ _).subset (by simpa [dedupeByFrontBack] using hl)
  unfold mergeMain at h
  cases hn : normalizedCards newData with
  | error e => simp [hn] at h
  | ok newCards =>
    simp only [hn] at h
    cases existing with
    | none =>
      simp only [Except.ok.injEq] at h
      subst h
      exact hfm _ _ hn r (hsub _ hr)
    | some ex =>
      simp only at h
      cases hx : normalizedCards ex with
      | error e => simp [hx] at h
      | ok exCards =>
        simp only [hx, Except.ok.injEq] at h
        subst h
        rcases List.mem_append.mp (hsub _ hr) with h1 | h1
        · exact hfm _ _ hn r h1
        · exact hfm _ _ hx r h1

/-- C24: `normalize` returns `null` exactly when the trimmed front (`front ?? question`) or the
trimmed back (`back ?? answer`) is empty; every record of the merged output has a non-empty
front and back whose first and last code units are no whitespace; and whenever `toCards`
returns, the normalisation step returns too, dropping exactly the records for which
`normalize` gives `null`. -/
theorem normalize_null_iff_empty :
    (∀ c : Card, normalize c = none ↔
      (Js.trim ((c.front.orElse (fun _ => c.question)).getD []) = [] ∨
        Js.trim ((c.back.orElse (fun _ => c.answer)).getD []) = [])) ∧
    (∀ (dedupe : Bool) (newData : Root) (existing : Option Root) (out : List Merged),
      mergeMain dedupe newData existing = Except.ok out →
      ∀ r ∈ out, r.front ≠ [] ∧ r.back ≠ [] ∧
        (∀ c, r.front.head? = some c ∨ r.front.getLast? = some c → Js.isSpace c = false) ∧
        (∀ c, r.back.head? = some c ∨ r.back.getLast? = some c → Js.isSpace c = false)) ∧
    (∀ (data : Root) (cards : List Card), toCards data = Except.ok cards →
      normalizedCards data = Except.ok (cards.filterMap normalize)) := by
  refine ⟨?_, ?_, ?_⟩
  · intro c
    constructor
    · intro h
      by_contra hne
      unfold normalize at h
      simp only [hne, if_false] at h
      cases hd : c._domain with
      | none => simp [hd] at h
      | some d =>
        simp only [hd] at h
        split at h <;> simp at h
    · intro h
      unfold normalize
      simp [h]
  · intro dedupe newData existing out h r hr
    obtain ⟨c, hc⟩ := mem_mergeMain dedupe newData existing out h r hr
    obtain ⟨hf, hb, hfne, hbne, _, _⟩ := normalize_some c r hc
    refine ⟨hfne, hbne, ?_, ?_⟩
    · intro x hx
      rw [hf] at hx
      rcases hx with hx | hx
      · exact trim_head_not_space _ _ hx
      · exact trim_last_not_space _ _ hx
    · intro x hx
      rw [hb] at hx
      rcases hx with hx | hx
      · exact trim_head_not_space _ _ hx
      · exact trim_last_not_space _ _ hx
  · intro data cards h
    unfold normalizedCards
    rw [h]

theorem normalize_null_iff_empty_witness :
    normalize { front := some "  ".toList, back := some "B".toList } = none ∧
      normalizedCards batchAB =
        Except.ok ([({ front := some "A".toList, back := some "B".toList,
                       _domain := none } : Card)].filterMap normalize) :=
  ⟨(normalize_null_iff_empty.1 _).mpr (Or.inl (by decide)),
    normalize_null_iff_empty.2.2 batchAB _ rfl⟩

theorem mem_flashcardEntries (entries : List (Str × Option (List Card))) (c : Card)
    (h : c ∈ flashcardEntries entries) :
    ∃ name arr c0, (name, some arr) ∈ entries ∧ c0 ∈ arr ∧
      c = { c0 with _domain := domainNameToNum name } := by
  induction entries with
  | nil => simp [flashcardEntries] at h
  | cons e es ih =>
    obtain ⟨name, arr⟩ := e
    cases arr with
    | none =>
      obtain ⟨n, a, c0, h1, h2, h3⟩ := ih (by simpa [flashcardEntries] using h)
      exact ⟨n, a, c0, List.mem_cons_of_mem _ h1, h2, h3⟩
    | some arr =>
      simp only [flashcardEntries, List.mem_append, List.mem_map] at h
      rcases h with ⟨c0, h0, hc⟩ | h1
      · exact ⟨name, arr, c0, List.mem_cons_self _ _, h0, hc.symm⟩
      · obtain ⟨n, a, c0, h1, h2, h3⟩ := ih h1
        exact ⟨n, a, c0, List.mem_cons_of_mem _ h1, h2, h3⟩

theorem domainNameToNum_first_digit (name N : Str) (h : domainNameToNum name = some N) :
    ∃ pre d post, name = pre ++ d :: post ∧ d.isDigit = true ∧
      (∀ x ∈ pre, x.isDigit = false) ∧ N = [d] := by
  unfold domainNameToNum at h
  induction name with
  | nil => simp at h
  | cons x xs ih =>
    by_cases hx : x.isDigit = true
    · simp only [List.find?_cons, hx, Option.map_some', Option.some.injEq] at h
      exact ⟨[], x, xs, rfl, hx, by simp, h.symm⟩
    · have hx' : x.isDigit = false := by simpa using hx
      simp only [List.find?_cons, hx'] at h
      obtain ⟨pre, d, post, h1, h2, h3, h4⟩ := ih h
      refine ⟨x :: pre, d, post, by rw [h1]; rfl, h2, ?_, h4⟩
      intro y hy
      rcases List.mem_cons.mp hy with h5 | h5
      · exact h5 ▸ hx'
      · exact h3 y h5

theorem normalizedCards_array_shape (cards : List Card) (out : List Merged)
    (h : out = (cards.map (fun c => { c with _domain := none })).filterMap normalize) :
    ∀ r ∈ out, r.domain = none ∧
      ∃ c0 ∈ cards, r.tags = c0.tags.getD ["security-plus".toList, "sy0-701".toList] := by
  intro r hr
  subst h
  obtain ⟨c, hc, hn⟩ := List.mem_filterMap.mp hr
  obtain ⟨c0, hc0, rfl⟩ := List.mem_map.mp hc
  obtain ⟨_, _, _, _, hd, ht⟩ := normalize_some _ r hn
  exact ⟨hd, c0, hc0, ht⟩

/-- C26: `toCards` throws exactly when the root is none of the accepted shapes (an array, an
object with an array `cards`, an object with an array `flashcards`, an object whose
`flashcards` is a non-array object); for an accepted root it returns one record per input
card, in input order, each being the card with the property `_domain` set. -/
theorem toCards_error_iff_unaccepted (data : Root) :
    ((∃ e, toCards data = Except.error e) ↔ acceptedShape data = false) ∧
    (acceptedShape data = true →
      ∃ cs, toCards data = Except.ok cs ∧ cs.length = (inputCards data).length ∧
        cs.map (fun c => { c with _domain := none }) =
          (inputCards data).map (fun c => { c with _domain := none })) := by
  have hentries : ∀ entries : List (Str × Option (List Card)),
      (flashcardEntries entries).map (fun c => { c with _domain := none }) =
        ((entries.filterMap (fun e => e.2)).flatten).map
          (fun c => ({ c with _domain := none } : Card)) := by
    intro entries
    induction entries with
    | nil => rfl
    | cons e es ih =>
      obtain ⟨name, arr⟩ := e
      cases arr with
      | none => simpa [flashcardEntries] using ih
      | some arr =>
        simp only [flashcardEntries, List.map_append, List.map_map, ih, List.filterMap_cons,
          List.flatten_cons]
        congr 1
  have hlen : ∀ (l₁ l₂ : List Card),
      l₁.map (fun c => ({ c with _domain := none } : Card)) =
        l₂.map (fun c => ({ c with _domain := none } : Card)) → l₁.length = l₂.length := by
    intro l₁ l₂ h
    simpa using congrArg List.length h
  cases data with
  | array cards =>
    exact ⟨by simp [toCards, acceptedShape],
      fun _ => ⟨cards.map (fun c : Card => { c with _domain := none }), by simp [toCards],
        by simp [inputCards], by simp [inputCards]⟩⟩
  | other =>
    exact ⟨by simp [toCards, acceptedShape], by simp [acceptedShape]⟩
  | object o =>
    have harr : ∀ cards : List Card, toCards (Root.object o) =
        Except.ok (cards.map (fun c => { c with _domain := none })) →
        inputCards (Root.object o) = cards → acceptedShape (Root.object o) = true →
        ((∃ e, toCards (Root.object o) = Except.error e) ↔
            acceptedShape (Root.object o) = false) ∧
          (acceptedShape (Root.object o) = true →
            ∃ cs, toCards (Root.object o) = Except.ok cs ∧
              cs.length = (inputCards (Root.object o)).length ∧
              cs.map (fun c => { c with _domain := none }) =
                (inputCards (Root.object o)).map (fun c => { c with _domain := none })) := by
      intro cards h1 h2 h3
      refine ⟨by simp [h1, h3], fun _ => ⟨_, h1, by simp [h2], by simp [h2]⟩⟩
    have hobj : ∀ entries : List (Str × Option (List Card)), toCards (Root.object o) =
        Except.ok (flashcardEntries entries) →
        inputCards (Root.object o) = (entries.filterMap (fun e => e.2)).flatten →
        acceptedShape (Root.object o) = true →
        ((∃ e, toCards (Root.object o) = Except.error e) ↔
            acceptedShape (Root.object o) = false) ∧
          (acceptedShape (Root.object o) = true →
            ∃ cs, toCards (Root.object o) = Except.ok cs ∧
              cs.length = (inputCards (Root.object o)).length ∧
              cs.map (fun c => { c with _domain := none }) =
                (inputCards (Root.object o)).map (fun c => { c with _domain := none })) := by
      intro entries h1 h2 h3
      refine ⟨by simp [h1, h3], fun _ => ⟨_, h1, ?_, ?_⟩⟩
      · rw [h2]
        exact hlen _ _ (hentries entries)
      · rw [h2]
        exact hentries entries
    have hbad : (∃ e, toCards (Root.object o) = Except.error e) →
        acceptedShape (Root.object o) = false →
        ((∃ e, toCards (Root.object o) = Except.error e) ↔
            acceptedShape (Root.object o) = false) ∧
          (acceptedShape (Root.object o) = true →
            ∃ cs, toCards (Root.object o) = Except.ok cs ∧
              cs.length = (inputCards (Root.object o)).length ∧
              cs.map (fun c => { c with _domain := none }) =
                (inputCards (Root.object o)).map (fun c => { c with _domain := none })) := by
      intro h1 h2
      exact ⟨⟨fun _ => h2, fun _ => h1⟩, fun h => by simp [h2] at h⟩
    cases hc : o.cards with
    | array cards =>
      exact harr cards (by simp [toCards, hc]) (by simp [inputCards, hc])
        (by simp [acceptedShape, hc])
    | absent =>
      cases hf : o.flashcards with
      | array cards =>
        exact harr cards (by simp [toCards, hc, hf]) (by simp [inputCards, hc, hf])
          (by simp [acceptedShape, hc, hf])
      | object entries =>
        exact hobj entries (by simp [toCards, hc, hf]) (by simp [inputCards, hc, hf])
          (by simp [acceptedShape, hc, hf])
      | absent => exact hbad (by simp [toCards, hc, hf]) (by simp [acceptedShape, hc, hf])
      | other => exact hbad (by simp [toCards, hc, hf]) (by simp [acceptedShape, hc, hf])
    | object es =>
      cases hf : o.flashcards with
      | array cards =>
        exact harr cards (by simp [toCards, hc, hf]) (by simp [inputCards, hc, hf])
          (by simp [acceptedShape, hc, hf])
      | object entries =>
        exact hobj entries (by simp [toCards, hc, hf]) (by simp [inputCards, hc, hf])
          (by simp [acceptedShape, hc, hf])
      | absent => exact hbad (by simp [toCards, hc, hf]) (by simp [acceptedShape, hc, hf])
      | other => exact hbad (by simp [toCards, hc, hf]) (by simp [acceptedShape, hc, hf])
    | other =>
      cases hf : o.flashcards with
      | array cards =>
        exact harr cards (by simp [toCards, hc, hf]) (by simp [inputCards, hc, hf])
          (by simp [acceptedShape, hc, hf])
      | object entries =>
        exact hobj entries (by simp [toCards, hc, hf]) (by simp [inputCards, hc, hf])
          (by simp [acceptedShape, hc, hf])
      | absent => exact hbad (by simp [toCards, hc, hf]) (by simp [acceptedShape, hc, hf])
      | other => exact hbad (by simp [toCards, hc, hf]) (by simp [acceptedShape, hc, hf])

theorem toCards_error_iff_unaccepted_witness :
    acceptedShape domainMapAB = true ∧
      ∃ cs, toCards domainMapAB = Except.ok cs ∧ cs.length = (inputCards domainMapAB).length ∧
        cs.map (fun c => { c with _domain := none }) =
          (inputCards domainMapAB).map (fun c => { c with _domain := none }) :=
  ⟨rfl, (toCards_error_iff_unaccepted domainMapAB).2 rfl⟩

end Merge

/-! ## Re-running the merge -/

theorem dedupeLoop_cons {α : Type} (key : α → Str) (seen : List Str) (c : α) (cs : List α) :
    dedupeLoop key seen (c :: cs) =
      if key c ∈ seen then dedupeLoop key seen cs else c :: dedupeLoop key (key c :: seen) cs := by
  rw [dedupeLoop]

theorem dedupeLoop_append {α : Type} (key : α → Str) (seen : List Str) (l₁ l₂ : List α) :
    dedupeLoop key seen (l₁ ++ l₂) =
      dedupeLoop key seen l₁ ++ dedupeLoop key (l₁.map key ++ seen) l₂ := by
  induction l₁ generalizing seen with
  | nil => rfl
  | cons a as ih =>
    simp only [List.cons_append, List.map_cons]
    rw [dedupeLoop_cons, dedupeLoop_cons]
    by_cases ha : key a ∈ seen
    · rw [if_pos ha, if_pos ha, ih]
      congr 1
      apply dedupeLoop_seen_congr
      intro k
      constructor
      · intro h
        exact List.mem_cons_of_mem _ h
      · intro h
        rcases List.mem_cons.mp h with h' | h'
        · exact List.mem_append_right _ (h' ▸ ha)
        · exact h'
    · rw [if_neg ha, if_neg ha, ih, List.cons_append]
      congr 2
      apply dedupeLoop_seen_congr
      intro k
      simp only [List.mem_append, List.mem_cons]
      tauto

theorem dedupeLoop_all_seen {α : Type} (key : α → Str) (seen : List Str) (l : List α)
    (h : ∀ x ∈ l, key x ∈ seen) : dedupeLoop key seen l = [] := by
  induction l with
  | nil => rfl
  | cons a as ih =>
    unfold dedupeLoop
    rw [if_pos (h a (List.mem_cons_self _ _))]
    exact ih (fun x hx => h x (List.mem_cons_of_mem _ hx))

theorem dedupeLoop_rerun {α : Type} (key : α → Str) (f : α → α) (hf : ∀ x, key (f x) = key x)
    (l₁ l₂ : List α) :
    dedupeLoop key [] (l₁ ++ (dedupeLoop key [] (l₁ ++ l₂)).map f) =
      dedupeLoop key [] l₁ ++ (dedupeLoop key (l₁.map key ++ []) l₂).map f := by
  have hmapkey : ∀ l : List α, (l.map f).map key = l.map key := by
    intro l
    rw [List.map_map]
    exact List.map_congr_left (fun x _ => hf x)
  rw [dedupeLoop_append key [] l₁ l₂, dedupeLoop_append key [] l₁, List.map_append,
    dedupeLoop_append key _ ((dedupeLoop key [] l₁).map f)]
  have h1 : dedupeLoop key (l₁.map key ++ []) ((dedupeLoop key [] l₁).map f) = [] := by
    apply dedupeLoop_all_seen
    intro x hx
    obtain ⟨y, hy, rfl⟩ := List.mem_map.mp hx
    rw [hf]
    simp only [List.append_nil]
    exact List.mem_map_of_mem key ((dedupeLoop_sublist key [] l₁).subset hy)
  have h2 : dedupeLoop key (((dedupeLoop key [] l₁).map f).map key ++ (l₁.map key ++ []))
      ((dedupeLoop key (l₁.map key ++ []) l₂).map f) =
      (dedupeLoop key (l₁.map key ++ []) l₂).map f := by
    apply dedupeLoop_eq_self
    · rw [hmapkey]
      exact dedupeLoop_keys_nodup key _ l₂
    · intro c hc hmem
      obtain ⟨y, hy, rfl⟩ := List.mem_map.mp hc
      rw [hf] at hmem
      have hns := dedupeLoop_key_not_seen key _ l₂ y hy
      rw [hmapkey] at hmem
      rcases List.mem_append.mp hmem with h | h
      · obtain ⟨z, hz, hzk⟩ := List.mem_map.mp h
        apply hns
        simp only [List.append_nil]
        exact hzk ▸ List.mem_map_of_mem key ((dedupeLoop_sublist key [] l₁).subset hz)
      · exact hns h
  rw [h1, h2, List.nil_append]

namespace Merge

theorem normalize_writtenCard (c : Card) (r : Merged) (h : normalize c = some r) :
    normalize { writtenCard r with _domain := none } = some (withoutDomain r) := by
  obtain ⟨hf, hb, hfne, hbne, _, _⟩ := normalize_some c r h
  have tf : Js.trim r.front = r.front := by rw [hf, trim_trim]
  have tb : Js.trim r.back = r.back := by rw [hb, trim_trim]
  unfold normalize writtenCard withoutDomain
  simp [tf, tb, hfne, hbne]

theorem normalizedCards_some (data : Root) (cards : List Merged)
    (h : normalizedCards data = Except.ok cards) : ∀ r ∈ cards, ∃ c, normalize c = some r := by
  intro r hr
  unfold normalizedCards at h
  cases ht : toCards data with
  | error e => simp [ht] at h
  | ok cs =>
    simp only [ht, Except.ok.injEq] at h
    subst h
    obtain ⟨c, _, hc⟩ := List.mem_filterMap.mp hr
    exact ⟨c, hc⟩

theorem normalizedCards_writtenRoot (out : List Merged)
    (h : ∀ r ∈ out, ∃ c, normalize c = some r) :
    normalizedCards (writtenRoot out) = Except.ok (out.map withoutDomain) := by
  unfold normalizedCards writtenRoot toCards
  simp only [Except.ok.injEq, List.map_map]
  induction out with
  | nil => rfl
  | cons r rs ih =>
    obtain ⟨c, hc⟩ := h r (List.mem_cons_self _ _)
    have := normalize_writtenCard c r hc
    simp only [List.map_cons, List.filterMap_cons, Function.comp_apply, this]
    rw [ih (fun x hx => h x (List.mem_cons_of_mem _ hx))]

theorem frontBackKey_withoutDomain (r : Merged) :
    frontBackKey (withoutDomain r) = frontBackKey r := rfl

theorem withoutDomain_of_none (l : List Merged) (h : ∀ r ∈ l, r.domain = none) :
    l.map withoutDomain = l := by
  induction l with
  | nil => rfl
  | cons r rs ih =>
    have h1 := h r (List.mem_cons_self _ _)
    rw [List.map_cons, ih (fun x hx => h x (List.mem_cons_of_mem _ hx))]
    congr 1
    cases r with
    | mk f b t d =>
      simp only at h1
      subst h1
      rfl

theorem mergeMain_rerun_lists (newData prev : Root) (newCards prior : List Merged)
    (hn : normalizedCards newData = Except.ok newCards)
    (ho : normalizedCards prev = Except.ok prior) :
    mergeMain true newData (some prev) =
        Except.ok (dedupeByFrontBack newCards ++
          dedupeLoop frontBackKey (newCards.map frontBackKey ++ []) prior) ∧
      mergeMain true newData
          (some (writtenRoot (dedupeByFrontBack newCards ++
            dedupeLoop frontBackKey (newCards.map frontBackKey ++ []) prior))) =
        Except.ok (dedupeByFrontBack newCards ++
          (dedupeLoop frontBackKey (newCards.map frontBackKey ++ []) prior).map withoutDomain) := by
  have hfirst : mergeMain true newData (some prev) =
      Except.ok (dedupeByFrontBack newCards ++
        dedupeLoop frontBackKey (newCards.map frontBackKey ++ []) prior) := by
    unfold mergeMain
    simp only [hn, ho, if_true]
    unfold dedupeByFrontBack
    rw [dedupeLoop_append]
  refine ⟨hfirst, ?_⟩
  have hall : ∀ r ∈ dedupeByFrontBack newCards ++
      dedupeLoop frontBackKey (newCards.map frontBackKey ++ []) prior,
      ∃ c, normalize c = some r := by
    intro r hr
    rcases List.mem_append.mp hr with h1 | h1
    · exact normalizedCards_some _ _ hn r ((dedupeLoop_sublist _ _ _).subset h1)
    · exact normalizedCards_some _ _ ho r ((dedupeLoop_sublist _ _ _).subset h1)
  have hw := normalizedCards_writtenRoot _ hall
  unfold mergeMain
  simp only [hn, hw, if_true]
  have hre := dedupeLoop_rerun frontBackKey withoutDomain frontBackKey_withoutDomain
    newCards prior
  rw [dedupeLoop_append frontBackKey [] newCards prior] at hre
  unfold dedupeByFrontBack
  rw [hre]

/-- C27 (as stated, refuted): merging the empty batch into a corpus in the shape of a map of
domain names gives the record with `domain` "1"; merging the empty batch into that output
gives the same record without `domain`, so the second run does not reproduce the first. -/
theorem merge_rerun_drops_domain :
    mergeMain true emptyBatch (some domainMapAB) = Except.ok [taggedAB] ∧
      mergeMain true emptyBatch (some (writtenRoot [taggedAB])) =
        Except.ok [withoutDomain taggedAB] ∧
      withoutDomain taggedAB ≠ taggedAB := by
  refine ⟨rfl, rfl, by decide⟩

/-- C27 (amended): with dedupe on, merging the same new batch into the written output `out` of
a first merge returns a list `out2` that starts with the same deduplicated records of the new
batch and continues with the remaining records of `out` in the same order, each without its
`domain`; so `out2` and `out` agree on front, back and tags everywhere, `out2` equals `out`
when no record that survived from the existing corpus has a `domain`, and merging the new
batch into `out2` returns `out2` again. -/
theorem merge_rerun_idempotent_up_to_domain (newData existing : Root) (out : List Merged)
    (h : mergeMain true newData (some existing) = Except.ok out) :
    ∃ newCards out2,
      normalizedCards newData = Except.ok newCards ∧
      mergeMain true newData (some (writtenRoot out)) = Except.ok out2 ∧
      out.take (dedupeByFrontBack newCards).length = dedupeByFrontBack newCards ∧
      out2 = dedupeByFrontBack newCards ++
        (out.drop (dedupeByFrontBack newCards).length).map withoutDomain ∧
      out2.map withoutDomain = out.map withoutDomain ∧
      ((∀ r ∈ out.drop (dedupeByFrontBack newCards).length, r.domain = none) → out2 = out) ∧
      mergeMain true newData (some (writtenRoot out2)) = Except.ok out2 := by
  cases hn : normalizedCards newData with
  | error e => simp [mergeMain, hn] at h
  | ok newCards =>
    cases ho : normalizedCards existing with
    | error e => simp [mergeMain, hn, ho] at h
    | ok prior =>
      obtain ⟨h1, h2⟩ := mergeMain_rerun_lists newData existing newCards prior hn ho
      rw [h1, Except.ok.injEq] at h
      subst h
      have hall : ∀ r ∈ dedupeByFrontBack newCards ++
          dedupeLoop frontBackKey (newCards.map frontBackKey ++ []) prior,
          ∃ c, normalize c = some r := by
        intro r hr
        rcases List.mem_append.mp hr with h3 | h3
        · exact normalizedCards_some _ _ hn r ((dedupeLoop_sublist _ _ _).subset h3)
        · exact normalizedCards_some _ _ ho r ((dedupeLoop_sublist _ _ _).subset h3)
      have hw := normalizedCards_writtenRoot _ hall
      obtain ⟨h3, h4⟩ := mergeMain_rerun_lists newData _ newCards _ hn hw
      refine ⟨newCards, _, rfl, h2, by simp, by simp, ?_, ?_, ?_⟩
      · simp only [List.map_append, List.map_map]
        congr 1
      · intro hnone
        simp only [List.drop_left] at hnone
        rw [withoutDomain_of_none _ hnone]
      · have hstep : dedupeLoop frontBackKey (newCards.map frontBackKey ++ [])
            ((dedupeByFrontBack newCards ++
              dedupeLoop frontBackKey (newCards.map frontBackKey ++ []) prior).map
                withoutDomain) =
            (dedupeLoop frontBackKey (newCards.map frontBackKey ++ []) prior).map
              withoutDomain := by
          have hx := h3
          rw [h2, Except.ok.injEq] at hx
          exact (List.append_cancel_left hx).symm
        rw [hstep] at h4
        rw [h4, List.map_map]
        rfl

theorem merge_rerun_idempotent_up_to_domain_witness :
    ∃ newCards out2,
      normalizedCards emptyBatch = Except.ok newCards ∧
      mergeMain true emptyBatch (some (writtenRoot [taggedAB])) = Except.ok out2 ∧
      [taggedAB].take (dedupeByFrontBack newCards).length = dedupeByFrontBack newCards ∧
      out2 = dedupeByFrontBack newCards ++
        ([taggedAB].drop (dedupeByFrontBack newCards).length).map withoutDomain ∧
      out2.map withoutDomain = [taggedAB].map withoutDomain ∧
      ((∀ r ∈ [taggedAB].drop (dedupeByFrontBack newCards).length, r.domain = none) →
        out2 = [taggedAB]) ∧
      mergeMain true emptyBatch (some (writtenRoot out2)) = Except.ok out2 :=
  merge_rerun_idempotent_up_to_domain emptyBatch domainMapAB [taggedAB] rfl

end Merge

namespace Flashcards

theorem mem_bulletCards (sha1 : Str → Str) (dn sn : Str) (bullets : List Str) (c : Flashcard)
    (h : c ∈ bulletCards sha1 dn sn bullets) :
    ∃ b ∈ bullets, c = bulletCard sha1 dn sn (normalizeWhitespace b) := by
  induction bullets with
  | nil => simp [bulletCards] at h
  | cons b bs ih =>
    have hrest : c ∈ bulletCards sha1 dn sn bs →
        ∃ b' ∈ b :: bs, c = bulletCard sha1 dn sn (normalizeWhitespace b') := by
      intro h'
      obtain ⟨b', hb', hc⟩ := ih h'
      exact ⟨b', List.mem_cons_of_mem _ hb', hc⟩
    unfold bulletCards at h
    dsimp only at h
    split at h
    · exact hrest h
    · split at h
      · exact hrest h
      · split at h
        · exact hrest h
        · rcases List.mem_cons.mp h with h1 | h1
          · exact ⟨b, List.mem_cons_self _ _, h1⟩
          · exact hrest h1

theorem mem_sectionCards (sha1 : Str → Str) (dn : Str) (sections : List RawSection)
    (c : Flashcard) (h : c ∈ sectionCards sha1 dn sections) :
    ∃ s ∈ sections, ∃ b ∈ s.bullets, ∃ sn, c = bulletCard sha1 dn sn (normalizeWhitespace b) := by
  induction sections with
  | nil => simp [sectionCards] at h
  | cons s ss ih =>
    simp only [sectionCards, List.mem_append] at h
    rcases h with h1 | h1
    · obtain ⟨b, hb, hc⟩ := mem_bulletCards _ _ _ _ _ h1
      exact ⟨s, List.mem_cons_self _ _, b, hb, _, hc⟩
    · obtain ⟨s', hs', rest⟩ := ih h1
      exact ⟨s', List.mem_cons_of_mem _ hs', rest⟩

theorem mem_domainCards (sha1 : Str → Str) (domains : List RawDomain) (c : Flashcard)
    (h : c ∈ domainCards sha1 domains) :
    ∃ d ∈ domains, ∃ s ∈ d.sections, ∃ b ∈ s.bullets, ∃ dn sn,
      c = bulletCard sha1 dn sn (normalizeWhitespace b) := by
  induction domains with
  | nil => simp [domainCards] at h
  | cons d ds ih =>
    simp only [domainCards, List.mem_append] at h
    rcases h with h1 | h1
    · obtain ⟨s, hs, b, hb, sn, hc⟩ := mem_sectionCards _ _ _ _ h1
      exact ⟨d, List.mem_cons_self _ _, s, hs, b, hb, _, sn, hc⟩
    · obtain ⟨d', hd', rest⟩ := ih h1
      exact ⟨d', List.mem_cons_of_mem _ hd', rest⟩

/-- C28 (as stated, refuted): for the bullet " Ransomware  encrypts files until a ransom is
paid " (leading blank, double blank, trailing blank) the answer of the card is
"Ransomware encrypts files until a ransom is paid", not the bullet character for
character. -/
theorem fromDomainsSchema_answer_not_verbatim :
    (fromDomainsSchema (fun _ => []) spacedCorpus).map (fun c => c.answer) =
        ["Ransomware encrypts files until a ransom is paid".toList] ∧
      "Ransomware encrypts files until a ransom is paid".toList ≠
        " Ransomware  encrypts files until a ransom is paid ".toList := by
  refine ⟨?_, by decide⟩
  simp only [fromDomainsSchema, spacedCorpus, domainCards, sectionCards, List.append_nil]
  rfl

/-- C28 (amended): every card that `fromDomainsSchema` produces comes from a bullet of the
corpus; its answer is the whitespace-normalised bullet (every run of whitespace collapsed to
one blank, then trimmed) and its question is "What should you know about: " followed by the
normalised bullet and "?"; the answer is the bullet verbatim when normalising leaves the
bullet unchanged. -/
theorem fromDomainsSchema_answer_normalised (sha1 : Str → Str) (data : RawData) (c : Flashcard)
    (h : c ∈ fromDomainsSchema sha1 data) :
    ∃ d ∈ data.domains, ∃ s ∈ d.sections, ∃ b ∈ s.bullets,
      c.answer = normalizeWhitespace b ∧
      c.question =
        "What should you know about: ".toList ++ normalizeWhitespace b ++ "?".toList ∧
      (normalizeWhitespace b = b → c.answer = b) := by
  obtain ⟨d, hd, s, hs, b, hb, dn, sn, hc⟩ := mem_domainCards sha1 data.domains c h
  refine ⟨d, hd, s, hs, b, hb, ?_, ?_, ?_⟩
  · rw [hc]; rfl
  · rw [hc]; rfl
  · intro hn
    rw [hc]
    exact hn

theorem fromDomainsSchema_answer_normalised_witness :
    ∃ d ∈ spacedCorpus.domains, ∃ s ∈ d.sections, ∃ b ∈ s.bullets,
      (bulletCard (fun _ => []) "Threats".toList "Malware".toList
        "Ransomware encrypts files until a ransom is paid".toList).answer =
          normalizeWhitespace b ∧
      (bulletCard (fun _ => []) "Threats".toList "Malware".toList
        "Ransomware encrypts files until a ransom is paid".toList).question =
          "What should you know about: ".toList ++ normalizeWhitespace b ++ "?".toList ∧
      (normalizeWhitespace b = b →
        (bulletCard (fun _ => []) "Threats".toList "Malware".toList
          "Ransomware encrypts files until a ransom is paid".toList).answer = b) :=
  fromDomainsSchema_answer_normalised (fun _ => []) spacedCorpus _ (by decide)

end Flashcards

namespace Questions

/-- C29 (failing input): for the card with the question "What is a botnet?" and no explicit
domain the flashcard generator's `inferDomain` returns "2" (its table lists `botnet`) and
the question generator's `inferDomain` returns "1" (its table does not); the two tables
differ. -/
theorem inferDomain_tables_disagree :
    Flashcards.inferDomain Flashcards.botnetCardObj = "2".toList ∧
      inferDomain botnetCard = "1".toList ∧
      Flashcards.botnetCardObj.question = some botnetCard.question ∧
      Flashcards.botnetCardObj.answer = some botnetCard.answer ∧
      Flashcards.botnetCardObj.domain = botnetCard.domain ∧
      DOMAIN_KEYWORDS ≠ Flashcards.DOMAIN_KEYWORDS := by
  refine ⟨by decide!, by decide!, rfl, rfl, rfl, by decide!⟩

end Questions

/-! ## The sort of the concept dictionary -/

theorem compareCodeUnits_flip (a b : Str) :
    Concepts.compareCodeUnits a b < 0 ↔ 0 < Concepts.compareCodeUnits b a := by
  induction a generalizing b with
  | nil => cases b <;> simp [Concepts.compareCodeUnits]
  | cons x xs ih =>
    cases b with
    | nil => simp [Concepts.compareCodeUnits]
    | cons y ys =>
      unfold Concepts.compareCodeUnits
      by_cases h1 : x.toNat < y.toNat
      · have h2 : ¬ y.toNat < x.toNat := by omega
        simp [h1, h2]
      · by_cases h2 : y.toNat < x.toNat
        · simp [h1, h2]
        · simp only [h1, h2, if_false]
          exact ih ys

theorem compareCodeUnits_trans (a b c : Str)
    (h1 : Concepts.compareCodeUnits a b ≤ 0) (h2 : Concepts.compareCodeUnits b c ≤ 0) :
    Concepts.compareCodeUnits a c ≤ 0 := by
  induction a generalizing b c with
  | nil => cases c <;> simp [Concepts.compareCodeUnits]
  | cons x xs ih =>
    cases b with
    | nil => simp [Concepts.compareCodeUnits] at h1
    | cons y ys =>
      cases c with
      | nil => simp [Concepts.compareCodeUnits] at h2
      | cons z zs =>
        unfold Concepts.compareCodeUnits at h1 h2 ⊢
        by_cases hxy : x.toNat < y.toNat
        · by_cases hyz : y.toNat < z.toNat
          · have : x.toNat < z.toNat := by omega
            simp [this]
          · by_cases hzy : z.toNat < y.toNat
            · simp [hyz, hzy] at h2
            · have : x.toNat < z.toNat := by omega
              simp [this]
        · by_cases hyx : y.toNat < x.toNat
          · simp [hxy, hyx] at h1
          · simp only [hxy, hyx, if_false] at h1
            by_cases hyz : y.toNat < z.toNat
            · have : x.toNat < z.toNat := by omega
              simp [this]
            · by_cases hzy : z.toNat < y.toNat
              · simp [hyz, hzy] at h2
              · simp only [hyz, hzy, if_false] at h2
                have e1 : ¬ x.toNat < z.toNat := by omega
                have e2 : ¬ z.toNat < x.toNat := by omega
                simp only [e1, e2, if_false]
                exact ih ys zs h1 h2

theorem compareCodeUnits_consistent : Js.consistentComparison Concepts.compareCodeUnits :=
  ⟨compareCodeUnits_flip, compareCodeUnits_trans⟩

theorem consistent_zero_symm {lc : Str → Str → Int} (h : Js.consistentComparison lc) (a b : Str)
    (hab : lc a b = 0) : lc b a = 0 := by
  have h1 := h.1 a b
  have h2 := h.1 b a
  omega

theorem consistent_refl {lc : Str → Str → Int} (h : Js.consistentComparison lc) (a : Str) :
    lc a a = 0 := by
  have h1 := h.1 a a
  omega

theorem consistent_zero_trans {lc : Str → Str → Int} (h : Js.consistentComparison lc)
    (a b c : Str) (hab : lc a b = 0) (hbc : lc b c = 0) : lc a c = 0 := by
  have h1 := h.2 a b c (by omega) (by omega)
  have h2 := h.2 c b a (by rw [consistent_zero_symm h b c hbc])
    (by rw [consistent_zero_symm h a b hab])
  have h3 := h.1 a c
  omega

namespace Concepts

theorem conceptLe_total {lc : Str → Str → Int} (h : Js.consistentComparison lc) (a b : Concept) :
    conceptLe lc a b ∨ conceptLe lc b a := by
  unfold conceptLe
  have h1 := h.1 a.domain b.domain
  have h2 := h.1 b.domain a.domain
  have h3 := h.1 a.sectionNum b.sectionNum
  have h4 := h.1 b.sectionNum a.sectionNum
  by_cases hd : lc a.domain b.domain = 0
  · have hd' : lc b.domain a.domain = 0 := by omega
    simp only [hd, hd', ne_eq, not_true_eq_false, if_false]
    omega
  · have hd' : lc b.domain a.domain ≠ 0 := by omega
    simp only [hd, hd', ne_eq, not_false_eq_true, if_true]
    omega

theorem conceptLe_trans {lc : Str → Str → Int} (h : Js.consistentComparison lc)
    (a b c : Concept) (hab : conceptLe lc a b) (hbc : conceptLe lc b c) : conceptLe lc a c := by
  unfold conceptLe at hab hbc ⊢
  have f1 := h.1 a.domain b.domain
  have f2 := h.1 b.domain a.domain
  have f3 := h.1 b.domain c.domain
  have f4 := h.1 c.domain b.domain
  have f5 := h.1 a.domain c.domain
  have f6 := h.1 c.domain a.domain
  have dab : lc a.domain b.domain ≤ 0 := by
    by_cases hd : lc a.domain b.domain = 0
    · omega
    · simpa [hd] using hab
  have dbc : lc b.domain c.domain ≤ 0 := by
    by_cases hd : lc b.domain c.domain = 0
    · omega
    · simpa [hd] using hbc
  have dac := h.2 _ _ _ dab dbc
  by_cases hac : lc a.domain c.domain = 0
  · simp only [hac, ne_eq, not_true_eq_false, if_false]
    have hca : lc c.domain a.domain ≤ 0 := by omega
    have hcb := h.2 _ _ _ hca dab
    have hba := h.2 _ _ _ dbc hca
    have eab : lc a.domain b.domain = 0 := by omega
    have ebc : lc b.domain c.domain = 0 := by omega
    simp only [eab, ebc, ne_eq, not_true_eq_false, if_false] at hab hbc
    exact h.2 _ _ _ hab hbc
  · simp only [hac, ne_eq, not_false_eq_true, if_true]
    exact dac

theorem conceptLe_of_same_class {lc : Str → Str → Int} (h : Js.consistentComparison lc)
    (a x y : Concept)
    (hx : lc x.domain a.domain = 0 ∧ lc x.sectionNum a.sectionNum = 0)
    (hy : lc y.domain a.domain = 0 ∧ lc y.sectionNum a.sectionNum = 0) : conceptLe lc x y := by
  unfold conceptLe
  have hd := consistent_zero_trans h _ _ _ hx.1 (consistent_zero_symm h _ _ hy.1)
  have hs := consistent_zero_trans h _ _ _ hx.2 (consistent_zero_symm h _ _ hy.2)
  simp [hd, hs]

theorem insertionSort_filter_class {lc : Str → Str → Int} (l : List Concept) (p : Concept → Bool)
    (hp : ∀ x ∈ l, ∀ y ∈ l, p x = true → p y = true → conceptLe lc x y) :
    (List.insertionSort (conceptLe lc) l).filter p = l.filter p := by
  have hpair : (l.filter p).Pairwise (conceptLe lc) := by
    rw [List.pairwise_iff_forall_sublist]
    intro x y hxy
    have hx : x ∈ l.filter p := hxy.subset (by simp)
    have hy : y ∈ l.filter p := hxy.subset (by simp)
    rw [List.mem_filter] at hx hy
    exact hp x hx.1 y hy.1 hx.2 hy.2
  have hsub : List.Sublist (l.filter p) (List.insertionSort (conceptLe lc) l) :=
    List.sublist_insertionSort hpair (List.filter_sublist _)
  have hsub' : List.Sublist (l.filter p) ((List.insertionSort (conceptLe lc) l).filter p) := by
    have := hsub.filter p
    simpa [List.filter_filter] using this
  have hlen : ((List.insertionSort (conceptLe lc) l).filter p).length = (l.filter p).length :=
    ((List.perm_insertionSort (conceptLe lc) l).filter p).length_eq
  exact (hsub'.eq_of_length hlen.symm).symm

/-- C30: for a host string comparison that is a consistent comparator, the list returned by
`buildConceptDictionary` is a permutation of the deduplicated concepts; of two concepts the
earlier has the lower domain or the same domain and a section that does not come after the
other's; and the concepts of one (domain, section) class, whether taken as strings that
compare equal or as equal strings, stand in their extraction order. -/
theorem buildConceptDictionary_sorted_stable (localeCompare : Str → Str → Int)
    (hlc : Js.consistentComparison localeCompare) (data : RawCorpus) :
    (buildConceptDictionary localeCompare data).1.Perm
        (dedupeLoop Concept.conceptId [] (candidates data)) ∧
      (buildConceptDictionary localeCompare data).1.Pairwise (fun a b =>
        localeCompare a.domain b.domain < 0 ∨
          (localeCompare a.domain b.domain = 0 ∧
            localeCompare a.sectionNum b.sectionNum ≤ 0)) ∧
      (∀ a : Concept,
        (buildConceptDictionary localeCompare data).1.filter (fun c =>
            decide (localeCompare c.domain a.domain = 0 ∧
              localeCompare c.sectionNum a.sectionNum = 0)) =
          (dedupeLoop Concept.conceptId [] (candidates data)).filter (fun c =>
            decide (localeCompare c.domain a.domain = 0 ∧
              localeCompare c.sectionNum a.sectionNum = 0))) ∧
      (∀ d s : Str,
        (buildConceptDictionary localeCompare data).1.filter (fun c =>
            decide (c.domain = d ∧ c.sectionNum = s)) =
          (dedupeLoop Concept.conceptId [] (candidates data)).filter (fun c =>
            decide (c.domain = d ∧ c.sectionNum = s))) := by
  have hout : (buildConceptDictionary localeCompare data).1 =
      List.insertionSort (conceptLe localeCompare)
        (dedupeLoop Concept.conceptId [] (candidates data)) := by
    unfold buildConceptDictionary
    simp only
    rw [byTermKey_eq_dedupe]
  haveI : IsTotal Concept (conceptLe localeCompare) := ⟨conceptLe_total hlc⟩
  haveI : IsTrans Concept (conceptLe localeCompare) := ⟨conceptLe_trans hlc⟩
  rw [hout]
  refine ⟨List.perm_insertionSort _ _, ?_, ?_, ?_⟩
  · have hs := List.sorted_insertionSort (conceptLe localeCompare)
      (dedupeLoop Concept.conceptId [] (candidates data))
    refine List.Pairwise.imp ?_ hs
    intro a b hab
    unfold conceptLe at hab
    by_cases hd : localeCompare a.domain b.domain = 0
    · simp only [hd, ne_eq, not_true_eq_false, if_false] at hab
      exact Or.inr ⟨hd, hab⟩
    · simp only [hd, ne_eq, not_false_eq_true, if_true] at hab
      exact Or.inl (by omega)
  · intro a
    apply insertionSort_filter_class
    intro x _ y _ hx hy
    exact conceptLe_of_same_class hlc a x y (by simpa using hx) (by simpa using hy)
  · intro d s
    apply insertionSort_filter_class
    intro x _ y _ hx hy
    have hx' : x.domain = d ∧ x.sectionNum = s := by simpa using hx
    have hy' : y.domain = d ∧ y.sectionNum = s := by simpa using hy
    refine conceptLe_of_same_class hlc y x y ?_ ?_
    · rw [hx'.1, hx'.2, hy'.1, hy'.2]
      exact ⟨consistent_refl hlc d, consistent_refl hlc s⟩
    · exact ⟨consistent_refl hlc _, consistent_refl hlc _⟩

theorem buildConceptDictionary_sorted_stable_witness :
    Js.consistentComparison compareCodeUnits ∧
      (buildConceptDictionary compareCodeUnits sampleCorpus).1.Pairwise (fun a b =>
        compareCodeUnits a.domain b.domain < 0 ∨
          (compareCodeUnits a.domain b.domain = 0 ∧
            compareCodeUnits a.sectionNum b.sectionNum ≤ 0)) :=
  ⟨compareCodeUnits_consistent,
    (buildConceptDictionary_sorted_stable compareCodeUnits compareCodeUnits_consistent
      sampleCorpus).2.1⟩

end Concepts

/-! ## Distractors, the "What is" template and the short-answer items -/

theorem trim_eq_self (t : Str)
    (hhead : ∀ c, t.head? = some c → Js.isSpace c = false)
    (hlast : ∀ c, t.getLast? = some c → Js.isSpace c = false) : Js.trim t = t := by
  have h1 : Js.trimStart t = t := by
    unfold Js.trimStart
    cases t with
    | nil => rfl
    | cons c cs => simp [List.dropWhile_cons, hhead c rfl]
  unfold Js.trim
  rw [h1]
  unfold Js.trimEnd
  cases hr : t.reverse with
  | nil =>
    have : t = [] := by simpa using hr
    simp [this]
  | cons c cs =>
    have hl : t.getLast? = some c := by
      rw [← List.head?_reverse, hr]
      rfl
    simp only [List.dropWhile_cons, hlast c hl]
    rw [← hr]
    simp

theorem dropPrefixCI_some (p s r : Str) (h : Js.dropPrefixCI p s = some r) :
    ∃ pre, s = pre ++ r ∧ Js.toUpperCase pre = Js.toUpperCase p := by
  induction p generalizing s with
  | nil =>
    cases s <;> simp only [Js.dropPrefixCI, Option.some.injEq] at h <;> exact ⟨[], by simp [h], rfl⟩
  | cons x xs ih =>
    cases s with
    | nil => simp [Js.dropPrefixCI] at h
    | cons c cs =>
      unfold Js.dropPrefixCI at h
      split at h
      · rename_i hc
        obtain ⟨pre, h1, h2⟩ := ih cs h
        refine ⟨c :: pre, by rw [h1]; rfl, ?_⟩
        unfold Js.toUpperCase at h2 ⊢
        simp only [List.map_cons, hc, h2]
      · exact Option.noConfusion h

namespace Questions

/-- C39: for every correct answer, every term, every duplicate-free list of answers and every
random stream, `getDistractors` returns at most 3 strings, pairwise distinct, none of which
is the correct answer. -/
theorem getDistractors_at_most_three_distinct (correctAnswer : Str) (term : Option Str)
    (allAnswers : List Str) (g : Rng) (h : allAnswers.Nodup) :
    (getDistractors correctAnswer allAnswers term g).1.length ≤ 3 ∧
      (getDistractors correctAnswer allAnswers term g).1.Nodup ∧
      correctAnswer ∉ (getDistractors correctAnswer allAnswers term g).1 := by
  refine ⟨?_, nodup_getDistractors correctAnswer term g h, fun hm => (mem_getDistractors hm).2 rfl⟩
  unfold getDistractors
  dsimp only
  split <;> simp only [List.length_take] <;> exact Nat.min_le_left _ _

theorem getDistractors_at_most_three_distinct_witness :
    smallCorpus.Nodup ∧
      (getDistractors "A one-way digest of data".toList smallCorpus none zeroRng).1.length ≤ 3 ∧
      (getDistractors "A one-way digest of data".toList smallCorpus none zeroRng).1.Nodup ∧
      "A one-way digest of data".toList ∉
        (getDistractors "A one-way digest of data".toList smallCorpus none zeroRng).1 :=
  ⟨by decide,
    getDistractors_at_most_three_distinct "A one-way digest of data".toList none smallCorpus
      zeroRng (by decide)⟩

theorem dropWhile_before_mark (cs : Str) (hne : cs ≠ [])
    (hlast : ∀ c, cs.getLast? = some c → Js.isSpace c = false) :
    (cs ++ ['?']).dropWhile Js.isSpace = cs.dropWhile Js.isSpace ++ ['?'] ∧
      cs.dropWhile Js.isSpace ≠ [] := by
  induction cs with
  | nil => exact absurd rfl hne
  | cons c cs ih =>
    by_cases hc : Js.isSpace c = true
    · have hcs : cs ≠ [] := by
        intro h
        subst h
        have := hlast c rfl
        simp [hc] at this
      have hl : ∀ x, cs.getLast? = some x → Js.isSpace x = false := by
        intro x hx
        apply hlast x
        cases cs with
        | nil => exact absurd rfl hcs
        | cons y ys => simpa using hx
      simpa [List.dropWhile_cons, hc] using ih hcs hl
    · simp [List.dropWhile_cons, hc]

theorem lazyGroup_template (t : Str) (hne : t ≠ [])
    (hlt : ∀ c ∈ t, Js.isLineTerminator c = false)
    (hlast : ∀ c, t.getLast? = some c → Js.isSpace c = false) :
    lazyGroup (t ++ ['?']) = some t := by
  induction t with
  | nil => exact absurd rfl hne
  | cons c cs ih =>
    simp only [List.cons_append]
    unfold lazyGroup
    rw [if_neg (by simp [hlt c (List.mem_cons_self _ _)])]
    by_cases hcs : cs = []
    · subst hcs
      simp [matchTail]
    · have hl : ∀ x, cs.getLast? = some x → Js.isSpace x = false := by
        intro x hx
        apply hlast x
        cases cs with
        | nil => exact absurd rfl hcs
        | cons y ys => simpa using hx
      obtain ⟨h1, h2⟩ := dropWhile_before_mark cs hcs hl
      have hmt : matchTail (cs ++ ['?']) = false := by
        unfold matchTail
        dsimp only
        rw [h1]
        cases hd : cs.dropWhile Js.isSpace with
        | nil => exact absurd hd h2
        | cons y ys => simp
      rw [hmt]
      simp only [Bool.false_eq_true, if_false]
      rw [ih hcs (fun x hx => hlt x (List.mem_cons_of_mem _ hx)) hl]
      rfl

/-- C40: for every non-empty term `t` without line terminator and without leading or trailing
whitespace, `extractTerm("What is " + t + "?")` is `t`; and `extractTerm` returns `null` for
every question that does not begin with "What is" (in any letter case) followed by a
whitespace code unit. -/
theorem extractTerm_inverts_template :
    (∀ t : Str, t ≠ [] → (∀ c ∈ t, Js.isLineTerminator c = false) →
      (∀ c, t.head? = some c ∨ t.getLast? = some c → Js.isSpace c = false) →
      extractTerm ("What is ".toList ++ t ++ "?".toList) = some t) ∧
    (∀ q : Str,
      (¬ ∃ p c rest, q = p ++ c :: rest ∧
        Js.toUpperCase p = Js.toUpperCase "What is".toList ∧ Js.isSpace c = true) →
      extractTerm q = none) := by
  constructor
  · intro t hne hlt hws
    have hlast : ∀ c, t.getLast? = some c → Js.isSpace c = false := fun c h => hws c (Or.inr h)
    have hhead : ∀ c, t.head? = some c → Js.isSpace c = false := fun c h => hws c (Or.inl h)
    have hstart : Js.dropPrefixCI "What is".toList ("What is ".toList ++ t ++ "?".toList) =
        some (' ' :: (t ++ ['?'])) := by
      simp [Js.dropPrefixCI]
    unfold extractTerm
    rw [hstart]
    simp only
    rw [if_pos (by decide)]
    cases t with
    | nil => exact absurd rfl hne
    | cons c cs =>
      have hg : spacesThenGroup (c :: cs ++ ['?']) = lazyGroup (c :: cs ++ ['?']) := by
        simp only [List.cons_append]
        unfold spacesThenGroup
        rw [if_neg (by simp [hhead c rfl])]
      rw [hg, lazyGroup_template (c :: cs) hne hlt hlast]
      simp only [Option.map_some', Option.some.injEq]
      exact trim_eq_self _ hhead hlast
  · intro q hq
    unfold extractTerm
    split
    · rename_i c cs hd
      split
      · rename_i hc
        exfalso
        obtain ⟨pre, h1, h2⟩ := dropPrefixCI_some _ _ _ hd
        exact hq ⟨pre, c, cs, h1, h2, hc⟩
      · rfl
    · rfl

theorem extractTerm_inverts_template_witness :
    extractTerm ("What is ".toList ++ "zero trust".toList ++ "?".toList) =
        some "zero trust".toList ∧
      extractTerm "Define a hash".toList = none :=
  ⟨extractTerm_inverts_template.1 "zero trust".toList (by decide) (by decide) (by
      intro c h
      rcases h with h | h <;>
      · have hc := Option.some.inj h
        subst hc
        decide),
    extractTerm_inverts_template.2 "Define a hash".toList (by
      rintro ⟨p, c, rest, h1, h2, _⟩
      have hl : p.length = 7 := by
        have := congrArg List.length h2
        simpa [Js.toUpperCase] using this
      match p, hl with
      | [a1, a2, a3, a4, a5, a6, a7], _ =>
        simp only [List.cons_append, List.nil_append] at h1
        have e1 : a1 = 'D' := by
          have := congrArg List.head? h1
          simpa using this.symm
        subst e1
        simp [Js.toUpperCase] at h2)⟩

theorem lazyGroup_isSome (s : Str) : (lazyGroup s).isSome = dotPlusTail s := by
  induction s with
  | nil => rfl
  | cons c cs ih =>
    unfold lazyGroup dotPlusTail
    by_cases hc : Js.isLineTerminator c = true
    · simp [hc]
    · by_cases hm : matchTail cs = true
      · simp [hc, hm]
      · simp [hc, hm, ← ih]

theorem spacesThenGroup_isSome (s : Str) :
    (spacesThenGroup s).isSome = (dotPlusTail s || spacesDotPlusTail s) := by
  induction s with
  | nil => rfl
  | cons c cs ih =>
    unfold spacesThenGroup
    rw [spacesDotPlusTail]
    by_cases hc : Js.isSpace c = true
    · simp only [hc, if_true, Bool.true_and]
      cases hs : spacesThenGroup cs with
      | some grp =>
        rw [hs] at ih
        simp only [Option.isSome_some] at ih ⊢
        rw [← ih]
        simp
      | none =>
        rw [hs] at ih
        simp only [Option.isSome_none] at ih
        rw [← ih, lazyGroup_isSome]
        simp
    · simp [hc, lazyGroup_isSome]

theorem whatIsTest_eq_isSome (q : Str) : whatIsTest q = (extractTerm q).isSome := by
  unfold whatIsTest extractTerm
  cases hd : Js.dropPrefixCI "What is".toList q with
  | none => rfl
  | some rest =>
    cases rest with
    | nil => rfl
    | cons c cs =>
      simp only
      rw [spacesDotPlusTail]
      by_cases hc : Js.isSpace c = true
      · simp [hc, spacesThenGroup_isSome]
      · simp [hc]

theorem generateShort_some (c : Card) (i : Nat) (s : Short) (h : generateShort c i = some s) :
    ∃ t, extractTerm c.question = some t ∧ t ≠ [] ∧
      s.prompt = "Define the following Security+ term: ".toList ++ t ∧
      s.answer = c.answer := by
  unfold generateShort at h
  split at h
  · exact Option.noConfusion h
  · rename_i t ht
    split at h
    · exact Option.noConfusion h
    · rename_i hne
      have := Option.some.inj h
      subst this
      exact ⟨t, ht, hne, rfl, rfl⟩

/-- C34 (as stated, refuted): the question "What is   " matches the pattern and `extractTerm`
returns the empty string, not `null`, and the second test of `main` accepts it; yet
`generateShort` returns `null`, so `main` pushes the MCQ only. -/
theorem short_item_blank_term_counterexample :
    extractTerm "What is   ".toList = some [] ∧
      whatIsTest "What is   ".toList = true ∧
      (mainLoop (answerCorpus [blankTermCard]) [blankTermCard] 0 [] zeroRng).1.map
        (fun q => q.val.type) = ["mcq".toList] := by
  refine ⟨by decide, by decide, by decide!⟩

/-- C34 (amended): `generateShort` returns an item exactly when `extractTerm` returns a
non-empty term; the item's prompt is "Define the following Security+ term: " followed by the
term and its answer is the card's answer; the second pattern test of `main` accepts exactly
the questions for which `extractTerm` is not `null`, so for a card that passes the filter of
`main` the loop pushes the MCQ and then the short-answer item whenever `generateShort`
returns one. -/
theorem short_item_iff_nonempty_term :
    (∀ (c : Card) (i : Nat),
      (generateShort c i).isSome = true ↔ ∃ t, extractTerm c.question = some t ∧ t ≠ []) ∧
    (∀ (c : Card) (i : Nat) (s : Short), generateShort c i = some s →
      ∃ t, extractTerm c.question = some t ∧ t ≠ [] ∧
        s.prompt = "Define the following Security+ term: ".toList ++ t ∧
        s.answer = c.answer) ∧
    (∀ q : Str, whatIsTest q = (extractTerm q).isSome) ∧
    (∀ (allAnswers : List Str) (card : RawCard) (i : Nat) (questions : List Obj) (g : Rng)
        (q a : Str),
      card.question.orElse (fun _ => card.front) = some q →
      card.answer.orElse (fun _ => card.back) = some a →
      q ≠ [] → a ≠ [] → 10 ≤ a.length →
      (mainLoop allAnswers [card] i questions g).1 =
        questions ++
          [(⟨questions.length, Question.mcq
            (generateMcq (Card.mk card.id q a card.domain card.tags) allAnswers i g).1⟩ : Obj)] ++
          (match generateShort (Card.mk card.id q a card.domain card.tags) i with
            | some s => [(⟨questions.length + 1, Question.short s⟩ : Obj)]
            | none => [])) := by
  refine ⟨?_, generateShort_some, whatIsTest_eq_isSome, ?_⟩
  · intro c i
    constructor
    · intro h
      cases hs : generateShort c i with
      | none => simp [hs] at h
      | some s =>
        obtain ⟨t, h1, h2, _⟩ := generateShort_some c i s hs
        exact ⟨t, h1, h2⟩
    · rintro ⟨t, h1, h2⟩
      unfold generateShort
      simp [h1, h2]
  · intro allAnswers card i questions g q a hq ha hqne hane hlen
    unfold mainLoop
    simp only [hq, ha]
    have hcond : ¬ (q = [] ∨ a = [] ∨ a.length < 10) := by
      rintro (h | h | h)
      · exact hqne h
      · exact hane h
      · omega
    rw [if_neg hcond]
    cases hs : generateShort (Card.mk card.id q a card.domain card.tags) i with
    | none => simp [mainLoop]
    | some s =>
      obtain ⟨t, h1, _, _⟩ := generateShort_some _ i s hs
      have hw : whatIsTest q = true := by
        rw [whatIsTest_eq_isSome]
        have : extractTerm q = some t := h1
        rw [this]
        rfl
      simp [hw, mainLoop]

theorem short_item_iff_nonempty_term_witness :
    ∃ t, extractTerm "What is phishing?".toList = some t ∧ t ≠ [] :=
  (short_item_iff_nonempty_term.1
    { id := "c1".toList, question := "What is phishing?".toList
      answer := "A social engineering attack delivered by email.".toList
      domain := none, tags := none } 0).mp (by decide)

end Questions

/-! ## The distractor table, four choices and the dedupe key -/

namespace Questions

theorem bankKey_of_term (ca k : Str) (hk : k ≠ []) : bankKey ca (some k) = bankKey [] (some k) := by
  simp only [bankKey, termOr, hk, if_false]

theorem distractorPool_of_entry (ca : Str) (all : List Str) (term : Option Str)
    (e : Str × List Str)
    (hfind : DISTRACTOR_BANK.find?
      (fun x => Js.includes (bankKey ca term) x.1 ||
        Js.includes (bankKey ca term) (Js.replaceSpaces [' '] x.1)) = some e)
    (hlen : e.2.length = 3) : distractorPool ca all term = e.2 := by
  unfold distractorPool
  simp only [hfind, hlen, Nat.lt_irrefl, if_false]

theorem getDistractors_of_pool (ca : Str) (all : List Str) (term : Option Str) (g : Rng)
    (pool : List Str) (hpool : distractorPool ca all term = pool) (hlen3 : pool.length = 3)
    (hca : ca ∉ pool) : (getDistractors ca all term g).1.Perm pool := by
  have hfilter : pool.filter (fun x => !decide (x ∈ [ca])) = pool := by
    rw [List.filter_eq_self]
    intro a ha
    simp only [List.mem_singleton, Bool.not_eq_true', decide_eq_false_iff_not]
    rintro rfl
    exact hca ha
  have hperm := shuffle_perm pool g
  have hpick : (pickRandom pool 3 [ca] g).1 = (shuffle pool g).1 := by
    unfold pickRandom
    simp only [hfilter]
    exact List.take_of_length_le (by rw [hperm.length_eq, hlen3])
  have hlen : (pickRandom pool 3 [ca] g).1.length = 3 := by
    rw [hpick, hperm.length_eq, hlen3]
  unfold getDistractors
  simp only [hpool, hlen, Nat.lt_irrefl, if_false]
  rw [List.take_of_length_le (by rw [hlen]), hpick]
  exact hperm

theorem bank_lookup_table :
    ∀ e ∈ DISTRACTOR_BANK, e.1 ≠ [] ∧ e.2.length = 3 ∧
      (e.1 ∉ shadowedBankKeys →
        DISTRACTOR_BANK.find?
          (fun x => Js.includes (bankKey [] (some e.1)) x.1 ||
            Js.includes (bankKey [] (some e.1)) (Js.replaceSpaces [' '] x.1)) = some e) := by
  decide!

theorem bank_lookup_shadowed :
    ∀ k ∈ shadowedBankKeys, k ≠ [] ∧ ∃ e ∈ DISTRACTOR_BANK, e.1 ≠ k ∧ e.2.length = 3 ∧
      DISTRACTOR_BANK.find?
        (fun x => Js.includes (bankKey [] (some k)) x.1 ||
          Js.includes (bankKey [] (some k)) (Js.replaceSpaces [' '] x.1)) = some e := by
  intro k hk
  unfold shadowedBankKeys at hk
  simp only [List.mem_cons, List.mem_singleton, List.not_mem_nil, or_false] at hk
  rcases hk with rfl | rfl | rfl | rfl
  · exact ⟨by decide, ("phishing".toList,
      ["Spear phishing".toList, "Whaling".toList, "Vishing".toList]), by decide!, by decide,
      rfl, by decide!⟩
  · exact ⟨by decide, ("symmetric".toList,
      ["Asymmetric".toList, "Hashing".toList, "PKI".toList]), by decide!, by decide,
      rfl, by decide!⟩
  · exact ⟨by decide, ("reconnaissance".toList,
      ["Scanning".toList, "Enumeration".toList, "Exploitation".toList]), by decide!, by decide,
      rfl, by decide!⟩
  · exact ⟨by decide, ("reconnaissance".toList,
      ["Scanning".toList, "Enumeration".toList, "Exploitation".toList]), by decide!, by decide,
      rfl, by decide!⟩

/-- C37 (failing input): for the term "spear phishing" and every correct answer outside the
entry of "phishing", `getDistractors` returns the values stored under "phishing" ("Spear
phishing", "Whaling", "Vishing"), not those stored under "spear phishing"; each of the four
keys that contain an earlier key gets the pool of that earlier entry; every other key of the
table gets exactly its own three values. -/
theorem distractor_bank_shadowed_keys :
    (∀ (ca : Str) (all : List Str) (g : Rng),
      ca ∉ ["Spear phishing".toList, "Whaling".toList, "Vishing".toList] →
      (getDistractors ca all (some "spear phishing".toList) g).1.Perm
        ["Spear phishing".toList, "Whaling".toList, "Vishing".toList]) ∧
    ("spear phishing".toList, ["Phishing".toList, "Whaling".toList, "Vishing".toList]) ∈
      DISTRACTOR_BANK ∧
    "Spear phishing".toList ∉ ["Phishing".toList, "Whaling".toList, "Vishing".toList] ∧
    (∀ k ∈ shadowedBankKeys, ∃ e ∈ DISTRACTOR_BANK, e.1 ≠ k ∧
      ∀ (ca : Str) (all : List Str), distractorPool ca all (some k) = e.2) ∧
    (∀ e ∈ DISTRACTOR_BANK, e.1 ∉ shadowedBankKeys →
      ∀ (ca : Str) (all : List Str) (g : Rng), ca ∉ e.2 →
        (getDistractors ca all (some e.1) g).1.Perm e.2) := by
  have hshadow : ∀ k ∈ shadowedBankKeys, ∃ e ∈ DISTRACTOR_BANK, e.1 ≠ k ∧
      ∀ (ca : Str) (all : List Str), distractorPool ca all (some k) = e.2 := by
    intro k hk
    obtain ⟨hne, e, he, hek, hlen, hfind⟩ := bank_lookup_shadowed k hk
    refine ⟨e, he, hek, ?_⟩
    intro ca all
    apply distractorPool_of_entry _ _ _ e _ hlen
    rw [bankKey_of_term ca k hne]
    exact hfind
  refine ⟨?_, by decide!, by decide, hshadow, ?_⟩
  · intro ca all g hca
    have hne : "spear phishing".toList ≠ [] := by decide
    have hfind : DISTRACTOR_BANK.find?
        (fun x => Js.includes (bankKey [] (some "spear phishing".toList)) x.1 ||
          Js.includes (bankKey [] (some "spear phishing".toList)) (Js.replaceSpaces [' '] x.1)) =
        some ("phishing".toList,
          ["Spear phishing".toList, "Whaling".toList, "Vishing".toList]) := by
      decide!
    refine getDistractors_of_pool ca all _ g _ ?_ rfl hca
    apply distractorPool_of_entry _ _ _
      ("phishing".toList, ["Spear phishing".toList, "Whaling".toList, "Vishing".toList]) _ rfl
    rw [bankKey_of_term ca _ hne]
    exact hfind
  · intro e he hns ca all g hca
    obtain ⟨hne, hlen, hfind⟩ := bank_lookup_table e he
    refine getDistractors_of_pool ca all _ g _ ?_ hlen hca
    apply distractorPool_of_entry _ _ _ e _ hlen
    rw [bankKey_of_term ca e.1 hne]
    exact hfind hns

/-- C38 (as stated, refuted): the corpus of three answers is duplicate-free and each of them is
longer than 20 characters and differs from the normalised answer of the card, which is empty;
yet the item has 3 choices. -/
theorem generateMcq_blank_answer_counterexample :
    threeLongAnswers.Nodup ∧
      (∀ a ∈ threeLongAnswers,
        20 < a.length ∧ a ≠ Js.trim (Js.replaceSpaces [' '] blankAnswerCard.answer)) ∧
      Js.trim (Js.replaceSpaces [' '] blankAnswerCard.answer) = [] ∧
      (generateMcq blankAnswerCard threeLongAnswers 0 zeroRng).1.choices.length = 3 := by
  refine ⟨by decide, by decide, by decide, by decide!⟩

/-- C38 (amended): when the card's normalised answer is non-empty and the duplicate-free
corpus holds at least three strings longer than 20 characters that differ from it, the item
has exactly 4 choices, for every index and every random stream. -/
theorem generateMcq_four_choices (card : Card) (allAnswers : List Str) (index : Nat) (g : Rng)
    (hnd : allAnswers.Nodup)
    (hca : Js.trim (Js.replaceSpaces [' '] card.answer) ≠ [])
    (hlong : 3 ≤ (allAnswers.filter (fun a =>
      decide (20 < a.length) &&
        decide (a ≠ Js.trim (Js.replaceSpaces [' '] card.answer)))).length) :
    (generateMcq card allAnswers index g).1.choices.length = 4 := by
  have hch : (generateMcq card allAnswers index g).1.choices =
      (placeAnswer (Js.trim (Js.replaceSpaces [' '] card.answer))
        (assembleChoices (Js.trim (Js.replaceSpaces [' '] card.answer))
          (getDistractors (Js.trim (Js.replaceSpaces [' '] card.answer)) allAnswers
            (extractTerm card.question) g).1 allAnswers)
        (getDistractors (Js.trim (Js.replaceSpaces [' '] card.answer)) allAnswers
            (extractTerm card.question) g).2).1 := rfl
  rw [hch]
  generalize Js.trim (Js.replaceSpaces [' '] card.answer) = ca at hca hlong ⊢
  generalize (getDistractors ca allAnswers (extractTerm card.question) g).1 = ds
  generalize (getDistractors ca allAnswers (extractTerm card.question) g).2 = g1
  have hlen := placeAnswer_length ca (assembleChoices ca ds allAnswers) g1
  have hle := length_assembleChoices ca ds allAnswers
  have hin := correct_mem_assembleChoices ds allAnswers hca
  have hne : assembleChoices ca ds allAnswers ≠ [] := List.ne_nil_of_mem hin
  have heq : (placeAnswer ca (assembleChoices ca ds allAnswers) g1).1.length =
      (assembleChoices ca ds allAnswers).length := by
    rcases hlen.2 with h | h
    · exact h
    · exact absurd h.1 hne
  rw [heq]
  by_contra hcon
  have hshort : (assembleChoices ca ds allAnswers).length < 4 := by omega
  have hall := assembleChoices_short hshort
  have hsub : ca :: allAnswers.filter (fun a => decide (20 < a.length) && decide (a ≠ ca)) ⊆
      assembleChoices ca ds allAnswers := by
    intro x hx
    rcases List.mem_cons.mp hx with rfl | hx
    · exact hin
    · have h2 := List.mem_filter.mp hx
      simp only [Bool.and_eq_true, decide_eq_true_eq] at h2
      exact hall x h2.1 h2.2.1
  have hnd2 : (ca :: allAnswers.filter
      (fun a => decide (20 < a.length) && decide (a ≠ ca))).Nodup := by
    rw [List.nodup_cons]
    refine ⟨?_, hnd.filter _⟩
    intro hx
    have h2 := List.mem_filter.mp hx
    simp at h2
  have := (List.subperm_of_subset hnd2 hsub).length_le
  rw [List.length_cons] at this
  omega

theorem generateMcq_four_choices_witness :
    threeLongAnswers.Nodup ∧
      Js.trim (Js.replaceSpaces [' '] digestCard.answer) ≠ [] ∧
      (generateMcq digestCard threeLongAnswers 0 zeroRng).1.choices.length = 4 :=
  ⟨by decide, by decide,
    generateMcq_four_choices digestCard threeLongAnswers 0 zeroRng (by decide) (by decide)
      (by decide)⟩

end Questions

namespace Flashcards

/-- C36 (failing input): the cards ("x||y", "z") and ("x", "y||z") have different normalised
(question, answer) pairs and the same dedupe key "x||y||z"; `dedupe` keeps the first and
drops the second as its duplicate. -/
theorem dedupe_separator_collision :
    normalizedPair barsInQuestion ≠ normalizedPair barsInAnswer ∧
      dedupeKey barsInQuestion = dedupeKey barsInAnswer ∧
      dedupe [barsInQuestion, barsInAnswer] = [barsInQuestion] := by
  refine ⟨by decide, by decide, by decide⟩

end Flashcards

/-! ## The term and definition filters of the concept dictionary -/

theorem of_ite_false {c : Prop} [Decidable c] {b : Bool}
    (h : (if c then false else b) = true) : ¬ c ∧ b = true := by
  by_cases hc : c
  · rw [if_pos hc] at h
    exact Bool.noConfusion h
  · rw [if_neg hc] at h
    exact ⟨hc, h⟩

namespace Concepts

/-- C31 (failing input): `isValidTerm` accepts "A honeypot" and "The firewall", an article
followed by a single word, because the article test is the only test without the flag `i`;
it rejects "a honeypot". Every accepted term has a trimmed length from 2 to 50, at most 6
whitespace-separated words, is no lower-case article followed by one word of word
characters, opens with none of the denylisted words, and is no single word with a lower-case
initial. -/
theorem isValidTerm_capital_article :
    isValidTerm "A honeypot".toList = true ∧
    isValidTerm "The firewall".toList = true ∧
    isValidTerm "a honeypot".toList = false ∧
    (∀ text : Str, isValidTerm text = true →
      2 ≤ (Js.trim text).length ∧ (Js.trim text).length ≤ 50 ∧
      (Js.splitSpaces (Js.trim text)).length ≤ 6 ∧
      isArticleNoun (Js.trim text) = false ∧
      Js.startsWithWordCI
        ["most", "some", "many", "where", "what", "how", "that", "this", "these", "those", "we",
         "they", "there", "someone", "everyone", "nothing", "no system"] (Js.trim text) = false ∧
      isTheDenied (Js.trim text) = false ∧
      Js.startsWithThenSpaceCI ["once"] (Js.trim text) = false ∧
      Js.startsWithThenSpaceCI ["ensure"] (Js.trim text) = false ∧
      Js.startsWithThenSpaceCI ["manages"] (Js.trim text) = false ∧
      Js.startsWithThenSpaceCI ["automatically"] (Js.trim text) = false ∧
      Js.startsWithThenSpaceCI ["no"] (Js.trim text) = false ∧
      Js.startsWithThenSpaceCI ["attackers", "other", "stronger"] (Js.trim text) = false ∧
      ¬ ((Js.splitSpaces (Js.trim text)).length = 1 ∧
        (Js.trim text).head?.map Char.isLower = some true)) := by
  refine ⟨by decide!, by decide!, by decide!, ?_⟩
  intro text h
  unfold isValidTerm at h
  obtain ⟨h1, h⟩ := of_ite_false h
  obtain ⟨h2, h⟩ := of_ite_false h
  obtain ⟨h3, h⟩ := of_ite_false h
  obtain ⟨h4, h⟩ := of_ite_false h
  obtain ⟨h5, h⟩ := of_ite_false h
  obtain ⟨h6, h⟩ := of_ite_false h
  obtain ⟨h7, h⟩ := of_ite_false h
  obtain ⟨h8, h⟩ := of_ite_false h
  obtain ⟨h9, h⟩ := of_ite_false h
  obtain ⟨h10, h⟩ := of_ite_false h
  obtain ⟨h11, h⟩ := of_ite_false h
  obtain ⟨h12, _⟩ := of_ite_false h
  have h1a := not_or.mp h1
  have h1b := not_or.mp h1a.2
  exact ⟨by omega, by omega, by omega, eq_false_of_ne_true h3, eq_false_of_ne_true h2,
    eq_false_of_ne_true h4, eq_false_of_ne_true h5, eq_false_of_ne_true h6,
    eq_false_of_ne_true h7, eq_false_of_ne_true h8, eq_false_of_ne_true h9,
    eq_false_of_ne_true h11, h12⟩

theorem any_of_sublist_false {α : Type} (p : α → Bool) (l₁ l₂ : List α)
    (hsub : ∀ x ∈ l₁, x ∈ l₂) (h : l₂.any p = false) : l₁.any p = false := by
  rw [List.any_eq_false] at h ⊢
  exact fun x hx => h x (hsub x hx)

/-- C32: `isCompleteDefinition` accepts a text only if it has at least 40 characters, holds a
verb of the fixed set as a whole word, is no comma list (3 or more comma-separated parts
whose trimmed lengths average under 30), its trimmed form does not open with "they", "we"
or "there" followed by whitespace, does not end with ":" or start with "?", and does not
start with one of the heading words example, examples, types, overview, continued. -/
theorem isCompleteDefinition_necessary (text : Str) (h : isCompleteDefinition text = true) :
    40 ≤ text.length ∧
      Js.testWords verbAlternatives text = true ∧
      ¬ (3 ≤ (Js.splitCommas text).length ∧
        ((Js.splitCommas text).map (fun p => (Js.trim p).length)).sum <
          30 * (Js.splitCommas text).length) ∧
      Js.startsWithThenSpaceCI ["they", "we", "there"] (Js.trim text) = false ∧
      (Js.trim text).getLast? ≠ some ':' ∧
      (Js.trim text).head? ≠ some '?' ∧
      Js.startsWithWordCI ["example", "examples", "types", "overview", "continued"]
        (Js.trim text) = false := by
  unfold isCompleteDefinition at h
  obtain ⟨h1, h⟩ := of_ite_false h
  obtain ⟨h2, h⟩ := of_ite_false h
  obtain ⟨h3, h⟩ := of_ite_false h
  obtain ⟨h4, h⟩ := of_ite_false h
  obtain ⟨h5, h⟩ := of_ite_false h
  obtain ⟨h6, h⟩ := of_ite_false h
  have hskip : mustSkip text = false := eq_false_of_ne_true h1
  unfold mustSkip at hskip
  have hskip2 : (if Js.trim text = [] ∨ (Js.trim text).length < 30 then false
      else if Js.startsWithWordCI
          ["example", "examples", "types", "overview", "continued", "and much more"]
          (Js.trim text) then false
      else if Js.startsWithWordCI ["this may", "there's a", "get ready", "time to"]
          (Js.trim text) then false
      else if (Js.trim text).getLast? = some ':' then false
      else if (Js.trim text).head? = some '?' then false
      else true) = true := by
    by_cases c1 : Js.trim text = [] ∨ (Js.trim text).length < 30
    · rw [if_pos c1] at hskip
      exact Bool.noConfusion hskip
    · rw [if_neg c1] at hskip ⊢
      by_cases c2 : Js.startsWithWordCI
          ["example", "examples", "types", "overview", "continued", "and much more"]
          (Js.trim text) = true
      · rw [if_pos c2] at hskip
        exact Bool.noConfusion hskip
      · rw [if_neg c2] at hskip ⊢
        by_cases c3 : Js.startsWithWordCI ["this may", "there's a", "get ready", "time to"]
            (Js.trim text) = true
        · rw [if_pos c3] at hskip
          exact Bool.noConfusion hskip
        · rw [if_neg c3] at hskip ⊢
          by_cases c4 : (Js.trim text).getLast? = some ':'
          · rw [if_pos c4] at hskip
            exact Bool.noConfusion hskip
          · rw [if_neg c4] at hskip ⊢
            by_cases c5 : (Js.trim text).head? = some '?'
            · rw [if_pos c5] at hskip
              exact Bool.noConfusion hskip
            · rw [if_neg c5]
  obtain ⟨s1, hs⟩ := of_ite_false hskip2
  obtain ⟨s2, hs⟩ := of_ite_false hs
  obtain ⟨s3, hs⟩ := of_ite_false hs
  obtain ⟨s4, hs⟩ := of_ite_false hs
  obtain ⟨s5, _⟩ := of_ite_false hs
  have hverb : hasVerb text = true := by
    cases hv : hasVerb text with
    | true => rfl
    | false => exact absurd (by rw [hv]; rfl) h4
  have hlist : isList text = false := eq_false_of_ne_true h2
  refine ⟨by omega, hverb, ?_, eq_false_of_ne_true h6, s4, s5, ?_⟩
  · rintro ⟨hl1, hl2⟩
    unfold isList at hlist
    dsimp only at hlist
    rw [if_pos hl1] at hlist
    exact absurd hl2 (of_decide_eq_false hlist)
  · have hs2 : Js.startsWithWordCI
        ["example", "examples", "types", "overview", "continued", "and much more"]
        (Js.trim text) = false := eq_false_of_ne_true s2
    unfold Js.startsWithWordCI at hs2 ⊢
    exact any_of_sublist_false _ _ _ (by decide) hs2

theorem isCompleteDefinition_necessary_witness :
    40 ≤ "A honeypot is a decoy system designed to attract and detect attackers.".toList.length ∧
      Js.testWords verbAlternatives
        "A honeypot is a decoy system designed to attract and detect attackers.".toList = true :=
  ⟨(isCompleteDefinition_necessary
      "A honeypot is a decoy system designed to attract and detect attackers.".toList
      (by decide!)).1,
    (isCompleteDefinition_necessary
      "A honeypot is a decoy system designed to attract and detect attackers.".toList
      (by decide!)).2.1⟩

theorem extractBullet_short (dd sn b : Str) (h : (Js.trim b).length < 30) :
    extractBullet dd sn b = Extraction.skipped := by
  unfold extractBullet
  dsimp only
  rw [if_pos (Or.inr h)]

/-- C33: a bullet whose trimmed text is shorter than 30 characters is discarded: whatever the
state of the loop, its step leaves the map of concepts unchanged and adds one to
`totalBullets` and to `skippedQuality`; no concept of the output of `buildConceptDictionary`
was extracted from such a bullet; "Example overview of threats" has 27 characters, and a
corpus holding only this bullet yields no concept and `skippedQuality` 1. -/
theorem short_bullet_discarded :
    (∀ (dd sn : Str) (st : State) (b : Str), (Js.trim b).length < 30 →
      stepBullet dd sn st b =
        { byTermKey := st.byTermKey
          stats := { st.stats with totalBullets := st.stats.totalBullets + 1
                                   skippedQuality := st.stats.skippedQuality + 1 } }) ∧
    (∀ (dd sn b : Str) (c : Concept),
      extractBullet dd sn b = Extraction.ruleA c ∨ extractBullet dd sn b = Extraction.ruleB c →
      30 ≤ (Js.trim b).length) ∧
    (∀ (localeCompare : Str → Str → Int) (data : RawCorpus),
      ∀ c ∈ (buildConceptDictionary localeCompare data).1,
        ∃ d ∈ data.domains, ∃ s ∈ d.sections,
          sectionConcept (d.domain_num ++ ".0".toList) s = some c ∨
          ∃ b ∈ s.bullets, 30 ≤ (Js.trim b).length ∧
            (extractBullet (d.domain_num ++ ".0".toList) s.section_num b = Extraction.ruleA c ∨
              extractBullet (d.domain_num ++ ".0".toList) s.section_num b =
                Extraction.ruleB c)) ∧
    (Js.trim "Example overview of threats".toList).length = 27 ∧
    (∀ localeCompare : Str → Str → Int,
      buildConceptDictionary localeCompare exampleOverviewCorpus =
        ([], { totalBullets := 1, skippedQuality := 1, ruleA := 0, ruleB := 0, curated := 0 })) := by
  have hlong : ∀ (dd sn b : Str) (c : Concept),
      extractBullet dd sn b = Extraction.ruleA c ∨ extractBullet dd sn b = Extraction.ruleB c →
      30 ≤ (Js.trim b).length := by
    intro dd sn b c h
    by_contra hlt
    have hs := extractBullet_short dd sn b (by omega)
    rcases h with h | h <;> rw [hs] at h <;> exact Extraction.noConfusion h
  refine ⟨?_, hlong, ?_, by decide, ?_⟩
  · intro dd sn st b h
    unfold stepBullet
    rw [extractBullet_short dd sn b h]
  · intro localeCompare data c hc
    obtain ⟨d, hd, s, hs, hor⟩ := mem_candidates (mem_buildConceptDictionary hc)
    refine ⟨d, hd, s, hs, ?_⟩
    rcases hor with h | ⟨b, hb, h⟩
    · exact Or.inl h
    · exact Or.inr ⟨b, hb, hlong _ _ _ _ h, h⟩
  · intro localeCompare
    have hst : exampleOverviewCorpus.domains.foldl stepDomain {} =
        { byTermKey := []
          stats := { totalBullets := 1, skippedQuality := 1, ruleA := 0, ruleB := 0,
                     curated := 0 } } := by
      decide!
    unfold buildConceptDictionary
    simp only [hst]
    rfl

theorem short_bullet_discarded_witness :
    stepBullet "2.0".toList "2.1".toList {} "Example overview of threats".toList =
      { byTermKey := []
        stats := { totalBullets := 1, skippedQuality := 1, ruleA := 0, ruleB := 0,
                   curated := 0 } } :=
  short_bullet_discarded.1 "2.0".toList "2.1".toList {} "Example overview of threats".toList
    (by decide)

end Concepts

/-! ## The slug key -/

theorem isLower_bounds (c : Char) (h : c.isLower = true) : 97 ≤ c.toNat ∧ c.toNat ≤ 122 := by
  simp only [Char.isLower, Bool.and_eq_true, decide_eq_true_eq] at h
  exact ⟨h.1, h.2⟩

theorem isUpper_bounds (c : Char) (h : c.isUpper = true) : 65 ≤ c.toNat ∧ c.toNat ≤ 90 := by
  simp only [Char.isUpper, Bool.and_eq_true, decide_eq_true_eq] at h
  exact ⟨h.1, h.2⟩

theorem isDigit_bounds (c : Char) (h : c.isDigit = true) : 48 ≤ c.toNat ∧ c.toNat ≤ 57 := by
  simp only [Char.isDigit, Bool.and_eq_true, decide_eq_true_eq] at h
  exact ⟨h.1, h.2⟩

/-- A code unit of a slug: a lowercase ASCII letter, a digit, an underscore or a hyphen. -/
theorem slugCode_ascii (c : Char)
    (h : c.isLower = true ∨ c.isDigit = true ∨ c = '_' ∨ c = '-') : c.toNat < 128 := by
  rcases h with h | h | h | h
  · have := isLower_bounds c h; omega
  · have := isDigit_bounds c h; omega
  · subst h; decide
  · subst h; decide

theorem wordChar_ascii (c : Char) (h : Js.isWordChar c = true) : c.toNat < 128 := by
  simp only [Js.isWordChar, Char.isAlphanum, Char.isAlpha, Bool.or_eq_true,
    decide_eq_true_eq] at h
  rcases h with ((h | h) | h) | h
  · have := isUpper_bounds c h; omega
  · have := isLower_bounds c h; omega
  · have := isDigit_bounds c h; omega
  · subst h; decide

theorem ascii_table :
    ∀ n, n < 128 →
      (Js.isWordChar (Char.ofNat n) = true →
        ((Char.ofNat n).toLower.isLower || (Char.ofNat n).toLower.isDigit ||
          (Char.ofNat n).toLower == '_') = true ∧ (Char.ofNat n).toLower ≠ '-') ∧
      (((Char.ofNat n).isLower || (Char.ofNat n).isDigit || (Char.ofNat n) == '_' ||
          (Char.ofNat n) == '-') = true →
        (Js.isWordChar (Char.ofNat n) || (Char.ofNat n) == '-') = true ∧
          Js.isSpace (Char.ofNat n) = false ∧ (Char.ofNat n).toLower = Char.ofNat n ∧
          Char.ofNat n ≠ '(') := by
  decide

theorem wordChar_toLower (c : Char) (h : Js.isWordChar c = true) :
    (c.toLower.isLower = true ∨ c.toLower.isDigit = true ∨ c.toLower = '_') ∧
      c.toLower ≠ '-' := by
  have hc : c = Char.ofNat c.toNat := (Char.ofNat_toNat c).symm
  have ht := (ascii_table c.toNat (wordChar_ascii c h)).1
  rw [← hc] at ht
  have := ht h
  simp only [Bool.or_eq_true, beq_iff_eq] at this
  refine ⟨?_, this.2⟩
  rcases this.1 with (h1 | h1) | h1
  · exact Or.inl h1
  · exact Or.inr (Or.inl h1)
  · exact Or.inr (Or.inr h1)

theorem slugCode_facts (c : Char)
    (h : c.isLower = true ∨ c.isDigit = true ∨ c = '_' ∨ c = '-') :
    (Js.isWordChar c = true ∨ c = '-') ∧ Js.isSpace c = false ∧ c.toLower = c ∧ c ≠ '(' := by
  have hc : c = Char.ofNat c.toNat := (Char.ofNat_toNat c).symm
  have ht := (ascii_table c.toNat (slugCode_ascii c h)).2
  rw [← hc] at ht
  have := ht (by simp only [Bool.or_eq_true, beq_iff_eq]; tauto)
  simp only [Bool.or_eq_true, beq_iff_eq] at this
  exact this

theorem mem_replaceRunsAux (p : Char → Bool) (r : Str) (b : Bool) (s : Str) (c : Char)
    (h : c ∈ Js.replaceRunsAux p r b s) : c ∈ r ∨ (c ∈ s ∧ p c = false) := by
  induction s generalizing b with
  | nil => simp [Js.replaceRunsAux] at h
  | cons x xs ih =>
    unfold Js.replaceRunsAux at h
    by_cases hp : p x = true
    · rw [if_pos hp] at h
      cases b with
      | true =>
        simp only [if_true] at h
        rcases ih _ h with h1 | h1
        · exact Or.inl h1
        · exact Or.inr ⟨List.mem_cons_of_mem _ h1.1, h1.2⟩
      | false =>
        simp only [Bool.false_eq_true, if_false, List.mem_append] at h
        rcases h with h | h
        · exact Or.inl h
        · rcases ih _ h with h1 | h1
          · exact Or.inl h1
          · exact Or.inr ⟨List.mem_cons_of_mem _ h1.1, h1.2⟩
    · rw [if_neg hp] at h
      rcases List.mem_cons.mp h with h1 | h1
      · subst h1
        exact Or.inr ⟨List.mem_cons_self _ _, by simpa using hp⟩
      · rcases ih _ h1 with h2 | h2
        · exact Or.inl h2
        · exact Or.inr ⟨List.mem_cons_of_mem _ h2.1, h2.2⟩

theorem replaceRunsAux_none (p : Char → Bool) (r : Str) (b : Bool) (s : Str)
    (h : ∀ c ∈ s, p c = false) : Js.replaceRunsAux p r b s = s := by
  induction s generalizing b with
  | nil => rfl
  | cons x xs ih =>
    unfold Js.replaceRunsAux
    rw [if_neg (by simp [h x (List.mem_cons_self _ _)])]
    rw [ih _ (fun c hc => h c (List.mem_cons_of_mem _ hc))]

theorem mem_trim (s : Str) (c : Char) (h : c ∈ Js.trim s) : c ∈ s := by
  unfold Js.trim Js.trimEnd Js.trimStart at h
  rw [List.mem_reverse] at h
  have h1 := (List.dropWhile_suffix _).subset h
  rw [List.mem_reverse] at h1
  exact (List.dropWhile_suffix _).subset h1

/-- Worker of the collapse of hyphen runs: the result has no two adjacent hyphens and, inside
a run, does not start with a hyphen. -/
theorem collapse_chain (b : Bool) (s : Str) :
    List.Chain' (fun x y => ¬ (x = '-' ∧ y = '-'))
        (Js.replaceRunsAux (fun c => c = '-') ['-'] b s) ∧
      (b = true → (Js.replaceRunsAux (fun c => c = '-') ['-'] b s).head? ≠ some '-') := by
  induction s generalizing b with
  | nil => exact ⟨by simp [Js.replaceRunsAux], by simp [Js.replaceRunsAux]⟩
  | cons x xs ih =>
    unfold Js.replaceRunsAux
    by_cases hx : x = '-'
    · simp only [hx, decide_True, if_true]
      cases b with
      | true =>
        simp only [if_true]
        exact ⟨(ih true).1, fun _ => (ih true).2 rfl⟩
      | false =>
        simp only [Bool.false_eq_true, if_false, List.singleton_append]
        refine ⟨?_, by simp⟩
        rw [List.chain'_cons']
        refine ⟨?_, (ih true).1⟩
        intro y hy hcon
        exact (ih true).2 rfl (by rw [hcon.2] at hy; simpa using hy)
    · simp only [hx, decide_False, Bool.false_eq_true, if_false]
      refine ⟨?_, ?_⟩
      · rw [List.chain'_cons']
        exact ⟨fun y _ hcon => hx hcon.1, (ih false).1⟩
      · intro _
        simp only [List.head?_cons, ne_eq, Option.some.injEq]
        exact hx

theorem collapse_fixed (b : Bool) (s : Str)
    (hch : List.Chain' (fun x y => ¬ (x = '-' ∧ y = '-')) s)
    (hb : b = true → s.head? ≠ some '-') :
    Js.replaceRunsAux (fun c => c = '-') ['-'] b s = s := by
  induction s generalizing b with
  | nil => rfl
  | cons x xs ih =>
    unfold Js.replaceRunsAux
    rw [List.chain'_cons'] at hch
    by_cases hx : x = '-'
    · have hb' : b = false := by
        cases b with
        | false => rfl
        | true => exact absurd (by rw [hx]; rfl) (hb rfl)
      subst hb'
      simp only [hx, decide_True, if_true, Bool.false_eq_true, if_false, List.singleton_append]
      rw [ih true hch.2 (fun _ hy => hch.1 _ hy ⟨hx, rfl⟩)]
    · simp only [hx, decide_False, Bool.false_eq_true, if_false]
      rw [ih false hch.2 (fun h => absurd h (by decide))]

namespace Concepts

theorem dropEndHyphens_lead (r : Str) (h : r.head? ≠ some '-') :
    dropEndHyphens ('-' :: r) = dropEndHyphens r := by
  cases r with
  | nil => rfl
  | cons x xs =>
    have hx : x ≠ '-' := fun e => h (by rw [e]; rfl)
    simp [dropEndHyphens, hx]

theorem dropEndHyphens_concat (u : Str) (c : Char) (h : (u ++ [c]).head? ≠ some '-') :
    dropEndHyphens (u ++ [c]) = if c = '-' then u else u ++ [c] := by
  cases u with
  | nil =>
    have hc : c ≠ '-' := fun e => h (by rw [e]; rfl)
    simp [dropEndHyphens, hc]
  | cons x xs =>
    have hx : x ≠ '-' := fun e => h (by rw [e]; rfl)
    by_cases hc : c = '-'
    · simp [dropEndHyphens, hx, hc]
    · simp [dropEndHyphens, hx, hc]

theorem dropEndHyphens_clean (t : Str)
    (hch : List.Chain' (fun x y => ¬ (x = '-' ∧ y = '-')) t) (hh : t.head? ≠ some '-') :
    List.Chain' (fun x y => ¬ (x = '-' ∧ y = '-')) (dropEndHyphens t) ∧
      (dropEndHyphens t).head? ≠ some '-' ∧ (dropEndHyphens t).getLast? ≠ some '-' ∧
      ∀ c ∈ dropEndHyphens t, c ∈ t := by
  rcases List.eq_nil_or_concat t with rfl | ⟨u, c, rfl⟩
  · exact ⟨by simp [dropEndHyphens], by simp [dropEndHyphens], by simp [dropEndHyphens],
      by simp [dropEndHyphens]⟩
  · simp only [List.concat_eq_append] at hch hh ⊢
    rw [dropEndHyphens_concat u c hh]
    by_cases hc : c = '-'
    · rw [if_pos hc]
      rw [List.chain'_append] at hch
      refine ⟨hch.1, ?_, ?_, fun x hx => List.mem_append_left _ hx⟩
      · cases u with
        | nil => simp
        | cons x xs => simpa using hh
      · intro hl
        exact hch.2.2 '-' (by simp [hl]) c (by simp) ⟨rfl, hc⟩
    · rw [if_neg hc]
      exact ⟨hch, hh, by simp [hc], fun x hx => hx⟩

theorem dropEndHyphens_spec (s : Str)
    (hch : List.Chain' (fun x y => ¬ (x = '-' ∧ y = '-')) s) :
    List.Chain' (fun x y => ¬ (x = '-' ∧ y = '-')) (dropEndHyphens s) ∧
      (dropEndHyphens s).head? ≠ some '-' ∧ (dropEndHyphens s).getLast? ≠ some '-' ∧
      ∀ c ∈ dropEndHyphens s, c ∈ s := by
  by_cases hh : s.head? = some '-'
  · cases s with
    | nil => simp at hh
    | cons x r =>
      have hx : x = '-' := by simpa using hh
      subst hx
      rw [List.chain'_cons'] at hch
      have hr : r.head? ≠ some '-' := fun e => hch.1 '-' (by simp [e]) ⟨rfl, rfl⟩
      rw [dropEndHyphens_lead r hr]
      obtain ⟨h1, h2, h3, h4⟩ := dropEndHyphens_clean r hch.2 hr
      exact ⟨h1, h2, h3, fun c hc => List.mem_cons_of_mem _ (h4 c hc)⟩
  · exact dropEndHyphens_clean s hch hh

theorem dropEndHyphens_fixed (s : Str) (hh : s.head? ≠ some '-')
    (hl : s.getLast? ≠ some '-') : dropEndHyphens s = s := by
  rcases List.eq_nil_or_concat s with rfl | ⟨u, c, rfl⟩
  · rfl
  · simp only [List.concat_eq_append] at hh hl ⊢
    rw [dropEndHyphens_concat u c hh]
    have hc : c ≠ '-' := fun e => hl (by simp [e])
    rw [if_neg hc]

theorem parenMatchLength_none (s : Str) (h : '(' ∉ s) : parenMatchLength s = none := by
  unfold parenMatchLength
  split
  · rename_i c r hd
    have hc : c ∈ s := (List.dropWhile_suffix _).subset (by rw [hd]; exact List.mem_cons_self _ _)
    have : c ≠ '(' := fun e => h (e ▸ hc)
    simp [this]
  · rfl

theorem replaceParens_fixed (prev : Option Char) (s : Str) (h : '(' ∉ s) :
    Js.replaceMatches (fun _ s => parenMatchLength s) [' '] prev 0 s = s := by
  induction s generalizing prev with
  | nil => rfl
  | cons c cs ih =>
    unfold Js.replaceMatches
    rw [parenMatchLength_none _ h]
    simp only
    rw [ih _ (fun hc => h (List.mem_cons_of_mem _ hc))]

/-- The shape of a slug: only lowercase ASCII letters, digits, underscores and hyphens, no
two hyphens in a row, no hyphen at either end. -/
theorem toKebab_shape (s : Str) :
    (∀ c ∈ toKebab s, c.isLower = true ∨ c.isDigit = true ∨ c = '_' ∨ c = '-') ∧
      List.Chain' (fun x y => ¬ (x = '-' ∧ y = '-')) (toKebab s) ∧
      (toKebab s).head? ≠ some '-' ∧ (toKebab s).getLast? ≠ some '-' := by
  have hspec := dropEndHyphens_spec
    (Js.replaceRuns (fun c => c = '-') ['-']
      (Js.toLowerCase
        (Js.replaceSpaces ['-']
          (Js.trim
            ((Js.replaceMatches (fun _ s => parenMatchLength s) [' '] none 0 s).filter
              (fun c => Js.isWordChar c || Js.isSpace c || c = '-'))))))
    (collapse_chain false _).1
  refine ⟨?_, hspec.1, hspec.2.1, hspec.2.2.1⟩
  intro c hc
  have h1 := hspec.2.2.2 c hc
  rcases mem_replaceRunsAux _ _ _ _ c h1 with h2 | ⟨h2, _⟩
  · exact Or.inr (Or.inr (Or.inr (by simpa using h2)))
  · unfold Js.toLowerCase at h2
    obtain ⟨c0, hc0, rfl⟩ := List.mem_map.mp h2
    rcases mem_replaceRunsAux _ _ _ _ c0 hc0 with h3 | ⟨h3, hns⟩
    · have : c0 = '-' := by simpa using h3
      subst this
      exact Or.inr (Or.inr (Or.inr (by decide)))
    · have h4 := List.mem_filter.mp (mem_trim _ _ h3)
      have h5 : Js.isWordChar c0 = true ∨ c0 = '-' := by
        have := h4.2
        simp only [Bool.or_eq_true, decide_eq_true_eq, hns, Bool.false_eq_true, or_false] at this
        exact this
      rcases h5 with h5 | h5
      · rcases (wordChar_toLower c0 h5).1 with h6 | h6 | h6
        · exact Or.inl h6
        · exact Or.inr (Or.inl h6)
        · exact Or.inr (Or.inr (Or.inl h6))
      · have h6 : c0.toLower = '-' := by
          rw [h5]
          rfl
        exact Or.inr (Or.inr (Or.inr h6))

theorem toKebab_fixed (k : Str)
    (hcode : ∀ c ∈ k, c.isLower = true ∨ c.isDigit = true ∨ c = '_' ∨ c = '-')
    (hch : List.Chain' (fun x y => ¬ (x = '-' ∧ y = '-')) k)
    (hh : k.head? ≠ some '-') (hl : k.getLast? ≠ some '-') : toKebab k = k := by
  have hparen : '(' ∉ k := fun h => (slugCode_facts _ (hcode _ h)).2.2.2 rfl
  have hfilter : k.filter (fun c => Js.isWordChar c || Js.isSpace c || c = '-') = k := by
    rw [List.filter_eq_self]
    intro c hc
    rcases (slugCode_facts c (hcode c hc)).1 with h | h
    · simp only [h, Bool.true_or]
    · subst h
      rfl
  have hspace : ∀ c ∈ k, Js.isSpace c = false := fun c hc => (slugCode_facts c (hcode c hc)).2.1
  have htrim : Js.trim k = k := by
    apply trim_eq_self
    · intro c h
      exact hspace c (List.mem_of_mem_head? h)
    · intro c h
      exact hspace c (List.mem_of_mem_getLast? h)
  have hlower : Js.toLowerCase k = k := by
    unfold Js.toLowerCase
    conv_rhs => rw [← List.map_id k]
    exact List.map_congr_left (fun c hc => (slugCode_facts c (hcode c hc)).2.2.1)
  unfold toKebab
  rw [replaceParens_fixed none k hparen, hfilter, htrim]
  unfold Js.replaceSpaces Js.replaceRuns
  rw [replaceRunsAux_none Js.isSpace ['-'] false k hspace, hlower,
    collapse_fixed false k hch (fun h => absurd h (by decide)), dropEndHyphens_fixed k hh hl]

/-- C35: for every string `s`, `toKebab(toKebab(s))` is `toKebab(s)`, and `toKebab(s)` holds
only lowercase ASCII letters, digits, underscores and hyphens, never two hyphens in a row and
no hyphen at either end. -/
theorem toKebab_idempotent (s : Str) :
    toKebab (toKebab s) = toKebab s ∧
      (∀ c ∈ toKebab s, c.isLower = true ∨ c.isDigit = true ∨ c = '_' ∨ c = '-') ∧
      List.Chain' (fun x y => ¬ (x = '-' ∧ y = '-')) (toKebab s) ∧
      (toKebab s).head? ≠ some '-' ∧ (toKebab s).getLast? ≠ some '-' := by
  obtain ⟨h1, h2, h3, h4⟩ := toKebab_shape s
  exact ⟨toKebab_fixed _ h1 h2 h3 h4, h1, h2, h3, h4⟩

/-- The slug of "  Zero--Trust (ZT) model! " is "zero-trust-model", and slugging it again
changes nothing. -/
theorem toKebab_sample :
    toKebab "  Zero--Trust (ZT) model! ".toList = "zero-trust-model".toList ∧
      toKebab "zero-trust-model".toList = "zero-trust-model".toList := by
  decide

end Concepts

/-! ## The dedupe of both tools for the `toLowerCase` of the host, and the domain tags -/

theorem dedupeLoop_snoc {α : Type} (key : α → Str) (l : List α) (c : α) :
    dedupeLoop key [] (l ++ [c]) =
      dedupeLoop key [] l ++ (if key c ∈ l.map key then [] else [c]) := by
  rw [dedupeLoop_append, List.append_nil]
  have h : dedupeLoop key (l.map key) [c] = (if key c ∈ l.map key then [] else [c]) := by
    rw [dedupeLoop_cons]
    split <;> rfl
  rw [h]

namespace Flashcards

theorem dedupe_eq_dedupeOf (cards : List Flashcard) :
    dedupe cards = dedupeOf Js.toLowerCase cards := rfl

theorem dedupeKeyOf_of_pair (toLowerCase : Str → Str) {c d : Flashcard}
    (h : normalizedPairOf toLowerCase c = normalizedPairOf toLowerCase d) :
    dedupeKeyOf toLowerCase c = dedupeKeyOf toLowerCase d := by
  unfold normalizedPairOf at h
  unfold dedupeKeyOf
  rw [(Prod.mk.inj h).1, (Prod.mk.inj h).2]

/-- C4 (failing input): the cards ("a||b", "c") and ("a", "b||c") have different normalised
(question, answer) pairs, yet `dedupe` returns the first card only, so no card is kept for
the pair of the second. For the `toLowerCase` of the host and every list of cards, the other
parts hold: the result is a sublist of the input, its normalised pairs are pairwise distinct,
every card kept is the first card of the input with its pair, a card appended to the input is
kept exactly when no earlier card has its key, every card of the input has a kept card with
its key (with its pair when equal keys mean equal pairs on the input), and `dedupe` leaves
its own result unchanged. -/
theorem dedupe_pair_without_card :
    normalizedPair splitInQuestion ≠ normalizedPair splitInAnswer ∧
    dedupe [splitInQuestion, splitInAnswer] = [splitInQuestion] ∧
    (∀ c ∈ dedupe [splitInQuestion, splitInAnswer],
      normalizedPair c ≠ normalizedPair splitInAnswer) ∧
    (∀ cards : List Flashcard, dedupe cards = dedupeOf Js.toLowerCase cards) ∧
    (∀ (toLowerCase : Str → Str) (cards : List Flashcard),
      List.Sublist (dedupeOf toLowerCase cards) cards ∧
      ((dedupeOf toLowerCase cards).map (normalizedPairOf toLowerCase)).Nodup ∧
      (∀ c ∈ dedupeOf toLowerCase cards,
        cards.find? (fun x =>
          decide (normalizedPairOf toLowerCase x = normalizedPairOf toLowerCase c)) = some c) ∧
      (∀ c : Flashcard, dedupeOf toLowerCase (cards ++ [c]) =
        dedupeOf toLowerCase cards ++
          (if dedupeKeyOf toLowerCase c ∈ cards.map (dedupeKeyOf toLowerCase) then []
           else [c])) ∧
      (∀ x ∈ cards, ∃ c ∈ dedupeOf toLowerCase cards,
        dedupeKeyOf toLowerCase c = dedupeKeyOf toLowerCase x) ∧
      ((∀ x ∈ cards, ∀ y ∈ cards, dedupeKeyOf toLowerCase x = dedupeKeyOf toLowerCase y →
          normalizedPairOf toLowerCase x = normalizedPairOf toLowerCase y) →
        ∀ x ∈ cards, ∃ c ∈ dedupeOf toLowerCase cards,
          normalizedPairOf toLowerCase c = normalizedPairOf toLowerCase x) ∧
      dedupeOf toLowerCase (dedupeOf toLowerCase cards) = dedupeOf toLowerCase cards) := by
  refine ⟨by decide, by decide, by decide, dedupe_eq_dedupeOf, ?_⟩
  intro toLowerCase cards
  have hsub : List.Sublist (dedupeOf toLowerCase cards) cards := dedupeLoop_sublist _ _ _
  have hcov : ∀ x ∈ cards, ∃ c ∈ dedupeOf toLowerCase cards,
      dedupeKeyOf toLowerCase c = dedupeKeyOf toLowerCase x :=
    fun x hx => dedupeLoop_covers (dedupeKeyOf toLowerCase) [] cards x hx (List.not_mem_nil _)
  refine ⟨hsub, ?_, ?_, ?_, hcov, ?_, ?_⟩
  · have hk := dedupeLoop_keys_nodup (dedupeKeyOf toLowerCase) [] cards
    have hmap : (dedupeOf toLowerCase cards).map (dedupeKeyOf toLowerCase) =
        ((dedupeOf toLowerCase cards).map (normalizedPairOf toLowerCase)).map
          (fun p => p.1 ++ "||".toList ++ p.2) := by
      rw [List.map_map]
      rfl
    unfold dedupeOf at hmap ⊢
    rw [hmap] at hk
    exact List.Nodup.of_map _ hk
  · intro c hc
    apply find?_of_weaker _ _ _ _ (dedupeLoop_first (dedupeKeyOf toLowerCase) [] cards c hc)
    · intro x hx
      simp only [decide_eq_true_eq] at hx ⊢
      exact dedupeKeyOf_of_pair toLowerCase hx
    · simp
  · intro c
    exact dedupeLoop_snoc _ _ _
  · intro hinj x hx
    obtain ⟨c, hc, hk⟩ := hcov x hx
    exact ⟨c, hc, hinj c (hsub.subset hc) x hx hk⟩
  · exact dedupeLoop_eq_self _ _ _ (dedupeLoop_keys_nodup _ _ _) (fun _ _ => List.not_mem_nil _)

end Flashcards

namespace Merge

theorem mergeMain_eq_mergeMainOf (dedupe : Bool) (newData : Root) (existingData : Option Root) :
    mergeMain dedupe newData existingData = mergeMainOf Js.toLowerCase dedupe newData existingData :=
  rfl

/-- C6 (amended): when the cards of the new batch and of the existing corpus are well-formed
(`normalize` keeps each of them) and no two of the normalised cards have the same dedupe key
(lowercased front, "||", lowercased back, with the `toLowerCase` of the host), the merge with
dedupe on returns exactly the N normalised new records, in order, followed by the M
normalised existing records, in order. -/
theorem merge_disjoint_keys (toLowerCase : Str → Str) (newData existingData : Root)
    (newRaw existingRaw : List Card)
    (hnew : toCards newData = Except.ok newRaw)
    (hexisting : toCards existingData = Except.ok existingRaw)
    (hwf : ∀ c ∈ newRaw ++ existingRaw, (normalize c).isSome = true)
    (hkeys : (((newRaw ++ existingRaw).filterMap normalize).map
      (frontBackKeyOf toLowerCase)).Nodup) :
    mergeMainOf toLowerCase true newData (some existingData) =
        Except.ok (newRaw.filterMap normalize ++ existingRaw.filterMap normalize) ∧
      (newRaw.filterMap normalize).length = newRaw.length ∧
      (existingRaw.filterMap normalize).length = existingRaw.length := by
  have hlen : ∀ l : List Card, (∀ c ∈ l, (normalize c).isSome = true) →
      (l.filterMap normalize).length = l.length := by
    intro l
    induction l with
    | nil => intro _; rfl
    | cons x xs ih =>
      intro h
      have hx := h x (List.mem_cons_self _ _)
      obtain ⟨m, hm⟩ := Option.isSome_iff_exists.mp hx
      rw [List.filterMap_cons_some hm, List.length_cons, List.length_cons,
        ih (fun c hc => h c (List.mem_cons_of_mem _ hc))]
  refine ⟨?_, hlen _ (fun c hc => hwf c (List.mem_append_left _ hc)),
    hlen _ (fun c hc => hwf c (List.mem_append_right _ hc))⟩
  unfold mergeMainOf normalizedCards
  simp only [hnew, hexisting, if_true]
  rw [List.filterMap_append] at hkeys
  unfold dedupeByFrontBackOf
  rw [dedupeLoop_eq_self _ _ _ hkeys (fun _ _ => List.not_mem_nil _)]

theorem merge_disjoint_keys_witness :
    mergeMainOf Js.toLowerCase true batchAB (some batchCD) =
        Except.ok
          ([{ front := some "A".toList, back := some "B".toList }].filterMap normalize ++
            [{ front := some "C".toList, back := some "D".toList }].filterMap normalize) ∧
      ([({ front := some "A".toList, back := some "B".toList } : Card)].filterMap
        normalize).length = 1 ∧
      ([({ front := some "C".toList, back := some "D".toList } : Card)].filterMap
        normalize).length = 1 :=
  merge_disjoint_keys Js.toLowerCase batchAB batchCD
    [{ front := some "A".toList, back := some "B".toList }]
    [{ front := some "C".toList, back := some "D".toList }] rfl rfl (by decide) (by decide)

theorem flashcardEntries_of_entry (entries : List (Str × Option (List Card))) (name : Str)
    (arr : List Card) (c0 : Card) (h : (name, some arr) ∈ entries) (h0 : c0 ∈ arr) :
    { c0 with _domain := domainNameToNum name } ∈ flashcardEntries entries := by
  induction entries with
  | nil => simp at h
  | cons e es ih =>
    obtain ⟨n, a⟩ := e
    cases a with
    | none =>
      rcases List.mem_cons.mp h with h1 | h1
      · cases h1
      · simpa [flashcardEntries] using ih h1
    | some a =>
      simp only [flashcardEntries, List.mem_append, List.mem_map]
      rcases List.mem_cons.mp h with h1 | h1
      · have h2 := Prod.mk.inj h1
        have h3 : arr = a := Option.some.inj h2.2
        left
        exact ⟨c0, h3 ▸ h0, by rw [h2.1]⟩
      · exact Or.inr (ih h1)

/-- C25: for the shape `{ flashcards: { "<domain name>": [...] } }` the normalised records are
exactly the records that `normalize` returns for a card of an array of the map, tagged with
the first digit of the name of that array. Whenever the name holds a digit, the record that
comes from a card under that name has as `domain` the first digit N of the name, and its tags
are the card's tags (the default tags when it has none) followed by `domain-N`, unless they
hold `domain-N` already, in which case they are unchanged. Records of the array, `{ cards }`
and `{ flashcards: [...] }` shapes have no `domain` and exactly the card's tags. -/
theorem domain_map_records_tagged :
    (∀ (o : RootObject) (entries : List (Str × Option (List Card))),
      (∀ cs, o.cards ≠ Field.array cs) → o.flashcards = Field.object entries →
      ∃ out, normalizedCards (Root.object o) = Except.ok out ∧
        ∀ r, r ∈ out ↔ ∃ name arr c0, (name, some arr) ∈ entries ∧ c0 ∈ arr ∧
          normalize { c0 with _domain := domainNameToNum name } = some r) ∧
    (∀ (name N : Str) (c0 : Card) (r : Merged),
      domainNameToNum name = some N →
      normalize { c0 with _domain := domainNameToNum name } = some r →
        (∃ pre d post, name = pre ++ d :: post ∧ d.isDigit = true ∧
          (∀ x ∈ pre, x.isDigit = false) ∧ N = [d]) ∧
        r.domain = some N ∧
        "domain-".toList ++ N ∈ r.tags ∧
        r.tags =
          (if "domain-".toList ++ N ∈ c0.tags.getD ["security-plus".toList, "sy0-701".toList]
            then c0.tags.getD ["security-plus".toList, "sy0-701".toList]
            else c0.tags.getD ["security-plus".toList, "sy0-701".toList] ++
              ["domain-".toList ++ N])) ∧
    (∀ (cards : List Card) (out : List Merged),
      normalizedCards (Root.array cards) = Except.ok out →
      ∀ r ∈ out, r.domain = none ∧
        ∃ c0 ∈ cards, r.tags = c0.tags.getD ["security-plus".toList, "sy0-701".toList]) ∧
    (∀ (o : RootObject) (cards : List Card) (out : List Merged),
      o.cards = Field.array cards ∨
        ((∀ cs, o.cards ≠ Field.array cs) ∧ o.flashcards = Field.array cards) →
      normalizedCards (Root.object o) = Except.ok out →
      ∀ r ∈ out, r.domain = none ∧
        ∃ c0 ∈ cards, r.tags = c0.tags.getD ["security-plus".toList, "sy0-701".toList]) := by
  refine ⟨?_, ?_, ?_, ?_⟩
  · intro o entries hcards hflash
    have ht : toCards (Root.object o) = Except.ok (flashcardEntries entries) := by
      unfold toCards
      cases hc : o.cards with
      | array cs => exact absurd hc (hcards cs)
      | absent => simp [hflash]
      | object es => simp [hflash]
      | other => simp [hflash]
    refine ⟨(flashcardEntries entries).filterMap normalize, ?_, ?_⟩
    · unfold normalizedCards
      rw [ht]
    · intro r
      constructor
      · intro hr
        obtain ⟨c, hc, hn⟩ := List.mem_filterMap.mp hr
        obtain ⟨name, arr, c0, hmem, hc0, rfl⟩ := mem_flashcardEntries entries c hc
        exact ⟨name, arr, c0, hmem, hc0, hn⟩
      · rintro ⟨name, arr, c0, hmem, hc0, hn⟩
        exact List.mem_filterMap.mpr
          ⟨_, flashcardEntries_of_entry entries name arr c0 hmem hc0, hn⟩
  · intro name N c0 r hN hn
    obtain ⟨pre, d, post, h1, h2, h3, h4⟩ := domainNameToNum_first_digit name N hN
    obtain ⟨_, _, _, _, hd, htags⟩ := normalize_some _ r hn
    have hne : N ≠ [] := by rw [h4]; simp
    simp only [hN, hne, if_true, ne_eq, not_false_eq_true] at hd htags
    refine ⟨⟨pre, d, post, h1, h2, h3, h4⟩, hd, ?_, htags⟩
    rw [htags]
    split
    · assumption
    · simp
  · intro cards out h
    exact normalizedCards_array_shape cards out (by
      unfold normalizedCards toCards at h
      simpa using h.symm)
  · intro o cards out hshape h
    refine normalizedCards_array_shape cards out ?_
    unfold normalizedCards toCards at h
    rcases hshape with h1 | ⟨h1, h2⟩
    · simp only [h1, Except.ok.injEq] at h
      exact h.symm
    · cases hc : o.cards with
      | array cs => exact absurd hc (h1 cs)
      | absent => simp only [hc, h2, Except.ok.injEq] at h; exact h.symm
      | object es => simp only [hc, h2, Except.ok.injEq] at h; exact h.symm
      | other => simp only [hc, h2, Except.ok.injEq] at h; exact h.symm

theorem domain_map_records_tagged_witness :
    (∃ out, normalizedCards domainMapAB = Except.ok out ∧ taggedAB ∈ out) ∧
      taggedAB.domain = some "1".toList ∧ "domain-1".toList ∈ taggedAB.tags := by
  obtain ⟨out, h, hiff⟩ := domain_map_records_tagged.1
    { flashcards := Field.object
        [("Domain 1".toList, some [{ front := some "A".toList, back := some "B".toList }])] }
    [("Domain 1".toList, some [{ front := some "A".toList, back := some "B".toList }])]
    (by intro cs h; cases h) rfl
  have hfacts := domain_map_records_tagged.2.1 "Domain 1".toList "1".toList
    { front := some "A".toList, back := some "B".toList } taggedAB rfl rfl
  exact ⟨⟨out, h, (hiff taggedAB).mpr ⟨"Domain 1".toList,
    [{ front := some "A".toList, back := some "B".toList }],
    { front := some "A".toList, back := some "B".toList },
    List.mem_singleton.mpr rfl, List.mem_singleton.mpr rfl, rfl⟩⟩, hfacts.2.1, hfacts.2.2.1⟩

end Merge
